import Mathlib

/-! An AVL-style ordered set (`Set<T>` of `src/main.cpp`)

The C++ container keeps its nodes in a pointer structure: `left` and `right`
are owning pointers, `parent` is a non-owning back reference.  The embedding
below follows that split.

* An owning pointer (`root`, `left`, `right`, and every `NodePtr` value that
  the recursive routines pass around) is an inductive `Tree`; `Tree.nil` is
  `nullptr`.
* Every node carries the address `self` at which it was allocated.  A
  non-owning pointer (`parent`, the iterator field `mPtr`) is an
  `Option Nat` holding such an address; `none` is `nullptr`.
* `new Node` takes its address from a counter kept next to the root, so
  addresses are never handed out twice.
* `size_t` fields are `Nat`, the `int` returned by `BalanceFactor` is `Int`.
  Stored heights of a tree that fits in memory are far below `2^31`, where
  the C++ arithmetic (`size_t` difference narrowed to `int`) is the exact
  signed difference.
* Dereferencing a null or dangling pointer is undefined in C++; the routines
  that dereference without a check return `Option`, with `none` for that case.
* Keys come from a linearly ordered type: `operator<` is a strict total order,
  so "neither `a < b` nor `b < a`" is equality.
-/

namespace AlgoSet

/-- A node pointer that owns its target: `nil` is `nullptr`, `node` is the
`Node` struct (fields in declaration order) together with its own address. -/
inductive Tree (α : Type) where
  | nil : Tree α
  | node (self : Nat) (parent : Option Nat) (left right : Tree α) (key : α)
      (size height : Nat) : Tree α
  deriving DecidableEq

open Tree

variable {α : Type}

/-- The test `node == nullptr`. -/
def Tree.isNull : Tree α → Bool
  | nil => true
  | node _ _ _ _ _ _ _ => false

/-- The value of a node pointer seen as an address. -/
def Tree.ptr : Tree α → Option Nat
  | nil => none
  | node a _ _ _ _ _ _ => some a

/-- The `Node(key, parent)` constructor, for a node allocated at `a`. -/
def Tree.mk (a : Nat) (key : α) (parent : Option Nat) : Tree α :=
  node a parent nil nil key 1 0

/-- The guarded assignment `if (x != nullptr) x->parent = p`. -/
def setParent (p : Option Nat) : Tree α → Tree α
  | nil => nil
  | node a _ l r k s h => node a p l r k s h

/-- Source routine `Set::Height`. -/
def Height : Tree α → Nat
  | nil => 0
  | node _ _ _ _ _ _ h => h

/-- Source routine `Set::Size`. -/
def Size : Tree α → Nat
  | nil => 0
  | node _ _ _ _ _ s _ => s

/-- Source routine `Set::BalanceFactor`. -/
def BalanceFactor : Tree α → Int
  | nil => 0
  | node _ _ l r _ _ _ => (Height l : Int) - (Height r : Int)

/-- Source routine `Set::Pull`: recompute `height` and `size` of a node from its children. -/
def Pull : Tree α → Tree α
  | nil => nil
  | node a p l r k _ _ =>
    let height := 0
    let size := 1
    let height := if l.isNull then height else max height (Height l + 1)
    let size := if l.isNull then size else size + Size l
    let height := if r.isNull then height else max height (Height r + 1)
    let size := if r.isNull then size else size + Size r
    node a p l r k size height

/-- Source routine `Set::RotateRight`: the right child becomes the root of the subtree. -/
def RotateRight : Tree α → Option (Tree α)
  | node a p l (node b _ rl rr rk rs rh) k s h =>
    some (Pull (node b p (Pull (node a (some b) l (setParent (some a) rl) k s h)) rr rk rs rh))
  | _ => none

/-- Source routine `Set::RotateLeft`: the left child becomes the root of the subtree. -/
def RotateLeft : Tree α → Option (Tree α)
  | node a p (node b _ ll lr lk ls lh) r k s h =>
    some (Pull (node b p ll (Pull (node a (some b) (setParent (some a) lr) r k s h)) lk ls lh))
  | _ => none

/-- Source routine `Set::Rebalance`. -/
def Rebalance : Tree α → Option (Tree α)
  | nil => some nil
  | node a p l r k s h =>
    if BalanceFactor (node a p l r k s h) < -1 then
      (if BalanceFactor r > 0 then RotateLeft r else some r).bind fun r1 =>
        (RotateRight (node a p l r1 k s h)).bind fun t => some (Pull t)
    else if BalanceFactor (node a p l r k s h) > 1 then
      (if BalanceFactor l < 0 then RotateRight l else some l).bind fun l1 =>
        (RotateLeft (node a p l1 r k s h)).bind fun t => some (Pull t)
    else
      some (Pull (node a p l r k s h))

/-- Source routine `Set::Insert`; `fresh` is the address `new Node` returns. -/
def Insert [LinearOrder α] (fresh : Nat) (key : α) : Tree α → Option Nat → Option (Tree α)
  | nil, parent => some (Tree.mk fresh key parent)
  | node a p l r k s h, _ =>
    if ¬ (key < k) ∧ ¬ (k < key) then
      some (node a p l r k s h)
    else if key < k then
      (Insert fresh key l (some a)).bind fun l1 => Rebalance (node a p l1 r k s h)
    else
      (Insert fresh key r (some a)).bind fun r1 => Rebalance (node a p l r1 k s h)

/-- Source routine `Set::GetMinimum`. -/
def GetMinimum : Tree α → Tree α
  | nil => nil
  | node a p l r k s h =>
    if ¬ l.isNull then GetMinimum l else node a p l r k s h

/-- Source routine `Set::GetMaximum`. -/
def GetMaximum : Tree α → Tree α
  | nil => nil
  | node a p l r k s h =>
    if ¬ r.isNull then GetMaximum r else node a p l r k s h

/-- Source routine `Set::EraseMinimum`: the subtree without its leftmost node. -/
def EraseMinimum : Tree α → Option (Tree α)
  | nil => none
  | node _ _ nil r _ _ _ => some r
  | node a p (node la lp ll lr lk ls lh) r k s h =>
    (EraseMinimum (node la lp ll lr lk ls lh)).bind fun l1 =>
      Rebalance (node a p (Pull (setParent (some a) l1)) r k s h)

/-- Source routine `Set::Erase`. -/
def Erase [LinearOrder α] (key : α) : Tree α → Option Nat → Option (Tree α)
  | nil, _ => some nil
  | node a p l r k s h, parent =>
    if key < k then
      (Erase key l (some a)).bind fun l1 => Rebalance (node a p l1 r k s h)
    else if k < key then
      (Erase key r (some a)).bind fun r1 => Rebalance (node a p l r1 k s h)
    else
      (if l.isNull ∧ r.isNull then some nil
       else if r.isNull then some (setParent parent l)
       else if l.isNull then some (setParent parent r)
       else
        match GetMinimum r with
        | nil => none
        | node ma _ _ _ mk ms mh =>
          (EraseMinimum r).bind fun r1 =>
            Rebalance (node ma parent (setParent (some ma) l) (setParent (some ma) r1) mk ms mh)
      ).bind Rebalance

/-- Source routine `Set::Find`. -/
def Find [LinearOrder α] : Tree α → α → Tree α
  | nil, _ => nil
  | node a p l r k s h, key =>
    if key < k then Find l key
    else if k < key then Find r key
    else node a p l r k s h

/-- Source routine `Set::LowerBound`. -/
def LowerBound [LinearOrder α] : Tree α → α → Tree α
  | nil, _ => nil
  | node a p l r k s h, key =>
    if key < k then
      let result := LowerBound l key
      if result.isNull then node a p l r k s h else result
    else if k < key then LowerBound r key
    else node a p l r k s h

/-- The set object: its `root` pointer, and the allocation counter `next`
that stands for the free store (`new Node` returns `next`; the counter is
advanced at every `insert` call, so an address is never handed out twice). -/
structure Set (α : Type) where
  root : Tree α
  next : Nat

/-- The default constructor `Set()`. -/
def Set.empty : Set α := ⟨nil, 0⟩

/-- Source routine `Set::insert`. -/
def Set.insert [LinearOrder α] (s : Set α) (key : α) : Option (Set α) :=
  (Insert s.next key s.root none).bind fun t => some ⟨t, s.next + 1⟩

/-- Source routine `Set::erase`. -/
def Set.erase [LinearOrder α] (s : Set α) (key : α) : Option (Set α) :=
  (Erase key s.root none).bind fun t => some ⟨t, s.next⟩

/-- Source routine `Set::size`. -/
def Set.size (s : Set α) : Nat := Size s.root

/-- Source routine `Set::empty` (the query). -/
def Set.isEmpty (s : Set α) : Bool := s.root.isNull

/-- A call of one of the two mutators. -/
inductive Op (α : Type) where
  | insert (key : α) : Op α
  | erase (key : α) : Op α
  deriving DecidableEq

/-- Run one mutator call. -/
def Set.step [LinearOrder α] (s : Set α) : Op α → Option (Set α)
  | Op.insert k => s.insert k
  | Op.erase k => s.erase k

/-- Run a sequence of mutator calls, first to last. -/
def Set.runFrom [LinearOrder α] : Set α → List (Op α) → Option (Set α)
  | s, [] => some s
  | s, op :: ops => (s.step op).bind fun s1 => Set.runFrom s1 ops

/-- Run a sequence of mutator calls on the empty set. -/
def Set.run [LinearOrder α] (ops : List (Op α)) : Option (Set α) :=
  Set.runFrom Set.empty ops

/-! ### Memory and cursors

A non-owning pointer is followed by looking its address up among the nodes
owned by the root. -/

/-- The node stored at address `x` among the nodes owned by `mem`
(`nil` when there is none: a dangling pointer). -/
def deref : Tree α → Nat → Tree α
  | nil, _ => nil
  | node a p l r k s h, x =>
    if x = a then node a p l r k s h
    else if (deref l x).isNull then deref r x
    else deref l x

/-- The loop `while (node->parent != nullptr && node->parent->right == node)
node = node->parent` of `GetNext`, bounded by `fuel` iterations; the result
is the node at which the loop stops. -/
def climbWhileRight (mem : Tree α) : Nat → Nat → Option Nat
  | 0, _ => none
  | fuel + 1, a =>
    match deref mem a with
    | nil => none
    | node _ none _ _ _ _ _ => some a
    | node _ (some p) _ _ _ _ _ =>
      match deref mem p with
      | nil => none
      | node _ _ _ pr _ _ _ =>
        if pr.ptr = some a then climbWhileRight mem fuel p else some a

/-- The loop `while (node->parent != nullptr && node->parent->left == node)
node = node->parent` of `GetPrevious`, bounded by `fuel` iterations. -/
def climbWhileLeft (mem : Tree α) : Nat → Nat → Option Nat
  | 0, _ => none
  | fuel + 1, a =>
    match deref mem a with
    | nil => none
    | node _ none _ _ _ _ _ => some a
    | node _ (some p) _ _ _ _ _ =>
      match deref mem p with
      | nil => none
      | node _ _ pl _ _ _ _ =>
        if pl.ptr = some a then climbWhileLeft mem fuel p else some a

/-- Source routine `Set::GetNext(node, isEnd)`: the returned pointer and the new value of
the flag passed by reference. -/
def GetNext (mem : Tree α) (fuel : Nat) (node : Option Nat) (isEnd : Bool) :
    Option (Option Nat × Bool) :=
  match node with
  | none => some (none, isEnd)
  | some a =>
    match deref mem a with
    | nil => none
    | Tree.node _ _ _ r _ _ _ =>
      if r.isNull then
        (climbWhileRight mem fuel a).bind fun b =>
          match deref mem b with
          | nil => none
          | Tree.node _ bp _ _ _ _ _ =>
            if bp = none then some (some b, true) else some (bp, false)
      else some ((GetMinimum r).ptr, false)

/-- Source routine `Set::GetPrevious(node, isEnd)`. -/
def GetPrevious (mem : Tree α) (fuel : Nat) (node : Option Nat) (isEnd : Bool) :
    Option (Option Nat × Bool) :=
  match node with
  | none => some (none, isEnd)
  | some a =>
    match deref mem a with
    | nil => none
    | Tree.node _ _ l _ _ _ _ =>
      if l.isNull then
        (climbWhileLeft mem fuel a).bind fun b =>
          match deref mem b with
          | nil => none
          | Tree.node _ bp _ _ _ _ _ =>
            if bp = none then some (some a, false) else some (bp, false)
      else some ((GetMaximum l).ptr, false)

/-- The cursor `Iterator<ValueType>`. -/
structure Iterator where
  mPtr : Option Nat
  isEnd : Bool
  deriving DecidableEq

/-- Source routine `Iterator::operator*`: the key of the node the cursor points at. -/
def Iterator.star (mem : Tree α) (it : Iterator) : Option α :=
  match it.mPtr with
  | none => none
  | some a =>
    match deref mem a with
    | nil => none
    | node _ _ _ _ k _ _ => some k

/-- Source routine `Iterator::operator++` (pre-increment form; the cursor after the step). -/
def Iterator.inc (mem : Tree α) (fuel : Nat) (it : Iterator) : Option Iterator :=
  if it.isEnd then some it
  else (GetNext mem fuel it.mPtr it.isEnd).bind fun r => some ⟨r.1, r.2⟩

/-- Source routine `Iterator::operator--` (pre-decrement form; the cursor after the step).  At a
past-the-end cursor `GetMaximum(mPtr)` descends from the node `mPtr` points at. -/
def Iterator.dec (mem : Tree α) (fuel : Nat) (it : Iterator) : Option Iterator :=
  if it.isEnd then
    match it.mPtr with
    | none => some ⟨none, it.isEnd⟩
    | some a =>
      match deref mem a with
      | nil => none
      | node b p l r k s h =>
        let m := (GetMaximum (node b p l r k s h)).ptr
        some ⟨m, if m ≠ none then false else it.isEnd⟩
  else (GetPrevious mem fuel it.mPtr it.isEnd).bind fun r => some ⟨r.1, r.2⟩

/-- Source routine `operator==` on cursors. -/
def Iterator.eq (lhs rhs : Iterator) : Bool :=
  lhs.mPtr == rhs.mPtr && lhs.isEnd == rhs.isEnd

/-- Source routine `operator!=` on cursors. -/
def Iterator.ne (lhs rhs : Iterator) : Bool :=
  lhs.mPtr != rhs.mPtr || lhs.isEnd != rhs.isEnd

/-- Source routine `Set::begin`. -/
def Set.begin (s : Set α) : Iterator :=
  ⟨(GetMinimum s.root).ptr, s.isEmpty⟩

/-- Source routine `Set::end`. -/
def Set.end (s : Set α) : Iterator :=
  ⟨s.root.ptr, true⟩

/-- Source routine `Set::find`. -/
def Set.find [LinearOrder α] (s : Set α) (key : α) : Iterator :=
  let node := Find s.root key
  if ¬ node.isNull then ⟨node.ptr, false⟩ else s.end

/-- Source routine `Set::lower_bound`. -/
def Set.lower_bound [LinearOrder α] (s : Set α) (key : α) : Iterator :=
  let node := LowerBound s.root key
  if ¬ node.isNull then ⟨node.ptr, false⟩ else s.end

/-- The loop `for (it = first; it != end(); ++it) out.push_back(*it)`, bounded
by `n` iterations. -/
def Set.collect (s : Set α) (fuel : Nat) : Nat → Iterator → Option (List α)
  | 0, _ => none
  | n + 1, it =>
    if Iterator.ne it s.end then
      (Iterator.star s.root it).bind fun k =>
        (Iterator.inc s.root fuel it).bind fun it1 =>
          (Set.collect s fuel n it1).bind fun ks => some (k :: ks)
    else some []

/-! ### Specification vocabulary -/

/-- The in-order key sequence of a tree. -/
def keys : Tree α → List α
  | nil => []
  | node _ _ l r k _ _ => keys l ++ k :: keys r

/-- The addresses of the nodes of a tree, in order. -/
def addrs : Tree α → List Nat
  | nil => []
  | node a _ l r _ _ _ => addrs l ++ a :: addrs r

/-- Invariant 1 (BST order): at every node the keys on the left are strictly
smaller and the keys on the right strictly larger than the node's key. -/
def BSTOrder [LinearOrder α] : Tree α → Prop
  | nil => True
  | node _ _ l r k _ _ =>
    (∀ x ∈ keys l, x < k) ∧ (∀ x ∈ keys r, k < x) ∧ BSTOrder l ∧ BSTOrder r

/-- Invariant 2 (balance), with the heights that `Height` reports. -/
def Balanced : Tree α → Prop
  | nil => True
  | node _ _ l r _ _ _ =>
    -1 ≤ (Height l : Int) - Height r ∧ (Height l : Int) - Height r ≤ 1 ∧
      Balanced l ∧ Balanced r

/-- Invariant 3 (size consistency). -/
def SizeOK : Tree α → Prop
  | nil => True
  | node _ _ l r _ s _ => s = 1 + Size l + Size r ∧ SizeOK l ∧ SizeOK r

/-- Invariant 4 (height consistency): the stored height is what `Pull`
computes from the children. -/
def HeightOK : Tree α → Prop
  | nil => True
  | node _ _ l r _ _ h =>
    h = (if l.isNull ∧ r.isNull then 0 else 1 + max (Height l) (Height r)) ∧
      HeightOK l ∧ HeightOK r

/-- Invariant 5 (parent consistency) for a subtree hanging below `par`. -/
def ParentOK : Option Nat → Tree α → Prop
  | _, nil => True
  | par, node a p l r _ _ _ => p = par ∧ ParentOK (some a) l ∧ ParentOK (some a) r

/-- What `Rebalance` does to a node, case by case: nothing at a null pointer,
a `Pull` at a node whose balance factor is within `[-1, 1]`, and one of the
four rotation patterns otherwise. -/
inductive RebalStep : Tree α → Tree α → Prop
  | null : RebalStep nil nil
  | keep (a : Nat) (p : Option Nat) (l r : Tree α) (k : α) (s h : Nat) :
      -1 ≤ (Height l : Int) - Height r → (Height l : Int) - Height r ≤ 1 →
      RebalStep (node a p l r k s h) (Pull (node a p l r k s h))
  | right (a : Nat) (p : Option Nat) (l : Tree α) (k : α) (s h b : Nat) (q : Option Nat)
      (rl rr : Tree α) (rk : α) (rs rh : Nat) :
      (Height l : Int) - rh < -1 → (Height rl : Int) - Height rr ≤ 0 →
      RebalStep (node a p l (node b q rl rr rk rs rh) k s h)
        (Pull (node b p (Pull (node a (some b) l (setParent (some a) rl) k s h)) rr rk rs rh))
  | rightLeft (a : Nat) (p : Option Nat) (l : Tree α) (k : α) (s h b : Nat) (q : Option Nat)
      (rr : Tree α) (rk : α) (rs rh c : Nat) (q1 : Option Nat) (rll rlr : Tree α) (ck : α)
      (cs ch : Nat) :
      (Height l : Int) - rh < -1 → (ch : Int) - Height rr > 0 →
      RebalStep (node a p l (node b q (node c q1 rll rlr ck cs ch) rr rk rs rh) k s h)
        (Pull (node c p (Pull (node a (some c) l (setParent (some a) rll) k s h))
          (Pull (node b (some c) (setParent (some b) rlr) rr rk rs rh)) ck cs ch))
  | left (a : Nat) (p : Option Nat) (r : Tree α) (k : α) (s h b : Nat) (q : Option Nat)
      (ll lr : Tree α) (lk : α) (ls lh : Nat) :
      (lh : Int) - Height r > 1 → (Height ll : Int) - Height lr ≥ 0 →
      RebalStep (node a p (node b q ll lr lk ls lh) r k s h)
        (Pull (node b p ll (Pull (node a (some b) (setParent (some a) lr) r k s h)) lk ls lh))
  | leftRight (a : Nat) (p : Option Nat) (r : Tree α) (k : α) (s h b : Nat) (q : Option Nat)
      (ll : Tree α) (lk : α) (ls lh c : Nat) (q1 : Option Nat) (lrl lrr : Tree α) (ck : α)
      (cs ch : Nat) :
      (lh : Int) - Height r > 1 → (Height ll : Int) - ch < 0 →
      RebalStep (node a p (node b q ll (node c q1 lrl lrr ck cs ch) lk ls lh) r k s h)
        (Pull (node c p (Pull (node b (some c) ll (setParent (some b) lrl) lk ls lh))
          (Pull (node a (some c) (setParent (some a) lrr) r k s h)) ck cs ch))

/-- What `Insert` does, as a relation between the slot's old and new content;
`par` is the `parent` argument. -/
inductive InsertRel [LinearOrder α] (fresh : Nat) (key : α) :
    Option Nat → Tree α → Tree α → Prop
  | null (par : Option Nat) : InsertRel fresh key par nil (Tree.mk fresh key par)
  | found (par : Option Nat) (a : Nat) (p : Option Nat) (l r : Tree α) (s h : Nat) :
      InsertRel fresh key par (node a p l r key s h) (node a p l r key s h)
  | goLeft (par : Option Nat) (a : Nat) (p : Option Nat) (l r : Tree α) (k : α) (s h : Nat)
      (l1 t1 : Tree α) :
      key < k → InsertRel fresh key (some a) l l1 → RebalStep (node a p l1 r k s h) t1 →
      InsertRel fresh key par (node a p l r k s h) t1
  | goRight (par : Option Nat) (a : Nat) (p : Option Nat) (l r : Tree α) (k : α) (s h : Nat)
      (r1 t1 : Tree α) :
      k < key → InsertRel fresh key (some a) r r1 → RebalStep (node a p l r1 k s h) t1 →
      InsertRel fresh key par (node a p l r k s h) t1

/-- What `EraseMinimum` does to a non-null subtree. -/
inductive EraseMinRel : Tree α → Tree α → Prop
  | stop (a : Nat) (p : Option Nat) (r : Tree α) (k : α) (s h : Nat) :
      EraseMinRel (node a p nil r k s h) r
  | goLeft (a : Nat) (p : Option Nat) (l r : Tree α) (k : α) (s h : Nat) (l1 t1 : Tree α) :
      l.isNull = false → EraseMinRel l l1 →
      RebalStep (node a p (Pull (setParent (some a) l1)) r k s h) t1 →
      EraseMinRel (node a p l r k s h) t1

/-- What `Erase` does, as a relation between the slot's old and new content;
`par` is the `parent` argument. -/
inductive EraseRel [LinearOrder α] (key : α) : Option Nat → Tree α → Tree α → Prop
  | null (par : Option Nat) : EraseRel key par nil nil
  | goLeft (par : Option Nat) (a : Nat) (p : Option Nat) (l r : Tree α) (k : α) (s h : Nat)
      (l1 t1 : Tree α) :
      key < k → EraseRel key (some a) l l1 → RebalStep (node a p l1 r k s h) t1 →
      EraseRel key par (node a p l r k s h) t1
  | goRight (par : Option Nat) (a : Nat) (p : Option Nat) (l r : Tree α) (k : α) (s h : Nat)
      (r1 t1 : Tree α) :
      k < key → EraseRel key (some a) r r1 → RebalStep (node a p l r1 k s h) t1 →
      EraseRel key par (node a p l r k s h) t1
  | leaf (par : Option Nat) (a : Nat) (p : Option Nat) (s h : Nat) :
      EraseRel key par (node a p nil nil key s h) nil
  | onlyLeft (par : Option Nat) (a : Nat) (p : Option Nat) (l : Tree α) (s h : Nat)
      (t1 : Tree α) :
      l.isNull = false → RebalStep (setParent par l) t1 →
      EraseRel key par (node a p l nil key s h) t1
  | onlyRight (par : Option Nat) (a : Nat) (p : Option Nat) (r : Tree α) (s h : Nat)
      (t1 : Tree α) :
      r.isNull = false → RebalStep (setParent par r) t1 →
      EraseRel key par (node a p nil r key s h) t1
  | both (par : Option Nat) (a : Nat) (p : Option Nat) (l r : Tree α) (s h : Nat)
      (ma : Nat) (mp : Option Nat) (ml mr : Tree α) (mk : α) (ms mh : Nat) (r1 t2 t1 : Tree α) :
      l.isNull = false → r.isNull = false →
      GetMinimum r = node ma mp ml mr mk ms mh → EraseMinRel r r1 →
      RebalStep (node ma par (setParent (some ma) l) (setParent (some ma) r1) mk ms mh) t2 →
      RebalStep t2 t1 →
      EraseRel key par (node a p l r key s h) t1

/-- The mathematical set after one mutator call. -/
def applyOp [DecidableEq α] (S : Finset α) : Op α → Finset α
  | Op.insert k => insert k S
  | Op.erase k => S.erase k

/-- The mathematical set obtained by applying a sequence of mutator calls to
the empty set. -/
def model [DecidableEq α] (ops : List (Op α)) : Finset α :=
  ops.foldl applyOp ∅

/-- A three-node set over `Int` (keys 3, 5, 8 with 5 at the root), as
`insert 5; insert 3; insert 8` builds it. -/
def sampleSet : Set Int :=
  ⟨node 0 none (node 1 (some 0) nil nil 3 1 0) (node 2 (some 0) nil nil 8 1 0) 5 3 1, 3⟩

/-! ### Auxiliary notions used in the proofs -/

/-- The keys after inserting `key` into a sorted key sequence. -/
def insKeys [LinearOrder α] (key : α) (L : List α) : List α :=
  if key ∈ L then L else List.orderedInsert (· ≤ ·) key L

/-- The link between a set object and the mathematical set it stands for. -/
def Represents [LinearOrder α] (s : Set α) (S : Finset α) : Prop :=
  BSTOrder s.root ∧ SizeOK s.root ∧ (keys s.root).toFinset = S

/-- The children of the root of `t` point back at it (nothing is said about
the root's own `parent` field). -/
def ChildrenOK : Tree α → Prop
  | nil => True
  | node a _ l r _ _ _ => ParentOK (some a) l ∧ ParentOK (some a) r

/-- The model invariant on addresses: the nodes of the tree sit at pairwise
distinct addresses, all of them handed out before `next`. -/
def AddrOK (s : Set α) : Prop :=
  (addrs s.root).Nodup ∧ ∀ a ∈ addrs s.root, a < s.next

/-- The invariants of the set object used by the cursor operations. -/
def Set.Inv [LinearOrder α] (s : Set α) : Prop :=
  BSTOrder s.root ∧ ParentOK none s.root ∧ AddrOK s

/-- The number of levels of a subtree as its stored height tells it: 0 for a
null pointer, `height + 1` for a node.  `Height` is `levels - 1`, cut off at 0. -/
def levels : Tree α → Nat
  | nil => 0
  | node _ _ _ _ _ _ h => h + 1

/-- Heights are consistent and the balance condition holds, at every node. -/
def AVL : Tree α → Prop
  | nil => True
  | node _ _ l r _ _ h =>
    h = max (levels l) (levels r) ∧
      (levels l - 1 ≤ levels r - 1 + 1 ∧ levels r - 1 ≤ levels l - 1 + 1) ∧ AVL l ∧ AVL r

/-- The number of levels of a tree, by its shape. -/
def depth : Tree α → Nat
  | nil => 0
  | node _ _ l r _ _ _ => 1 + max (depth l) (depth r)

/-- Every node of `t` is found in `mem` at its own address. -/
def Agree (mem : Tree α) : Tree α → Prop
  | nil => True
  | node a p l r k s h => deref mem a = node a p l r k s h ∧ Agree mem l ∧ Agree mem r

/-- The cursor that `GetNext` returns once its climbing loop has stopped at
the node with address `b`. -/
def exitCursor (mem : Tree α) (b : Nat) : Option Iterator :=
  match deref mem b with
  | nil => none
  | node _ bp _ _ _ _ _ => if bp = none then some ⟨some b, true⟩ else some ⟨bp, false⟩

/-- The climbing loop of `GetNext`, started at address `a`, stops at address
`b` after `n` iterations. -/
inductive ClimbsTo (mem : Tree α) : Nat → Nat → Nat → Prop
  | atRoot (a self : Nat) (l r : Tree α) (k : α) (s h : Nat) :
      deref mem a = node self none l r k s h → ClimbsTo mem a a 0
  | atLeft (a self p : Nat) (l r : Tree α) (k : α) (s h : Nat)
      (pself : Nat) (pp : Option Nat) (pl pr : Tree α) (pk : α) (ps ph : Nat) :
      deref mem a = node self (some p) l r k s h →
      deref mem p = node pself pp pl pr pk ps ph → pr.ptr ≠ some a → ClimbsTo mem a a 0
  | up (a b n self p : Nat) (l r : Tree α) (k : α) (s h : Nat)
      (pself : Nat) (pp : Option Nat) (pl pr : Tree α) (pk : α) (ps ph : Nat) :
      deref mem a = node self (some p) l r k s h →
      deref mem p = node pself pp pl pr pk ps ph → pr.ptr = some a →
      ClimbsTo mem p b n → ClimbsTo mem a b (n + 1)

/-- Stepping a cursor forward from `it` visits the keys `ks`, one `++` per
key and none of the visited cursors past the end, and arrives at `it2`. -/
inductive Path (mem : Tree α) (fuel : Nat) : Iterator → List α → Iterator → Prop
  | done (it : Iterator) : Path mem fuel it [] it
  | step (a : Nat) (k : α) (it1 : Iterator) (ks : List α) (it2 : Iterator) :
      Iterator.star mem ⟨some a, false⟩ = some k →
      Iterator.inc mem fuel ⟨some a, false⟩ = some it1 →
      Path mem fuel it1 ks it2 → Path mem fuel ⟨some a, false⟩ (k :: ks) it2

/-! ### Further specification vocabulary -/

/-- The length in edges of the longest downward path from the root of a
subtree to a leaf: 0 when both children are absent, otherwise one more than
the largest such length among the present children. -/
def longestPath : Tree α → Nat
  | nil => 0
  | node _ _ l r _ _ _ =>
    if l.isNull ∧ r.isNull then 0 else 1 + max (longestPath l) (longestPath r)

/-- The stored height of every node is the length of the longest downward
path from that node. -/
def StoresLongestPath : Tree α → Prop
  | nil => True
  | node a p l r k s h =>
    h = longestPath (node a p l r k s h) ∧ StoresLongestPath l ∧ StoresLongestPath r

/-- The field `left` of a node (null at a null pointer). -/
def Tree.left : Tree α → Tree α
  | nil => nil
  | node _ _ l _ _ _ _ => l

/-- The field `right` of a node (null at a null pointer). -/
def Tree.right : Tree α → Tree α
  | nil => nil
  | node _ _ _ r _ _ _ => r

/-- The height of a subtree under the usual AVL convention: -1 for an absent
subtree, 0 for a leaf. -/
def usualHeight : Tree α → Int
  | nil => -1
  | node _ _ l r _ _ _ => 1 + max (usualHeight l) (usualHeight r)

/-- Height balance under the usual AVL convention, at every node. -/
def UsualBalanced : Tree α → Prop
  | nil => True
  | node _ _ l r _ _ _ =>
    -1 ≤ usualHeight l - usualHeight r ∧ usualHeight l - usualHeight r ≤ 1 ∧
      UsualBalanced l ∧ UsualBalanced r

/-- The calls of the worked example: 5, 3, 8, 1, 4, 7, 9 inserted in this order. -/
def exampleOps : List (Op Int) :=
  [Op.insert 5, Op.insert 3, Op.insert 8, Op.insert 1, Op.insert 4, Op.insert 7, Op.insert 9]

/-- The set that the worked example builds. -/
def exampleSet : Set Int :=
  ⟨node 0 none
      (node 1 (some 0) (node 3 (some 1) nil nil 1 1 0) (node 4 (some 1) nil nil 4 1 0) 3 3 1)
      (node 2 (some 0) (node 5 (some 2) nil nil 7 1 0) (node 6 (some 2) nil nil 9 1 0) 8 3 1)
      5 7 2, 7⟩

/-- The worked example after `erase(5)`: the successor 7 has replaced the root. -/
def exampleErased : Set Int :=
  ⟨node 5 none
      (node 1 (some 5) (node 3 (some 1) nil nil 1 1 0) (node 4 (some 1) nil nil 4 1 0) 3 3 1)
      (node 2 (some 5) nil (node 6 (some 2) nil nil 9 1 0) 8 2 1)
      7 6 2, 7⟩

/-- The right chain 1 -> 2 -> 3 that `insert 1; insert 2; insert 3` builds. -/
def chainSet : Set Int :=
  ⟨node 0 none nil (node 1 (some 0) nil (node 2 (some 1) nil nil 3 1 0) 2 2 1) 1 3 2, 3⟩

/-- A consistent right subtree of height 2: the chain 2 -> 3 -> 4. -/
def heavyChild : Tree Int :=
  node 1 (some 0) nil (node 2 (some 1) nil (node 3 (some 2) nil nil 4 1 0) 3 2 1) 2 3 2

/-! ### Backward iteration -/

/-- The nodes of a tree in order, each as its address and its key. -/
def nodes : Tree α → List (Nat × α)
  | nil => []
  | node a _ l r k _ _ => nodes l ++ (a, k) :: nodes r

/-- The cursor that `GetPrevious`, called on the node at `orig`, returns once
its climbing loop has stopped at the node with address `b`. -/
def exitCursorLeft (mem : Tree α) (orig b : Nat) : Option Iterator :=
  match deref mem b with
  | nil => none
  | node _ bp _ _ _ _ _ => if bp = none then some ⟨some orig, false⟩ else some ⟨bp, false⟩

/-- The climbing loop of `GetPrevious`, started at address `a`, stops at
address `b` after `n` iterations. -/
inductive ClimbsToLeft (mem : Tree α) : Nat → Nat → Nat → Prop
  | atRoot (a self : Nat) (l r : Tree α) (k : α) (s h : Nat) :
      deref mem a = node self none l r k s h → ClimbsToLeft mem a a 0
  | atRight (a self p : Nat) (l r : Tree α) (k : α) (s h : Nat)
      (pself : Nat) (pp : Option Nat) (pl pr : Tree α) (pk : α) (ps ph : Nat) :
      deref mem a = node self (some p) l r k s h →
      deref mem p = node pself pp pl pr pk ps ph → pl.ptr ≠ some a → ClimbsToLeft mem a a 0
  | up (a b n self p : Nat) (l r : Tree α) (k : α) (s h : Nat)
      (pself : Nat) (pp : Option Nat) (pl pr : Tree α) (pk : α) (ps ph : Nat) :
      deref mem a = node self (some p) l r k s h →
      deref mem p = node pself pp pl pr pk ps ph → pl.ptr = some a →
      ClimbsToLeft mem p b n → ClimbsToLeft mem a b (n + 1)

/-- Stepping a cursor backward from the node at the head of the list visits
the listed nodes (address and key), one `--` per node and none of the visited
cursors past the end; the `--` taken at the last listed node gives `it2`. -/
inductive PathBack (mem : Tree α) (fuel : Nat) :
    Iterator → List (Nat × α) → Iterator → Prop
  | done (it : Iterator) : PathBack mem fuel it [] it
  | step (a : Nat) (k : α) (it1 : Iterator) (ks : List (Nat × α)) (it2 : Iterator) :
      Iterator.star mem ⟨some a, false⟩ = some k →
      Iterator.dec mem fuel ⟨some a, false⟩ = some it1 →
      PathBack mem fuel it1 ks it2 → PathBack mem fuel ⟨some a, false⟩ ((a, k) :: ks) it2

/-- Backward stepping: `n` times `--it` followed by `*it`; the keys read and
the cursor reached. -/
def Set.collectBack (s : Set α) (fuel : Nat) : Nat → Iterator → Option (List α × Iterator)
  | 0, it => some ([], it)
  | n + 1, it =>
    (Iterator.dec s.root fuel it).bind fun it1 =>
      (Iterator.star s.root it1).bind fun k =>
        (Set.collectBack s fuel n it1).bind fun r => some (k :: r.1, r.2)

/-- The set with keys 3 and 5 that `insert 5; insert 3` builds: the node of 3
is the left child of the root. -/
def pairSet : Set Int :=
  ⟨node 0 none (node 1 (some 0) nil nil 3 1 0) nil 5 2 1, 2⟩

/-! ### Shapes: trees without addresses and stored fields -/

/-- The shape of a tree: its keys at their places. -/
inductive Shape (α : Type) where
  | nil : Shape α
  | node (left : Shape α) (key : α) (right : Shape α) : Shape α

/-- The shape of a tree of the set. -/
def shape : Tree α → Shape α
  | nil => Shape.nil
  | node _ _ l r k _ _ => Shape.node (shape l) k (shape r)

/-- The in-order keys of a shape. -/
def Shape.keys : Shape α → List α
  | Shape.nil => []
  | Shape.node l k r => Shape.keys l ++ k :: Shape.keys r

/-- The number of levels of a shape. -/
def Shape.depth : Shape α → Nat
  | Shape.nil => 0
  | Shape.node l _ r => 1 + max (Shape.depth l) (Shape.depth r)

/-- Two sibling subtrees with `a` and `b` levels satisfy the balance condition
of the code: their heights `a - 1` and `b - 1`, read as 0 for an absent
subtree, differ by at most one. -/
def nearLevels (a b : Nat) : Prop :=
  a - 1 ≤ b - 1 + 1 ∧ b - 1 ≤ a - 1 + 1

/-- The balance condition of the code, at every node of a shape. -/
def Shape.Bal : Shape α → Prop
  | Shape.nil => True
  | Shape.node l _ r =>
    nearLevels (Shape.depth l) (Shape.depth r) ∧ Shape.Bal l ∧ Shape.Bal r

/-- Insertion into a binary search tree without any rebalancing. -/
def Shape.insert [LinearOrder α] (key : α) : Shape α → Shape α
  | Shape.nil => Shape.node Shape.nil key Shape.nil
  | Shape.node l k r =>
    if key < k then Shape.node (Shape.insert key l) k r
    else if k < key then Shape.node l k (Shape.insert key r)
    else Shape.node l k r

/-- Inserting the keys `ks` one after the other, without rebalancing, leads
from the first shape to the second, and every shape on the way is balanced. -/
inductive Build [LinearOrder α] : Shape α → List α → Shape α → Prop
  | done (t : Shape α) : Build t [] t
  | step (t : Shape α) (key : α) (ks : List α) (t1 : Shape α) :
      (Shape.insert key t).Bal → Build (Shape.insert key t) ks t1 → Build t (key :: ks) t1

/-- The number of nodes of the sparsest tree of height `h` that is balanced
under the usual convention: 1, 2, 4, 7, 12, ... -/
def fibCount : Nat → Nat
  | 0 => 1
  | 1 => 2
  | h + 2 => fibCount h + 1 + fibCount (h + 1)

/-- The sparsest balanced shape of height `h`, on the keys `lo`, `lo + 1`, ... -/
def fibShape : Nat → Nat → Shape Nat
  | 0, lo => Shape.node Shape.nil lo Shape.nil
  | 1, lo => Shape.node Shape.nil lo (Shape.node Shape.nil (lo + 1) Shape.nil)
  | h + 2, lo =>
    Shape.node (fibShape h lo) (lo + fibCount h) (fibShape (h + 1) (lo + fibCount h + 1))

/-- The least number of nodes, plus one, of a tree with `d` levels that is
balanced in the code's sense: 1, 2, 3, 4, 7, 11, 18, ... -/
def minNodes : Nat → Nat
  | 0 => 1
  | 1 => 2
  | 2 => 3
  | 3 => 4
  | d + 4 => minNodes (d + 3) + minNodes (d + 2)

end AlgoSet

/-! ## Proofs -/

namespace AlgoSet

open Tree

variable {α : Type}

/-! ### `Pull`, `setParent` and the shape of `Rebalance` -/

theorem Pull_Pull (t : Tree α) : Pull (Pull t) = Pull t := by
  cases t <;> simp [Pull]

theorem Pull_fields (a : Nat) (p : Option Nat) (l r : Tree α) (k : α) (s h s1 h1 : Nat) :
    Pull (node a p l r k s h) = Pull (node a p l r k s1 h1) := by
  simp [Pull]

@[simp] theorem keys_Pull (t : Tree α) : keys (Pull t) = keys t := by
  cases t <;> simp [Pull, keys]

@[simp] theorem keys_setParent (p : Option Nat) (t : Tree α) : keys (setParent p t) = keys t := by
  cases t <;> simp [setParent, keys]

@[simp] theorem addrs_Pull (t : Tree α) : addrs (Pull t) = addrs t := by
  cases t <;> simp [Pull, addrs]

@[simp] theorem addrs_setParent (p : Option Nat) (t : Tree α) :
    addrs (setParent p t) = addrs t := by
  cases t <;> simp [setParent, addrs]

@[simp] theorem Height_setParent (p : Option Nat) (t : Tree α) :
    Height (setParent p t) = Height t := by
  cases t <;> simp [setParent, Height]

@[simp] theorem Size_setParent (p : Option Nat) (t : Tree α) :
    Size (setParent p t) = Size t := by
  cases t <;> simp [setParent, Size]

@[simp] theorem isNull_setParent (p : Option Nat) (t : Tree α) :
    (setParent p t).isNull = t.isNull := by
  cases t <;> simp [setParent, Tree.isNull]

@[simp] theorem isNull_Pull (t : Tree α) : (Pull t).isNull = t.isNull := by
  cases t <;> simp [Pull, Tree.isNull]

/-- The routine `Rebalance` never dereferences a null pointer, and its result is the one
described by `RebalStep`. -/
theorem Rebalance_spec (t : Tree α) : ∃ t1, Rebalance t = some t1 ∧ RebalStep t t1 := by
  cases t with
  | nil => exact ⟨nil, rfl, RebalStep.null⟩
  | node a p l r k s h =>
    simp only [Rebalance]
    by_cases h1 : BalanceFactor (node a p l r k s h) < -1
    · rw [if_pos h1]
      cases r with
      | nil => simp [BalanceFactor, Height] at h1; omega
      | node b q rl rr rk rs rh =>
        by_cases h2 : BalanceFactor (node b q rl rr rk rs rh) > 0
        · rw [if_pos h2]
          cases rl with
          | nil => simp [BalanceFactor, Height] at h2; omega
          | node c q1 rll rlr ck cs ch =>
            refine ⟨_, ?_, RebalStep.rightLeft a p l k s h b q rr rk rs rh c q1 rll rlr ck cs ch
              (by simpa [BalanceFactor, Height] using h1)
              (by simpa [BalanceFactor, Height] using h2)⟩
            simp [RotateLeft, RotateRight, Pull, setParent]
        · rw [if_neg h2]
          refine ⟨_, ?_, RebalStep.right a p l k s h b q rl rr rk rs rh
              (by simpa [BalanceFactor, Height] using h1)
              (by simpa [BalanceFactor, Height] using h2)⟩
          simp [RotateRight, Pull, setParent]
    · rw [if_neg h1]
      by_cases h3 : BalanceFactor (node a p l r k s h) > 1
      · rw [if_pos h3]
        cases l with
        | nil => simp [BalanceFactor, Height] at h3; omega
        | node b q ll lr lk ls lh =>
          by_cases h4 : BalanceFactor (node b q ll lr lk ls lh) < 0
          · rw [if_pos h4]
            cases lr with
            | nil => simp [BalanceFactor, Height] at h4; omega
            | node c q1 lrl lrr ck cs ch =>
              refine ⟨_, ?_, RebalStep.leftRight a p r k s h b q ll lk ls lh c q1 lrl lrr ck cs ch
                (by simpa [BalanceFactor, Height] using h3)
                (by simpa [BalanceFactor, Height] using h4)⟩
              simp [RotateLeft, RotateRight, Pull, setParent]
          · rw [if_neg h4]
            refine ⟨_, ?_, RebalStep.left a p r k s h b q ll lr lk ls lh
                (by simpa [BalanceFactor, Height] using h3)
                (by simpa [BalanceFactor, Height] using h4)⟩
            simp [RotateLeft, Pull, setParent]
      · rw [if_neg h3]
        refine ⟨_, rfl, RebalStep.keep a p l r k s h ?_ ?_⟩
        · simpa [BalanceFactor, Height] using h1
        · simpa [BalanceFactor, Height] using h3

/-! ### The recursive routines never fail -/

theorem isNull_eq_false {t : Tree α} (h : t.isNull = false) :
    ∃ a p l r k s hh, t = node a p l r k s hh := by
  cases t with
  | nil => simp [Tree.isNull] at h
  | node a p l r k s hh => exact ⟨a, p, l, r, k, s, hh, rfl⟩

theorem GetMinimum_isNull (t : Tree α) : (GetMinimum t).isNull = t.isNull := by
  induction t with
  | nil => rfl
  | node a p l r k s h ihl _ =>
    cases l with
    | nil => simp [GetMinimum, Tree.isNull]
    | node la lp ll lr lk ls lh => simpa [GetMinimum, Tree.isNull] using ihl

theorem GetMaximum_isNull (t : Tree α) : (GetMaximum t).isNull = t.isNull := by
  induction t with
  | nil => rfl
  | node a p l r k s h _ ihr =>
    cases r with
    | nil => simp [GetMaximum, Tree.isNull]
    | node ra rp rl rr rk rs rh => simpa [GetMaximum, Tree.isNull] using ihr

/-- The routine `Insert` returns, and its result is the one described by `InsertRel`. -/
theorem Insert_spec [LinearOrder α] (fresh : Nat) (key : α) (t : Tree α) (par : Option Nat) :
    ∃ t1, Insert fresh key t par = some t1 ∧ InsertRel fresh key par t t1 := by
  induction t generalizing par with
  | nil => exact ⟨_, rfl, InsertRel.null par⟩
  | node a p l r k s h ihl ihr =>
    simp only [Insert]
    by_cases h1 : ¬ (key < k) ∧ ¬ (k < key)
    · rw [if_pos h1]
      have hk : key = k := le_antisymm (not_lt.mp h1.2) (not_lt.mp h1.1)
      subst hk
      exact ⟨_, rfl, InsertRel.found par a p l r s h⟩
    · rw [if_neg h1]
      by_cases h2 : key < k
      · rw [if_pos h2]
        obtain ⟨l1, e1, r1⟩ := ihl (some a)
        obtain ⟨t1, e2, r2⟩ := Rebalance_spec (node a p l1 r k s h)
        exact ⟨t1, by simp [e1, e2], InsertRel.goLeft par a p l r k s h l1 t1 h2 r1 r2⟩
      · rw [if_neg h2]
        have h3 : k < key := by
          by_contra h3
          exact h1 ⟨h2, h3⟩
        obtain ⟨r1, e1, q1⟩ := ihr (some a)
        obtain ⟨t1, e2, q2⟩ := Rebalance_spec (node a p l r1 k s h)
        exact ⟨t1, by simp [e1, e2], InsertRel.goRight par a p l r k s h r1 t1 h3 q1 q2⟩

/-- The routine `EraseMinimum` returns on every non-null subtree. -/
theorem EraseMinimum_spec (t : Tree α) (ht : t.isNull = false) :
    ∃ t1, EraseMinimum t = some t1 ∧ EraseMinRel t t1 := by
  induction t with
  | nil => simp [Tree.isNull] at ht
  | node a p l r k s h ihl _ =>
    cases l with
    | nil => exact ⟨r, rfl, EraseMinRel.stop a p r k s h⟩
    | node la lp ll lr lk ls lh =>
      obtain ⟨l1, e1, r1⟩ := ihl rfl
      obtain ⟨t1, e2, r2⟩ := Rebalance_spec (node a p (Pull (setParent (some a) l1)) r k s h)
      exact ⟨t1, by simp [EraseMinimum, e1, e2],
        EraseMinRel.goLeft a p _ r k s h l1 t1 rfl r1 r2⟩

/-- The routine `Erase` returns, and its result is the one described by `EraseRel`. -/
theorem Erase_spec [LinearOrder α] (key : α) (t : Tree α) (par : Option Nat) :
    ∃ t1, Erase key t par = some t1 ∧ EraseRel key par t t1 := by
  induction t generalizing par with
  | nil => exact ⟨_, rfl, EraseRel.null par⟩
  | node a p l r k s h ihl ihr =>
    simp only [Erase]
    by_cases h1 : key < k
    · rw [if_pos h1]
      obtain ⟨l1, e1, r1⟩ := ihl (some a)
      obtain ⟨t1, e2, r2⟩ := Rebalance_spec (node a p l1 r k s h)
      exact ⟨t1, by simp [e1, e2], EraseRel.goLeft par a p l r k s h l1 t1 h1 r1 r2⟩
    · rw [if_neg h1]
      by_cases h2 : k < key
      · rw [if_pos h2]
        obtain ⟨r1, e1, q1⟩ := ihr (some a)
        obtain ⟨t1, e2, q2⟩ := Rebalance_spec (node a p l r1 k s h)
        exact ⟨t1, by simp [e1, e2], EraseRel.goRight par a p l r k s h r1 t1 h2 q1 q2⟩
      · rw [if_neg h2]
        have hk : key = k := le_antisymm (not_lt.mp h2) (not_lt.mp h1)
        subst hk
        cases hl : l.isNull <;> cases hr : r.isNull
        · -- two children
          obtain ⟨ma, mp, ml, mr, mk, ms, mh, hm⟩ :=
            isNull_eq_false ((GetMinimum_isNull r).trans hr)
          obtain ⟨r1, e1, q1⟩ := EraseMinimum_spec r hr
          obtain ⟨t2, e2, q2⟩ := Rebalance_spec
            (node ma par (setParent (some ma) l) (setParent (some ma) r1) mk ms mh)
          obtain ⟨t1, e3, q3⟩ := Rebalance_spec t2
          refine ⟨t1, ?_, EraseRel.both par a p l r s h ma mp ml mr mk ms mh r1 t2 t1
            hl hr hm q1 q2 q3⟩
          simp [hm, e1, e2, e3]
        · -- only a left child
          cases r with
          | node _ _ _ _ _ _ _ => simp [Tree.isNull] at hr
          | nil =>
            obtain ⟨t1, e2, q2⟩ := Rebalance_spec (setParent par l)
            exact ⟨t1, by simp [Tree.isNull, e2], EraseRel.onlyLeft par a p l s h t1 hl q2⟩
        · -- only a right child
          cases l with
          | node _ _ _ _ _ _ _ => simp [Tree.isNull] at hl
          | nil =>
            obtain ⟨t1, e2, q2⟩ := Rebalance_spec (setParent par r)
            exact ⟨t1, by simp [Tree.isNull, hr, e2], EraseRel.onlyRight par a p r s h t1 hr q2⟩
        · -- no children
          cases l with
          | node _ _ _ _ _ _ _ => simp [Tree.isNull] at hl
          | nil =>
            cases r with
            | node _ _ _ _ _ _ _ => simp [Tree.isNull] at hr
            | nil => exact ⟨nil, by simp [Tree.isNull, Rebalance], EraseRel.leaf par a p s h⟩

/-! ### In-order keys -/

theorem RebalStep_keys {t t1 : Tree α} (h : RebalStep t t1) : keys t1 = keys t := by
  cases h <;> simp [keys]

theorem RebalStep_addrs {t t1 : Tree α} (h : RebalStep t t1) : addrs t1 = addrs t := by
  cases h <;> simp [addrs]

theorem BSTOrder_iff_sorted [LinearOrder α] (t : Tree α) :
    BSTOrder t ↔ (keys t).Sorted (· < ·) := by
  induction t with
  | nil => simp [BSTOrder, keys]
  | node a p l r k s h ihl ihr =>
    simp only [BSTOrder, keys, List.Sorted, List.pairwise_append, List.pairwise_cons,
      List.mem_cons]
    rw [ihl, ihr]
    simp only [List.Sorted]
    constructor
    · rintro ⟨h1, h2, h3, h4⟩
      refine ⟨h3, ⟨h2, h4⟩, ?_⟩
      rintro x hx y (rfl | hy)
      · exact h1 x hx
      · exact lt_trans (h1 x hx) (h2 y hy)
    · rintro ⟨h3, ⟨h2, h4⟩, h5⟩
      exact ⟨fun x hx => h5 x hx k (Or.inl rfl), h2, h3, h4⟩

theorem BSTOrder_of_keys_eq [LinearOrder α] {t t1 : Tree α} (h : keys t1 = keys t)
    (hb : BSTOrder t) : BSTOrder t1 := by
  rw [BSTOrder_iff_sorted] at hb ⊢
  rw [h]
  exact hb

theorem keys_nodup_of_BSTOrder [LinearOrder α] {t : Tree α} (hb : BSTOrder t) :
    (keys t).Nodup := by
  rw [BSTOrder_iff_sorted] at hb
  exact List.Sorted.nodup hb

theorem orderedInsert_append_lt [LinearOrder α] (key k : α) (L R : List α) (h : key < k) :
    List.orderedInsert (· ≤ ·) key (L ++ k :: R) = List.orderedInsert (· ≤ ·) key L ++ k :: R := by
  induction L with
  | nil => simp [List.orderedInsert, le_of_lt h]
  | cons x L ih =>
    by_cases hx : key ≤ x
    · simp [List.orderedInsert, hx]
    · simp [List.orderedInsert, hx, ih]

theorem orderedInsert_append_gt [LinearOrder α] (key k : α) (L R : List α) (h : k < key)
    (hL : ∀ x ∈ L, x < key) :
    List.orderedInsert (· ≤ ·) key (L ++ k :: R) = L ++ k :: List.orderedInsert (· ≤ ·) key R := by
  induction L with
  | nil => simp [List.orderedInsert, not_le.mpr h]
  | cons x L ih =>
    have hx : ¬ key ≤ x := not_le.mpr (hL x (List.mem_cons_self _ _))
    simp [List.orderedInsert, hx, ih (fun y hy => hL y (List.mem_cons_of_mem _ hy))]

theorem insKeys_lt [LinearOrder α] (key k : α) (L R : List α) (h : key < k)
    (hR : ∀ x ∈ R, k < x) : insKeys key (L ++ k :: R) = insKeys key L ++ k :: R := by
  have hk : key ≠ k := ne_of_lt h
  have hnR : key ∉ R := fun hm => lt_asymm h (hR key hm)
  unfold insKeys
  by_cases hm : key ∈ L
  · simp [hm]
  · simp [hm, hk, hnR, orderedInsert_append_lt key k L R h]

theorem insKeys_gt [LinearOrder α] (key k : α) (L R : List α) (h : k < key)
    (hL : ∀ x ∈ L, x < k) : insKeys key (L ++ k :: R) = L ++ k :: insKeys key R := by
  have hk : key ≠ k := ne_of_gt h
  have hnL : key ∉ L := fun hm => lt_asymm h (hL key hm)
  have hL2 : ∀ x ∈ L, x < key := fun x hx => lt_trans (hL x hx) h
  unfold insKeys
  by_cases hm : key ∈ R
  · simp [hm]
  · simp [hm, hk, hnL, orderedInsert_append_gt key k L R h hL2]

theorem InsertRel_keys [LinearOrder α] {fresh : Nat} {key : α} {par : Option Nat}
    {t t1 : Tree α} (h : InsertRel fresh key par t t1) (hb : BSTOrder t) :
    keys t1 = insKeys key (keys t) := by
  induction h with
  | null par => simp [Tree.mk, keys, insKeys]
  | found par a p l r s h => simp [keys, insKeys]
  | goLeft par a p l r k s h l1 t1 hlt _ hreb ih =>
    obtain ⟨_, h2, h3, _⟩ := hb
    rw [RebalStep_keys hreb]
    simp only [keys]
    rw [ih h3, insKeys_lt key k _ _ hlt h2]
  | goRight par a p l r k s h r1 t1 hlt _ hreb ih =>
    obtain ⟨h1, _, _, h4⟩ := hb
    rw [RebalStep_keys hreb]
    simp only [keys]
    rw [ih h4, insKeys_gt key k _ _ hlt h1]

theorem insKeys_sorted [LinearOrder α] (key : α) (L : List α) (h : L.Sorted (· < ·)) :
    (insKeys key L).Sorted (· < ·) := by
  unfold insKeys
  by_cases hm : key ∈ L
  · simpa [hm] using h
  · simp only [hm, if_false]
    have h1 : L.Sorted (· ≤ ·) := h.imp le_of_lt
    have h2 : (List.orderedInsert (· ≤ ·) key L).Sorted (· ≤ ·) := h1.orderedInsert key L
    have h3 : (List.orderedInsert (· ≤ ·) key L).Nodup := by
      have hp := List.perm_orderedInsert (· ≤ ·) key L
      rw [hp.nodup_iff]
      exact List.nodup_cons.mpr ⟨hm, h.nodup⟩
    exact List.Sorted.lt_of_le h2 h3

theorem InsertRel_BSTOrder [LinearOrder α] {fresh : Nat} {key : α} {par : Option Nat}
    {t t1 : Tree α} (h : InsertRel fresh key par t t1) (hb : BSTOrder t) : BSTOrder t1 := by
  have hk := InsertRel_keys h hb
  rw [BSTOrder_iff_sorted] at hb ⊢
  rw [hk]
  exact insKeys_sorted key _ hb

theorem EraseMinRel_keys {t t1 : Tree α} (h : EraseMinRel t t1) :
    ∃ ma mp ml mr mk ms mh, GetMinimum t = node ma mp ml mr mk ms mh ∧
      keys t = mk :: keys t1 ∧ addrs t = ma :: addrs t1 := by
  induction h with
  | stop a p r k s h =>
    exact ⟨a, p, nil, r, k, s, h, by simp [GetMinimum, Tree.isNull], by simp [keys],
      by simp [addrs]⟩
  | goLeft a p l r k s h l1 t1 hl _ hreb ih =>
    obtain ⟨ma, mp, ml, mr, mk, ms, mh, e1, e2, e3⟩ := ih
    refine ⟨ma, mp, ml, mr, mk, ms, mh, by simp [GetMinimum, hl, e1], ?_, ?_⟩
    · rw [RebalStep_keys hreb]
      simp [keys, e2]
    · rw [RebalStep_addrs hreb]
      simp [addrs, e3]

theorem erase_append_lt [LinearOrder α] (key k : α) (L R : List α) (h : key < k)
    (hR : ∀ x ∈ R, k < x) : (L ++ k :: R).erase key = L.erase key ++ k :: R := by
  have hk : k ≠ key := ne_of_gt h
  have hnR : key ∉ R := fun hm => lt_asymm h (hR key hm)
  by_cases hm : key ∈ L
  · rw [List.erase_append_left _ hm]
  · rw [List.erase_append_right _ hm, List.erase_of_not_mem hm, List.erase_cons_tail (by simpa using hk),
      List.erase_of_not_mem hnR]

theorem erase_append_gt [LinearOrder α] (key k : α) (L R : List α) (h : k < key)
    (hL : ∀ x ∈ L, x < k) : (L ++ k :: R).erase key = L ++ k :: R.erase key := by
  have hk : k ≠ key := ne_of_lt h
  have hnL : key ∉ L := fun hm => lt_asymm h (hL key hm)
  rw [List.erase_append_right _ hnL, List.erase_cons_tail (by simpa using hk)]

theorem erase_append_eq [LinearOrder α] (key : α) (L R : List α)
    (hL : ∀ x ∈ L, x < key) : (L ++ key :: R).erase key = L ++ R := by
  have hnL : key ∉ L := fun hm => lt_irrefl _ (hL key hm)
  rw [List.erase_append_right _ hnL, List.erase_cons_head]

theorem EraseRel_keys [LinearOrder α] {key : α} {par : Option Nat}
    {t t1 : Tree α} (h : EraseRel key par t t1) (hb : BSTOrder t) :
    keys t1 = (keys t).erase key := by
  induction h with
  | null par => simp [keys]
  | goLeft par a p l r k s h l1 t1 hlt _ hreb ih =>
    obtain ⟨_, h2, h3, _⟩ := hb
    rw [RebalStep_keys hreb]
    simp only [keys]
    rw [ih h3, erase_append_lt key k _ _ hlt h2]
  | goRight par a p l r k s h r1 t1 hlt _ hreb ih =>
    obtain ⟨h1, _, _, h4⟩ := hb
    rw [RebalStep_keys hreb]
    simp only [keys]
    rw [ih h4, erase_append_gt key k _ _ hlt h1]
  | leaf par a p s h => simp [keys]
  | onlyLeft par a p l s h t1 _ hreb =>
    obtain ⟨h1, _, _, _⟩ := hb
    rw [RebalStep_keys hreb]
    simp only [keys, keys_setParent]
    rw [erase_append_eq key _ _ h1, List.append_nil]
  | onlyRight par a p r s h t1 _ hreb =>
    rw [RebalStep_keys hreb]
    simp [keys]
  | both par a p l r s h ma mp ml mr mk ms mh r1 t2 t1 _ _ hm hem hreb2 hreb1 =>
    obtain ⟨h1, _, _, _⟩ := hb
    obtain ⟨ma1, mp1, ml1, mr1, mk1, ms1, mh1, e1, e2, _⟩ := EraseMinRel_keys hem
    rw [hm] at e1
    injection e1 with _ _ _ _ ek _ _
    subst ek
    rw [RebalStep_keys hreb1, RebalStep_keys hreb2]
    simp only [keys, keys_setParent]
    rw [erase_append_eq key _ _ h1, e2]

theorem EraseRel_BSTOrder [LinearOrder α] {key : α} {par : Option Nat}
    {t t1 : Tree α} (h : EraseRel key par t t1) (hb : BSTOrder t) : BSTOrder t1 := by
  have hk := EraseRel_keys h hb
  rw [BSTOrder_iff_sorted] at hb ⊢
  rw [hk]
  exact hb.sublist (List.erase_sublist _ _)

/-! ### The public mutators and runs of them -/

theorem Set.insert_spec [LinearOrder α] (s : Set α) (key : α) :
    ∃ t1, s.insert key = some ⟨t1, s.next + 1⟩ ∧ InsertRel s.next key none s.root t1 := by
  obtain ⟨t1, e1, r1⟩ := Insert_spec s.next key s.root none
  exact ⟨t1, by simp [Set.insert, e1], r1⟩

theorem Set.erase_spec [LinearOrder α] (s : Set α) (key : α) :
    ∃ t1, s.erase key = some ⟨t1, s.next⟩ ∧ EraseRel key none s.root t1 := by
  obtain ⟨t1, e1, r1⟩ := Erase_spec key s.root none
  exact ⟨t1, by simp [Set.erase, e1], r1⟩

/-- A relation between the set object and the mathematical set that every
mutator call preserves holds along every run. -/
theorem Set.runFrom_sim [LinearOrder α] (I : Set α → Finset α → Prop)
    (hstep : ∀ s S op, I s S → ∃ s1, s.step op = some s1 ∧ I s1 (applyOp S op)) :
    ∀ (ops : List (Op α)) (s : Set α) (S : Finset α), I s S →
      ∃ s1, Set.runFrom s ops = some s1 ∧ I s1 (ops.foldl applyOp S) := by
  intro ops
  induction ops with
  | nil => intro s S h; exact ⟨s, rfl, h⟩
  | cons op ops ih =>
    intro s S h
    obtain ⟨s1, e1, h1⟩ := hstep s S op h
    obtain ⟨s2, e2, h2⟩ := ih s1 (applyOp S op) h1
    exact ⟨s2, by simp [Set.runFrom, e1, e2], h2⟩

/-- A property of the set object that every mutator call preserves holds
after every run from the empty set. -/
theorem Set.run_invariant [LinearOrder α] (P : Set α → Prop) (h0 : P Set.empty)
    (hstep : ∀ s op, P s → ∀ s1, s.step op = some s1 → P s1) :
    ∀ ops : List (Op α), ∃ s1, Set.run ops = some s1 ∧ P s1 := by
  intro ops
  have h := Set.runFrom_sim (fun s _ => P s) (fun s S op hs => by
    cases op with
    | insert k =>
      obtain ⟨t1, e1, _⟩ := Set.insert_spec s k
      exact ⟨_, e1, hstep s (Op.insert k) hs _ e1⟩
    | erase k =>
      obtain ⟨t1, e1, _⟩ := Set.erase_spec s k
      exact ⟨_, e1, hstep s (Op.erase k) hs _ e1⟩) ops Set.empty ∅ h0
  exact h

theorem Set.step_BSTOrder [LinearOrder α] (s : Set α) (op : Op α) (hb : BSTOrder s.root)
    (s1 : Set α) (h : s.step op = some s1) : BSTOrder s1.root := by
  cases op with
  | insert k =>
    obtain ⟨t1, e1, r1⟩ := Set.insert_spec s k
    simp only [Set.step, e1, Option.some.injEq] at h
    subst h
    exact InsertRel_BSTOrder r1 hb
  | erase k =>
    obtain ⟨t1, e1, r1⟩ := Set.erase_spec s k
    simp only [Set.step, e1, Option.some.injEq] at h
    subst h
    exact EraseRel_BSTOrder r1 hb

/-- C1: on a tree in BST order `insert(k)` returns; when `k` is already
present the in-order key sequence is unchanged, and when `k` is absent the new
sequence is the old one with `k` put at its sorted position (one key longer);
the result is again strictly increasing. -/
theorem insert_keys [LinearOrder α] (s : Set α) (k : α) (hb : BSTOrder s.root) :
    ∃ s1, s.insert k = some s1 ∧
      (k ∈ keys s.root → keys s1.root = keys s.root) ∧
      (k ∉ keys s.root →
        keys s1.root = List.orderedInsert (· ≤ ·) k (keys s.root) ∧
        (keys s1.root).length = (keys s.root).length + 1) ∧
      (keys s1.root).Sorted (· < ·) := by
  obtain ⟨t1, e1, r1⟩ := Set.insert_spec s k
  have hk := InsertRel_keys r1 hb
  refine ⟨_, e1, ?_, ?_, ?_⟩
  · intro hm
    simp [hk, insKeys, hm]
  · intro hm
    have : keys t1 = List.orderedInsert (· ≤ ·) k (keys s.root) := by
      simp [hk, insKeys, hm]
    exact ⟨this, by simp [this, List.orderedInsert_length]⟩
  · exact (BSTOrder_iff_sorted _).mp (InsertRel_BSTOrder r1 hb)

/-- Witness of C1 on the sample set: inserting the absent key 4. -/
theorem insert_keys_witness :
    BSTOrder sampleSet.root ∧
      ∃ s1, sampleSet.insert (4 : Int) = some s1 ∧
        ((4 : Int) ∈ keys sampleSet.root → keys s1.root = keys sampleSet.root) ∧
        ((4 : Int) ∉ keys sampleSet.root →
          keys s1.root = List.orderedInsert (· ≤ ·) 4 (keys sampleSet.root) ∧
          (keys s1.root).length = (keys sampleSet.root).length + 1) ∧
        (keys s1.root).Sorted (· < ·) :=
  ⟨by simp [sampleSet, BSTOrder, keys],
    insert_keys sampleSet 4 (by simp [sampleSet, BSTOrder, keys])⟩

/-- C2: on a tree in BST order `erase(k)` returns, and the in-order key
sequence of the result is the old sequence with `k` removed; it is the old
sequence itself when `k` is absent.  The statement covers every shape of the
matched node (no child, one child on either side, two children). -/
theorem erase_keys [LinearOrder α] (s : Set α) (k : α) (hb : BSTOrder s.root) :
    ∃ s1, s.erase k = some s1 ∧
      keys s1.root = (keys s.root).erase k ∧
      (k ∉ keys s.root → keys s1.root = keys s.root) ∧
      k ∉ keys s1.root := by
  obtain ⟨t1, e1, r1⟩ := Set.erase_spec s k
  have hk := EraseRel_keys r1 hb
  refine ⟨_, e1, hk, ?_, ?_⟩
  · intro hm
    simp [hk, List.erase_of_not_mem hm]
  · have hnd := keys_nodup_of_BSTOrder hb
    simp only [hk]
    intro hm
    exact ((List.Nodup.mem_erase_iff hnd).mp hm).1 rfl

/-- Witness of C2 on the sample set: erasing the root key 5, a node with two
children. -/
theorem erase_keys_witness :
    BSTOrder sampleSet.root ∧
      ∃ s1, sampleSet.erase (5 : Int) = some s1 ∧
        keys s1.root = (keys sampleSet.root).erase 5 ∧
        ((5 : Int) ∉ keys sampleSet.root → keys s1.root = keys sampleSet.root) ∧
        (5 : Int) ∉ keys s1.root :=
  ⟨by simp [sampleSet, BSTOrder, keys],
    erase_keys sampleSet 5 (by simp [sampleSet, BSTOrder, keys])⟩

/-- C3: after every finite sequence of `insert` and `erase` calls on the empty
set the run returns a set whose tree is in BST order at every node, and the
keys of its nodes are pairwise distinct. -/
theorem run_BSTOrder [LinearOrder α] (ops : List (Op α)) :
    ∃ s, Set.run ops = some s ∧ BSTOrder s.root ∧ (keys s.root).Nodup := by
  obtain ⟨s, e, hb⟩ := Set.run_invariant (fun s : Set α => BSTOrder s.root)
    (by simp [Set.empty, BSTOrder]) (fun s op hs s1 h => Set.step_BSTOrder s op hs s1 h) ops
  exact ⟨s, e, hb, keys_nodup_of_BSTOrder hb⟩

/-! ### Stored sizes -/

@[simp] theorem SizeOK_Pull_node (a : Nat) (p : Option Nat) (l r : Tree α) (k : α) (s h : Nat) :
    SizeOK (Pull (node a p l r k s h)) ↔ SizeOK l ∧ SizeOK r := by
  cases l <;> cases r <;> simp [Pull, SizeOK, Tree.isNull, Size]

@[simp] theorem SizeOK_setParent (p : Option Nat) (t : Tree α) :
    SizeOK (setParent p t) ↔ SizeOK t := by
  cases t <;> simp [setParent, SizeOK]

theorem SizeOK_Pull {t : Tree α} (h : SizeOK t) : SizeOK (Pull t) := by
  cases t with
  | nil => simp [Pull, SizeOK]
  | node a p l r k s hh => exact (SizeOK_Pull_node a p l r k s hh).mpr ⟨h.2.1, h.2.2⟩

theorem Size_eq_length {t : Tree α} (h : SizeOK t) : Size t = (keys t).length := by
  induction t with
  | nil => rfl
  | node a p l r k s hh ihl ihr =>
    obtain ⟨h1, h2, h3⟩ := h
    have e1 := ihl h2
    have e2 := ihr h3
    simp only [keys, List.length_append, List.length_cons]
    show s = _
    omega

theorem RebalStep_SizeOK_node {a : Nat} {p : Option Nat} {l r : Tree α} {k : α} {s h : Nat}
    {t1 : Tree α} (hr : RebalStep (node a p l r k s h) t1) (hl : SizeOK l) (hrr : SizeOK r) :
    SizeOK t1 := by
  cases hr <;> (try simp only [SizeOK] at hrr) <;> (try simp only [SizeOK] at hl) <;>
    simp only [SizeOK_Pull_node, SizeOK_setParent] <;> tauto

theorem RebalStep_SizeOK {t t1 : Tree α} (hr : RebalStep t t1) (h : SizeOK t) : SizeOK t1 := by
  cases t with
  | nil => cases hr; exact h
  | node a p l r k s hh => exact RebalStep_SizeOK_node hr h.2.1 h.2.2

theorem InsertRel_SizeOK [LinearOrder α] {fresh : Nat} {key : α} {par : Option Nat}
    {t t1 : Tree α} (h : InsertRel fresh key par t t1) (hs : SizeOK t) : SizeOK t1 := by
  induction h with
  | null par => simp [Tree.mk, SizeOK, Size]
  | found par a p l r s h => exact hs
  | goLeft par a p l r k s h l1 t1 _ _ hreb ih =>
    exact RebalStep_SizeOK_node hreb (ih hs.2.1) hs.2.2
  | goRight par a p l r k s h r1 t1 _ _ hreb ih =>
    exact RebalStep_SizeOK_node hreb hs.2.1 (ih hs.2.2)

theorem EraseMinRel_SizeOK {t t1 : Tree α} (h : EraseMinRel t t1) (hs : SizeOK t) :
    SizeOK t1 := by
  induction h with
  | stop a p r k s h => exact hs.2.2
  | goLeft a p l r k s h l1 t1 _ _ hreb ih =>
    exact RebalStep_SizeOK_node hreb (SizeOK_Pull ((SizeOK_setParent _ _).mpr (ih hs.2.1))) hs.2.2

theorem EraseRel_SizeOK [LinearOrder α] {key : α} {par : Option Nat}
    {t t1 : Tree α} (h : EraseRel key par t t1) (hs : SizeOK t) : SizeOK t1 := by
  induction h with
  | null par => exact hs
  | goLeft par a p l r k s h l1 t1 _ _ hreb ih =>
    exact RebalStep_SizeOK_node hreb (ih hs.2.1) hs.2.2
  | goRight par a p l r k s h r1 t1 _ _ hreb ih =>
    exact RebalStep_SizeOK_node hreb hs.2.1 (ih hs.2.2)
  | leaf par a p s h => simp [SizeOK]
  | onlyLeft par a p l s h t1 _ hreb =>
    exact RebalStep_SizeOK hreb ((SizeOK_setParent _ _).mpr hs.2.1)
  | onlyRight par a p r s h t1 _ hreb =>
    exact RebalStep_SizeOK hreb ((SizeOK_setParent _ _).mpr hs.2.2)
  | both par a p l r s h ma mp ml mr mk ms mh r1 t2 t1 _ _ _ hem hreb2 hreb1 =>
    have h1 : SizeOK r1 := EraseMinRel_SizeOK hem hs.2.2
    exact RebalStep_SizeOK hreb1
      (RebalStep_SizeOK_node hreb2 ((SizeOK_setParent _ _).mpr hs.2.1)
        ((SizeOK_setParent _ _).mpr h1))

/-! ### The set of keys along a run -/

theorem insKeys_toFinset [LinearOrder α] (key : α) (L : List α) :
    (insKeys key L).toFinset = insert key L.toFinset := by
  unfold insKeys
  by_cases hm : key ∈ L
  · simp [hm]
  · simp only [hm, if_false]
    rw [List.toFinset_eq_of_perm _ _ (List.perm_orderedInsert (· ≤ ·) key L)]
    simp

theorem erase_toFinset [DecidableEq α] (key : α) (L : List α) (hnd : L.Nodup) :
    (L.erase key).toFinset = L.toFinset.erase key := by
  ext x
  simp [List.Nodup.mem_erase_iff hnd]

theorem Represents_step [LinearOrder α] (s : Set α) (S : Finset α) (op : Op α)
    (h : Represents s S) : ∃ s1, s.step op = some s1 ∧ Represents s1 (applyOp S op) := by
  obtain ⟨hb, hs, hk⟩ := h
  cases op with
  | insert k =>
    obtain ⟨t1, e1, r1⟩ := Set.insert_spec s k
    refine ⟨_, e1, InsertRel_BSTOrder r1 hb, InsertRel_SizeOK r1 hs, ?_⟩
    simp only [applyOp, InsertRel_keys r1 hb, insKeys_toFinset, hk]
  | erase k =>
    obtain ⟨t1, e1, r1⟩ := Set.erase_spec s k
    refine ⟨_, e1, EraseRel_BSTOrder r1 hb, EraseRel_SizeOK r1 hs, ?_⟩
    simp only [applyOp, EraseRel_keys r1 hb, erase_toFinset _ _ (keys_nodup_of_BSTOrder hb), hk]

theorem Represents_run [LinearOrder α] (ops : List (Op α)) :
    ∃ s, Set.run ops = some s ∧ Represents s (model ops) :=
  Set.runFrom_sim Represents Represents_step ops Set.empty ∅
    ⟨by simp [Set.empty, BSTOrder], by simp [Set.empty, SizeOK], by simp [Set.empty, keys]⟩

theorem Represents_size [LinearOrder α] {s : Set α} {S : Finset α} (h : Represents s S) :
    s.size = S.card := by
  obtain ⟨hb, hs, hk⟩ := h
  rw [← hk, List.toFinset_card_of_nodup (keys_nodup_of_BSTOrder hb)]
  exact Size_eq_length hs

/-- C5: after every finite sequence of `insert` and `erase` calls on the empty
set, `size()` is the cardinality of the mathematical set obtained by applying
the same calls, the stored size of every node is one plus the sizes of its
children (0 for an absent child), and inserting a key that is already in the
set leaves `size()` as it is. -/
theorem run_size [LinearOrder α] (ops : List (Op α)) :
    ∃ s, Set.run ops = some s ∧ s.size = (model ops).card ∧ SizeOK s.root ∧
      ∀ k ∈ model ops, ∃ s1, s.insert k = some s1 ∧ s1.size = s.size := by
  obtain ⟨s, e, hrep⟩ := Represents_run ops
  refine ⟨s, e, Represents_size hrep, hrep.2.1, ?_⟩
  intro k hk
  obtain ⟨s1, e1, hrep1⟩ := Represents_step s (model ops) (Op.insert k) hrep
  refine ⟨s1, e1, ?_⟩
  rw [Represents_size hrep1, Represents_size hrep]
  simp [applyOp, Finset.insert_eq_of_mem hk]

theorem keys_eq_nil {t : Tree α} (h : keys t = []) : t = nil := by
  cases t with
  | nil => rfl
  | node a p l r k s hh => simp [keys] at h

theorem foldl_applyOp_insert [DecidableEq α] (ks : List α) (S : Finset α) :
    (ks.map Op.insert).foldl applyOp S = S ∪ ks.toFinset := by
  induction ks generalizing S with
  | nil => simp
  | cons k ks ih =>
    simp only [List.map_cons, List.foldl_cons, applyOp, ih, List.toFinset_cons]
    ext x
    simp only [Finset.mem_union, Finset.mem_insert]
    tauto

theorem foldl_applyOp_erase [DecidableEq α] (ks : List α) (S : Finset α) :
    (ks.map Op.erase).foldl applyOp S = S \ ks.toFinset := by
  induction ks generalizing S with
  | nil => simp
  | cons k ks ih =>
    simp only [List.map_cons, List.foldl_cons, applyOp, ih, List.toFinset_cons]
    ext x
    simp only [Finset.mem_sdiff, Finset.mem_erase, Finset.mem_insert]
    tauto

/-- C9: inserting the keys of a duplicate-free list into the empty set and
then erasing them in any permuted order returns a set with an absent root:
`empty()` is true and `size()` is 0. -/
theorem insert_all_erase_all [LinearOrder α] (ks ks1 : List α) (_hnd : ks.Nodup)
    (hperm : ks1.Perm ks) :
    ∃ s, Set.run (ks.map Op.insert ++ ks1.map Op.erase) = some s ∧
      s.root = nil ∧ s.isEmpty = true ∧ s.size = 0 := by
  obtain ⟨s, e, hrep⟩ := Represents_run (ks.map Op.insert ++ ks1.map Op.erase)
  have hm : model (ks.map Op.insert ++ ks1.map Op.erase) = ∅ := by
    simp only [model, List.foldl_append, foldl_applyOp_insert, foldl_applyOp_erase]
    rw [List.toFinset_eq_of_perm _ _ hperm]
    simp
  have hk : keys s.root = [] := by
    have := hrep.2.2
    rw [hm] at this
    simpa using this
  have hr : s.root = nil := keys_eq_nil hk
  exact ⟨s, e, hr, by simp [Set.isEmpty, hr, Tree.isNull], by simp [Set.size, hr, Size]⟩

/-- Witness of C9 for the keys 5, 3, 8 erased in the order 8, 5, 3. -/
theorem insert_all_erase_all_witness :
    ([5, 3, 8] : List Int).Nodup ∧ ([8, 5, 3] : List Int).Perm [5, 3, 8] ∧
      ∃ s, Set.run (([5, 3, 8] : List Int).map Op.insert ++
          ([8, 5, 3] : List Int).map Op.erase) = some s ∧
        s.root = nil ∧ s.isEmpty = true ∧ s.size = 0 :=
  ⟨by decide, by decide, insert_all_erase_all [5, 3, 8] [8, 5, 3] (by decide) (by decide)⟩

/-! ### Addresses and parent links -/

@[simp] theorem ParentOK_Pull (par : Option Nat) (t : Tree α) :
    ParentOK par (Pull t) ↔ ParentOK par t := by
  cases t <;> simp [Pull, ParentOK]

theorem ChildrenOK_of_ParentOK {par : Option Nat} {t : Tree α} (h : ParentOK par t) :
    ChildrenOK t := by
  cases t with
  | nil => trivial
  | node a p l r k s hh => exact ⟨h.2.1, h.2.2⟩

@[simp] theorem ParentOK_setParent (par : Option Nat) (t : Tree α) :
    ParentOK par (setParent par t) ↔ ChildrenOK t := by
  cases t <;> simp [setParent, ParentOK, ChildrenOK]

theorem ParentOK_reparent {par q : Option Nat} {t : Tree α} (h : ParentOK q t) :
    ParentOK par (setParent par t) :=
  (ParentOK_setParent par t).mpr (ChildrenOK_of_ParentOK h)

theorem RebalStep_ParentOK {par : Option Nat} {t t1 : Tree α} (hr : RebalStep t t1)
    (h : ParentOK par t) : ParentOK par t1 := by
  cases hr with
  | null => exact h
  | keep a p l r k s hh _ _ => exact (ParentOK_Pull _ _).mpr h
  | right a p l k s hh b q rl rr rk rs rh _ _ =>
    obtain ⟨h1, h2, h3, h4, h5⟩ := h
    simp only [ParentOK_Pull, ParentOK, true_and]
    exact ⟨h1, ⟨h2, ParentOK_reparent h4⟩, h5⟩
  | rightLeft a p l k s hh b q rr rk rs rh c q1 rll rlr ck cs ch _ _ =>
    obtain ⟨h1, h2, h3, ⟨h4, h5, h6⟩, h7⟩ := h
    simp only [ParentOK_Pull, ParentOK, true_and]
    exact ⟨h1, ⟨h2, ParentOK_reparent h5⟩, ParentOK_reparent h6, h7⟩
  | left a p r k s hh b q ll lr lk ls lh _ _ =>
    obtain ⟨h1, ⟨h2, h3, h4⟩, h5⟩ := h
    simp only [ParentOK_Pull, ParentOK, true_and]
    exact ⟨h1, h3, ParentOK_reparent h4, h5⟩
  | leftRight a p r k s hh b q ll lk ls lh c q1 lrl lrr ck cs ch _ _ =>
    obtain ⟨h1, ⟨h2, h3, h4, h5, h6⟩, h7⟩ := h
    simp only [ParentOK_Pull, ParentOK, true_and]
    exact ⟨h1, ⟨h3, ParentOK_reparent h5⟩, ParentOK_reparent h6, h7⟩

theorem InsertRel_ParentOK [LinearOrder α] {fresh : Nat} {key : α} {par : Option Nat}
    {t t1 : Tree α} (h : InsertRel fresh key par t t1) (hp : ParentOK par t) :
    ParentOK par t1 := by
  induction h with
  | null par => simp [Tree.mk, ParentOK]
  | found par a p l r s h => exact hp
  | goLeft par a p l r k s h l1 t1 _ _ hreb ih =>
    exact RebalStep_ParentOK hreb ⟨hp.1, ih hp.2.1, hp.2.2⟩
  | goRight par a p l r k s h r1 t1 _ _ hreb ih =>
    exact RebalStep_ParentOK hreb ⟨hp.1, hp.2.1, ih hp.2.2⟩

theorem EraseMinRel_ChildrenOK {t t1 : Tree α} (h : EraseMinRel t t1) (hp : ChildrenOK t) :
    ChildrenOK t1 := by
  induction h with
  | stop a p r k s h => exact ChildrenOK_of_ParentOK hp.2
  | goLeft a p l r k s h l1 t1 _ _ hreb ih =>
    have h1 : ChildrenOK l1 := ih (ChildrenOK_of_ParentOK hp.1)
    have h2 : ParentOK p (node a p (Pull (setParent (some a) l1)) r k s h) :=
      ⟨rfl, (ParentOK_Pull _ _).mpr ((ParentOK_setParent _ _).mpr h1), hp.2⟩
    exact ChildrenOK_of_ParentOK (RebalStep_ParentOK hreb h2)

theorem EraseRel_ParentOK [LinearOrder α] {key : α} {par : Option Nat}
    {t t1 : Tree α} (h : EraseRel key par t t1) (hp : ParentOK par t) : ParentOK par t1 := by
  induction h with
  | null par => exact hp
  | goLeft par a p l r k s h l1 t1 _ _ hreb ih =>
    exact RebalStep_ParentOK hreb ⟨hp.1, ih hp.2.1, hp.2.2⟩
  | goRight par a p l r k s h r1 t1 _ _ hreb ih =>
    exact RebalStep_ParentOK hreb ⟨hp.1, hp.2.1, ih hp.2.2⟩
  | leaf par a p s h => trivial
  | onlyLeft par a p l s h t1 _ hreb =>
    exact RebalStep_ParentOK hreb (ParentOK_reparent hp.2.1)
  | onlyRight par a p r s h t1 _ hreb =>
    exact RebalStep_ParentOK hreb (ParentOK_reparent hp.2.2)
  | both par a p l r s h ma mp ml mr mk ms mh r1 t2 t1 _ _ _ hem hreb2 hreb1 =>
    have h1 : ChildrenOK r1 := EraseMinRel_ChildrenOK hem (ChildrenOK_of_ParentOK hp.2.2)
    have h2 : ParentOK par
        (node ma par (setParent (some ma) l) (setParent (some ma) r1) mk ms mh) :=
      ⟨rfl, ParentOK_reparent hp.2.1, (ParentOK_setParent _ _).mpr h1⟩
    exact RebalStep_ParentOK hreb1 (RebalStep_ParentOK hreb2 h2)

theorem InsertRel_addrs [LinearOrder α] {fresh : Nat} {key : α} {par : Option Nat}
    {t t1 : Tree α} (h : InsertRel fresh key par t t1) :
    addrs t1 = addrs t ∨ (addrs t1).Perm (fresh :: addrs t) := by
  induction h with
  | null par => right; simp [Tree.mk, addrs]
  | found par a p l r s h => left; rfl
  | goLeft par a p l r k s h l1 t1 _ _ hreb ih =>
    rw [RebalStep_addrs hreb]
    rcases ih with e | e
    · left; simp [addrs, e]
    · right
      simp only [addrs]
      exact (e.append_right _).trans (by simp)
  | goRight par a p l r k s h r1 t1 _ _ hreb ih =>
    rw [RebalStep_addrs hreb]
    rcases ih with e | e
    · left; simp [addrs, e]
    · right
      simp only [addrs]
      have h1 : (addrs l ++ a :: addrs r1).Perm (addrs l ++ a :: fresh :: addrs r) :=
        List.Perm.append_left _ (List.Perm.cons a e)
      refine h1.trans ?_
      have h2 : (addrs l ++ a :: fresh :: addrs r).Perm (fresh :: (addrs l ++ a :: addrs r)) := by
        have := @List.perm_middle _ fresh (addrs l ++ [a]) (addrs r)
        simpa using this
      exact h2

theorem EraseRel_addrs [LinearOrder α] {key : α} {par : Option Nat}
    {t t1 : Tree α} (h : EraseRel key par t t1) : (addrs t1).Sublist (addrs t) := by
  induction h with
  | null par => exact List.Sublist.refl _
  | goLeft par a p l r k s h l1 t1 _ _ hreb ih =>
    rw [RebalStep_addrs hreb]
    exact List.Sublist.append ih (List.Sublist.refl _)
  | goRight par a p l r k s h r1 t1 _ _ hreb ih =>
    rw [RebalStep_addrs hreb]
    exact List.Sublist.append (List.Sublist.refl _) (List.Sublist.cons₂ a ih)
  | leaf par a p s h => simp [addrs]
  | onlyLeft par a p l s h t1 _ hreb =>
    rw [RebalStep_addrs hreb]
    simp [addrs]
  | onlyRight par a p r s h t1 _ hreb =>
    rw [RebalStep_addrs hreb]
    simp [addrs]
  | both par a p l r s h ma mp ml mr mk ms mh r1 t2 t1 _ _ hm hem hreb2 hreb1 =>
    obtain ⟨ma1, mp1, ml1, mr1, mk1, ms1, mh1, e1, _, e3⟩ := EraseMinRel_keys hem
    rw [hm] at e1
    injection e1 with ea _ _ _ _ _ _
    subst ea
    rw [RebalStep_addrs hreb1, RebalStep_addrs hreb2]
    simp only [addrs, addrs_setParent, e3]
    exact List.Sublist.append (List.Sublist.refl _) (List.sublist_cons_self _ _)

theorem AddrOK_step [LinearOrder α] (s : Set α) (op : Op α) (h : AddrOK s)
    (s1 : Set α) (e : s.step op = some s1) : AddrOK s1 := by
  obtain ⟨hnd, hlt⟩ := h
  cases op with
  | insert k =>
    obtain ⟨t1, e1, r1⟩ := Set.insert_spec s k
    simp only [Set.step, e1, Option.some.injEq] at e
    subst e
    rcases InsertRel_addrs r1 with e2 | e2
    · simp only [AddrOK, e2]
      exact ⟨hnd, fun a ha => Nat.lt_succ_of_lt (hlt a ha)⟩
    · have hf : s.next ∉ addrs s.root := fun hm => lt_irrefl _ (hlt _ hm)
      refine ⟨(e2.nodup_iff).mpr (List.nodup_cons.mpr ⟨hf, hnd⟩), ?_⟩
      intro a ha
      have := (e2.mem_iff).mp ha
      rcases List.mem_cons.mp this with rfl | hm
      · exact Nat.lt_succ_self _
      · exact Nat.lt_succ_of_lt (hlt a hm)
  | erase k =>
    obtain ⟨t1, e1, r1⟩ := Set.erase_spec s k
    simp only [Set.step, e1, Option.some.injEq] at e
    subst e
    have hsub := EraseRel_addrs r1
    exact ⟨hnd.sublist hsub, fun a ha => hlt a (hsub.subset ha)⟩

theorem ParentOK_step [LinearOrder α] (s : Set α) (op : Op α) (h : ParentOK none s.root)
    (s1 : Set α) (e : s.step op = some s1) : ParentOK none s1.root := by
  cases op with
  | insert k =>
    obtain ⟨t1, e1, r1⟩ := Set.insert_spec s k
    simp only [Set.step, e1, Option.some.injEq] at e
    subst e
    exact InsertRel_ParentOK r1 h
  | erase k =>
    obtain ⟨t1, e1, r1⟩ := Set.erase_spec s k
    simp only [Set.step, e1, Option.some.injEq] at e
    subst e
    exact EraseRel_ParentOK r1 h

/-- C10: after every finite sequence of `insert` and `erase` calls on the
empty set the parent links are consistent: the root's `parent` is null, the
`parent` field of every left or right child holds the address of the node it
hangs from, and distinct nodes have distinct addresses. -/
theorem run_ParentOK [LinearOrder α] (ops : List (Op α)) :
    ∃ s, Set.run ops = some s ∧ ParentOK none s.root ∧ (addrs s.root).Nodup := by
  obtain ⟨s, e, hp, ha⟩ := Set.run_invariant
    (fun s : Set α => ParentOK none s.root ∧ AddrOK s)
    ⟨by simp [Set.empty, ParentOK], by simp [AddrOK, Set.empty, addrs]⟩
    (fun s op hs s1 h => ⟨ParentOK_step s op hs.1 s1 h, AddrOK_step s op hs.2 s1 h⟩) ops
  exact ⟨s, e, hp, ha.1⟩

/-! ### Stored heights and balance -/

theorem levels_nil : levels (nil : Tree α) = 0 := rfl

theorem levels_node (a : Nat) (p : Option Nat) (l r : Tree α) (k : α) (s h : Nat) :
    levels (node a p l r k s h) = h + 1 := rfl

theorem Height_eq_levels (t : Tree α) : Height t = levels t - 1 := by
  cases t <;> simp [Height, levels]

theorem isNull_iff_levels (t : Tree α) : t.isNull = true ↔ levels t = 0 := by
  cases t <;> simp [Tree.isNull, levels]

@[simp] theorem levels_setParent (p : Option Nat) (t : Tree α) :
    levels (setParent p t) = levels t := by
  cases t <;> simp [setParent, levels]

@[simp] theorem AVL_setParent (p : Option Nat) (t : Tree α) : AVL (setParent p t) ↔ AVL t := by
  cases t <;> simp [setParent, AVL]

@[simp] theorem levels_Pull_node (a : Nat) (p : Option Nat) (l r : Tree α) (k : α) (s h : Nat) :
    levels (Pull (node a p l r k s h)) = 1 + max (levels l) (levels r) := by
  cases l <;> cases r <;> simp [Pull, levels, Tree.isNull, Height] <;> omega

@[simp] theorem AVL_Pull_node (a : Nat) (p : Option Nat) (l r : Tree α) (k : α) (s h : Nat) :
    AVL (Pull (node a p l r k s h)) ↔
      (levels l - 1 ≤ levels r - 1 + 1 ∧ levels r - 1 ≤ levels l - 1 + 1) ∧ AVL l ∧ AVL r := by
  cases l <;> cases r <;> simp [Pull, AVL, levels, Tree.isNull, Height]

theorem AVL_Pull {t : Tree α} (h : AVL t) : AVL (Pull t) ∧ levels (Pull t) = levels t := by
  cases t with
  | nil => exact ⟨h, rfl⟩
  | node a p l r k s hh =>
    obtain ⟨h1, h2, h3, h4⟩ := h
    refine ⟨(AVL_Pull_node _ _ _ _ _ _ _).mpr ⟨h2, h3, h4⟩, ?_⟩
    rw [levels_Pull_node]
    simp only [levels_node]
    omega

theorem Height_node (a : Nat) (p : Option Nat) (l r : Tree α) (k : α) (s h : Nat) :
    Height (node a p l r k s h) = h := rfl

theorem levels_cases (t : Tree α) :
    (levels t = 0 ∧ Height t = 0) ∨ levels t = Height t + 1 := by
  cases t <;> simp [levels, Height]

set_option maxHeartbeats 2000000 in
/-- Rotations restore balance: at a node whose children are consistent and
whose balance factor is within `[-2, 2]`, `Rebalance` returns a consistent
subtree; its number of levels is the one `Pull` would give, or one less, and
it is the one `Pull` would give when no rotation was needed. -/
theorem RebalStep_AVL_node {a : Nat} {p : Option Nat} {l r : Tree α} {k : α} {s h : Nat}
    {t1 : Tree α} (hr : RebalStep (node a p l r k s h) t1) (hl : AVL l) (hrr : AVL r)
    (hb : levels l - 1 ≤ levels r - 1 + 2 ∧ levels r - 1 ≤ levels l - 1 + 2) :
    AVL t1 ∧ levels t1 ≤ 1 + max (levels l) (levels r) ∧
      1 + max (levels l) (levels r) ≤ levels t1 + 1 ∧
      ((levels l - 1 ≤ levels r - 1 + 1 ∧ levels r - 1 ≤ levels l - 1 + 1) →
        levels t1 = 1 + max (levels l) (levels r)) := by
  cases hr with
  | keep _ _ _ _ _ _ _ h1 h2 =>
    simp only [Height_eq_levels] at h1 h2
    refine ⟨?_, ?_, ?_, ?_⟩
    · simp only [AVL_Pull_node]
      refine ⟨⟨?_, ?_⟩, hl, hrr⟩ <;> omega
    · rw [levels_Pull_node]
    · rw [levels_Pull_node]; omega
    · intro _; rw [levels_Pull_node]
  | right _ _ _ _ _ _ b q rl rr rk rs rh h1 h2 =>
    obtain ⟨e1, e2, a1, a2⟩ := hrr
    simp only [← Height_eq_levels] at hb e2 ⊢
    simp only [levels_node, Height_node] at hb ⊢
    simp only [AVL_Pull_node, levels_Pull_node, levels_setParent, AVL_setParent,
      ← Height_eq_levels, Height_node]
    have c1 := levels_cases l
    have c2 := levels_cases rl
    have c3 := levels_cases rr
    refine ⟨⟨⟨?_, ?_⟩, ⟨⟨?_, ?_⟩, hl, a1⟩, a2⟩, ?_, ?_, ?_⟩ <;> omega
  | rightLeft _ _ _ _ _ _ b q rr rk rs rh c q1 rll rlr ck cs ch h1 h2 =>
    obtain ⟨e1, e2, ⟨e3, e4, a1, a2⟩, a3⟩ := hrr
    simp only [← Height_eq_levels] at hb e2 e4 ⊢
    simp only [levels_node, Height_node] at hb e1 e2 ⊢
    simp only [AVL_Pull_node, levels_Pull_node, levels_setParent, AVL_setParent,
      ← Height_eq_levels, Height_node]
    have c1 := levels_cases l
    have c2 := levels_cases rll
    have c3 := levels_cases rlr
    have c4 := levels_cases rr
    refine ⟨⟨⟨?_, ?_⟩, ⟨⟨?_, ?_⟩, hl, a1⟩, ⟨⟨?_, ?_⟩, a2, a3⟩⟩, ?_, ?_, ?_⟩ <;> omega
  | left _ _ _ _ _ _ b q ll lr lk ls lh h1 h2 =>
    obtain ⟨e1, e2, a1, a2⟩ := hl
    simp only [← Height_eq_levels] at hb e2 ⊢
    simp only [levels_node, Height_node] at hb ⊢
    simp only [AVL_Pull_node, levels_Pull_node, levels_setParent, AVL_setParent,
      ← Height_eq_levels, Height_node]
    have c1 := levels_cases r
    have c2 := levels_cases ll
    have c3 := levels_cases lr
    refine ⟨⟨⟨?_, ?_⟩, a1, ⟨⟨?_, ?_⟩, a2, hrr⟩⟩, ?_, ?_, ?_⟩ <;> omega
  | leftRight _ _ _ _ _ _ b q ll lk ls lh c q1 lrl lrr ck cs ch h1 h2 =>
    obtain ⟨e1, e2, a1, ⟨e3, e4, a2, a3⟩⟩ := hl
    simp only [← Height_eq_levels] at hb e2 e4 ⊢
    simp only [levels_node, Height_node] at hb e1 e2 ⊢
    simp only [AVL_Pull_node, levels_Pull_node, levels_setParent, AVL_setParent,
      ← Height_eq_levels, Height_node]
    have c1 := levels_cases r
    have c2 := levels_cases ll
    have c3 := levels_cases lrl
    have c4 := levels_cases lrr
    refine ⟨⟨⟨?_, ?_⟩, ⟨⟨?_, ?_⟩, a1, a2⟩, ⟨⟨?_, ?_⟩, a3, hrr⟩⟩, ?_, ?_, ?_⟩ <;> omega

theorem RebalStep_AVL {t t1 : Tree α} (hr : RebalStep t t1) (h : AVL t) :
    AVL t1 ∧ levels t1 = levels t := by
  cases t with
  | nil => cases hr; exact ⟨h, rfl⟩
  | node a p l r k s hh =>
    obtain ⟨h1, h2, h3, h4⟩ := h
    obtain ⟨g1, _, _, g4⟩ := RebalStep_AVL_node hr h3 h4 (by omega)
    refine ⟨g1, ?_⟩
    rw [g4 h2]
    simp only [levels_node]
    omega

theorem InsertRel_AVL [LinearOrder α] {fresh : Nat} {key : α} {par : Option Nat}
    {t t1 : Tree α} (h : InsertRel fresh key par t t1) (ha : AVL t) :
    AVL t1 ∧ levels t ≤ levels t1 ∧ levels t1 ≤ levels t + 1 ∧ 1 ≤ levels t1 := by
  induction h with
  | null par => simp [Tree.mk, AVL, levels]
  | found par a p l r s h => exact ⟨ha, le_refl _, Nat.le_succ _, by simp [levels]⟩
  | goLeft par a p l r k s h l1 t1 _ _ hreb ih =>
    obtain ⟨h1, h2, h3, h4⟩ := ha
    obtain ⟨i1, i2, i3, i4⟩ := ih h3
    obtain ⟨g1, g2, g3, g4⟩ := RebalStep_AVL_node hreb i1 h4 (by omega)
    simp only [levels_node]
    refine ⟨g1, ?_, ?_, ?_⟩ <;>
      by_cases hc : levels l1 - 1 ≤ levels r - 1 + 1 ∧ levels r - 1 ≤ levels l1 - 1 + 1 <;>
      (try have g5 := g4 hc) <;> omega
  | goRight par a p l r k s h r1 t1 _ _ hreb ih =>
    obtain ⟨h1, h2, h3, h4⟩ := ha
    obtain ⟨i1, i2, i3, i4⟩ := ih h4
    obtain ⟨g1, g2, g3, g4⟩ := RebalStep_AVL_node hreb h3 i1 (by omega)
    simp only [levels_node]
    refine ⟨g1, ?_, ?_, ?_⟩ <;>
      by_cases hc : levels l - 1 ≤ levels r1 - 1 + 1 ∧ levels r1 - 1 ≤ levels l - 1 + 1 <;>
      (try have g5 := g4 hc) <;> omega

theorem EraseMinRel_AVL {t t1 : Tree α} (h : EraseMinRel t t1) (ha : AVL t) :
    AVL t1 ∧ levels t1 ≤ levels t ∧ levels t ≤ levels t1 + 1 := by
  induction h with
  | stop a p r k s h =>
    obtain ⟨h1, h2, h3, h4⟩ := ha
    simp only [levels_node, levels_nil] at h1 h2 ⊢
    exact ⟨h4, by omega, by omega⟩
  | goLeft a p l r k s h l1 t1 _ _ hreb ih =>
    obtain ⟨h1, h2, h3, h4⟩ := ha
    obtain ⟨i1, i2, i3⟩ := ih h3
    obtain ⟨j1, j2⟩ := AVL_Pull ((AVL_setParent (some a) l1).mpr i1)
    rw [levels_setParent] at j2
    obtain ⟨g1, g2, g3, g4⟩ := RebalStep_AVL_node hreb j1 h4 (by omega)
    rw [j2] at g2 g3 g4
    simp only [levels_node]
    refine ⟨g1, ?_, ?_⟩ <;>
      by_cases hc : levels l1 - 1 ≤ levels r - 1 + 1 ∧ levels r - 1 ≤ levels l1 - 1 + 1 <;>
      (try have g5 := g4 hc) <;> omega

theorem EraseRel_AVL [LinearOrder α] {key : α} {par : Option Nat}
    {t t1 : Tree α} (h : EraseRel key par t t1) (ha : AVL t) :
    AVL t1 ∧ levels t1 ≤ levels t ∧ levels t ≤ levels t1 + 1 := by
  induction h with
  | null par => exact ⟨ha, le_refl _, Nat.le_succ _⟩
  | goLeft par a p l r k s h l1 t1 _ _ hreb ih =>
    obtain ⟨h1, h2, h3, h4⟩ := ha
    obtain ⟨i1, i2, i3⟩ := ih h3
    obtain ⟨g1, g2, g3, g4⟩ := RebalStep_AVL_node hreb i1 h4 (by omega)
    simp only [levels_node]
    refine ⟨g1, ?_, ?_⟩ <;>
      by_cases hc : levels l1 - 1 ≤ levels r - 1 + 1 ∧ levels r - 1 ≤ levels l1 - 1 + 1 <;>
      (try have g5 := g4 hc) <;> omega
  | goRight par a p l r k s h r1 t1 _ _ hreb ih =>
    obtain ⟨h1, h2, h3, h4⟩ := ha
    obtain ⟨i1, i2, i3⟩ := ih h4
    obtain ⟨g1, g2, g3, g4⟩ := RebalStep_AVL_node hreb h3 i1 (by omega)
    simp only [levels_node]
    refine ⟨g1, ?_, ?_⟩ <;>
      by_cases hc : levels l - 1 ≤ levels r1 - 1 + 1 ∧ levels r1 - 1 ≤ levels l - 1 + 1 <;>
      (try have g5 := g4 hc) <;> omega
  | leaf par a p s h =>
    obtain ⟨h1, _⟩ := ha
    simp only [levels_node, levels_nil] at h1 ⊢
    exact ⟨trivial, by omega, by omega⟩
  | onlyLeft par a p l s h t1 _ hreb =>
    obtain ⟨h1, h2, h3, h4⟩ := ha
    obtain ⟨g1, g2⟩ := RebalStep_AVL hreb ((AVL_setParent par l).mpr h3)
    rw [levels_setParent] at g2
    simp only [levels_node, levels_nil] at h1 h2 ⊢
    exact ⟨g1, by omega, by omega⟩
  | onlyRight par a p r s h t1 _ hreb =>
    obtain ⟨h1, h2, h3, h4⟩ := ha
    obtain ⟨g1, g2⟩ := RebalStep_AVL hreb ((AVL_setParent par r).mpr h4)
    rw [levels_setParent] at g2
    simp only [levels_node, levels_nil] at h1 h2 ⊢
    exact ⟨g1, by omega, by omega⟩
  | both par a p l r s h ma mp ml mr mk ms mh r1 t2 t1 _ _ _ hem hreb2 hreb1 =>
    obtain ⟨h1, h2, h3, h4⟩ := ha
    obtain ⟨i1, i2, i3⟩ := EraseMinRel_AVL hem h4
    obtain ⟨g1, g2, g3, g4⟩ := RebalStep_AVL_node hreb2
      ((AVL_setParent (some ma) l).mpr h3) ((AVL_setParent (some ma) r1).mpr i1)
      (by simp only [levels_setParent]; omega)
    obtain ⟨f1, f2⟩ := RebalStep_AVL hreb1 g1
    simp only [levels_setParent] at g2 g3 g4
    simp only [levels_node]
    refine ⟨f1, ?_, ?_⟩ <;>
      by_cases hc : levels l - 1 ≤ levels r1 - 1 + 1 ∧ levels r1 - 1 ≤ levels l - 1 + 1 <;>
      (try have g5 := g4 hc) <;> omega

theorem AVL_iff (t : Tree α) : AVL t ↔ HeightOK t ∧ Balanced t := by
  induction t with
  | nil => simp [AVL, HeightOK, Balanced]
  | node a p l r k s h ihl ihr =>
    simp only [AVL, HeightOK, Balanced, ihl, ihr, Height_eq_levels]
    have e1 := isNull_iff_levels l
    have e2 := isNull_iff_levels r
    constructor
    · rintro ⟨h1, ⟨h2, h3⟩, ⟨h4, h5⟩, h6, h7⟩
      refine ⟨⟨?_, h4, h6⟩, ?_, ?_, h5, h7⟩
      · by_cases c : l.isNull = true ∧ r.isNull = true
        · rw [if_pos c]
          have := e1.mp c.1
          have := e2.mp c.2
          omega
        · rw [if_neg c]
          have : ¬ (levels l = 0 ∧ levels r = 0) := fun hc => c ⟨e1.mpr hc.1, e2.mpr hc.2⟩
          omega
      · omega
      · omega
    · rintro ⟨⟨h1, h4, h6⟩, h2, h3, h5, h7⟩
      refine ⟨?_, ⟨?_, ?_⟩, ⟨h4, h5⟩, h6, h7⟩
      · by_cases c : l.isNull = true ∧ r.isNull = true
        · rw [if_pos c] at h1
          have := e1.mp c.1
          have := e2.mp c.2
          omega
        · rw [if_neg c] at h1
          have : ¬ (levels l = 0 ∧ levels r = 0) := fun hc => c ⟨e1.mpr hc.1, e2.mpr hc.2⟩
          omega
      · omega
      · omega

theorem AVL_step [LinearOrder α] (s : Set α) (op : Op α) (h : AVL s.root)
    (s1 : Set α) (e : s.step op = some s1) : AVL s1.root := by
  cases op with
  | insert k =>
    obtain ⟨t1, e1, r1⟩ := Set.insert_spec s k
    simp only [Set.step, e1, Option.some.injEq] at e
    subst e
    exact (InsertRel_AVL r1 h).1
  | erase k =>
    obtain ⟨t1, e1, r1⟩ := Set.erase_spec s k
    simp only [Set.step, e1, Option.some.injEq] at e
    subst e
    exact (EraseRel_AVL r1 h).1

/-- C4: after every finite sequence of `insert` and `erase` calls on the empty
set every node satisfies `|Height(left) - Height(right)| ≤ 1`, where `Height`
is the code's helper (the stored height of the child, 0 for an absent child). -/
theorem run_Balanced [LinearOrder α] (ops : List (Op α)) :
    ∃ s, Set.run ops = some s ∧ Balanced s.root := by
  obtain ⟨s, e, ha⟩ := Set.run_invariant (fun s : Set α => AVL s.root)
    (by simp [Set.empty, AVL]) (fun s op hs s1 h => AVL_step s op hs s1 h) ops
  exact ⟨s, e, ((AVL_iff _).mp ha).2⟩

/-! ### Memory lookups -/

theorem deref_isNull_of_not_mem (t : Tree α) (x : Nat) (h : x ∉ addrs t) :
    (deref t x).isNull = true := by
  induction t with
  | nil => rfl
  | node a p l r k s hh ihl ihr =>
    simp only [addrs, List.mem_append, List.mem_cons, not_or] at h
    obtain ⟨h1, h2, h3⟩ := h
    simp only [deref, if_neg h2, ihl h1, if_true]
    exact ihr h3

theorem deref_isNull_of_mem (t : Tree α) (x : Nat) (h : x ∈ addrs t) :
    (deref t x).isNull = false := by
  induction t with
  | nil => simp [addrs] at h
  | node a p l r k s hh ihl ihr =>
    simp only [deref]
    by_cases h2 : x = a
    · simp [h2, Tree.isNull]
    · rw [if_neg h2]
      cases h3 : (deref l x).isNull
      · simp [h3]
      · simp only [if_true]
        simp only [addrs, List.mem_append, List.mem_cons] at h
        rcases h with h | h | h
        · rw [ihl h] at h3
          cases h3
        · exact absurd h h2
        · exact ihr h

theorem Agree_of_deref_eq (mem t : Tree α) (hnd : (addrs t).Nodup)
    (h : ∀ x ∈ addrs t, deref mem x = deref t x) : Agree mem t := by
  induction t with
  | nil => trivial
  | node a p l r k s hh ihl ihr =>
    simp only [addrs] at hnd h
    have hnd1 := List.nodup_append.mp hnd
    have hnd2 := List.nodup_cons.mp hnd1.2.1
    have hdis := hnd1.2.2
    have hal : a ∉ addrs l := fun hm => hdis hm (List.mem_cons_self _ _)
    refine ⟨?_, ihl hnd1.1 ?_, ihr hnd2.2 ?_⟩
    · rw [h a (by simp)]
      simp [deref]
    · intro x hx
      rw [h x (by simp [hx])]
      have hxa : x ≠ a := fun e => hal (e ▸ hx)
      simp [deref, hxa, deref_isNull_of_mem l x hx]
    · intro x hx
      rw [h x (by simp [hx])]
      have hxa : x ≠ a := fun e => hnd2.1 (e ▸ hx)
      have hxl : x ∉ addrs l := fun hm => hdis hm (List.mem_cons_of_mem _ hx)
      simp [deref, hxa, deref_isNull_of_not_mem l x hxl]

theorem Agree_self (t : Tree α) (hnd : (addrs t).Nodup) : Agree t t :=
  Agree_of_deref_eq t t hnd (fun _ _ => rfl)

theorem Iterator.ne_self (it : Iterator) : Iterator.ne it it = false := by
  simp [Iterator.ne]

/-! ### `find` and `lower_bound` -/

theorem Find_spec [LinearOrder α] (mem t : Tree α) (key : α) (hb : BSTOrder t)
    (ha : Agree mem t) :
    (key ∈ keys t → ∃ a p l r s h, Find t key = node a p l r key s h ∧
        deref mem a = node a p l r key s h) ∧
      (key ∉ keys t → Find t key = nil) := by
  induction t with
  | nil => simp [keys, Find]
  | node a p l r k s h ihl ihr =>
    obtain ⟨h1, h2, h3, h4⟩ := hb
    obtain ⟨a1, a2, a3⟩ := ha
    simp only [Find, keys, List.mem_append, List.mem_cons]
    by_cases c1 : key < k
    · rw [if_pos c1]
      have hk : key ≠ k := ne_of_lt c1
      have hr : key ∉ keys r := fun hm => lt_asymm c1 (h2 key hm)
      obtain ⟨i1, i2⟩ := ihl h3 a2
      exact ⟨fun hm => i1 (by tauto), fun hm => i2 (by tauto)⟩
    · rw [if_neg c1]
      by_cases c2 : k < key
      · rw [if_pos c2]
        have hk : key ≠ k := ne_of_gt c2
        have hl : key ∉ keys l := fun hm => lt_asymm c2 (h1 key hm)
        obtain ⟨i1, i2⟩ := ihr h4 a3
        exact ⟨fun hm => i1 (by tauto), fun hm => i2 (by tauto)⟩
      · rw [if_neg c2]
        have hk : key = k := le_antisymm (not_lt.mp c2) (not_lt.mp c1)
        subst hk
        exact ⟨fun _ => ⟨a, p, l, r, s, h, rfl, a1⟩, fun hm => absurd (Or.inr (Or.inl rfl)) hm⟩

/-- C8: on a set in BST order (its nodes at pairwise distinct addresses),
`find(k)` differs from `end()` exactly when `k` is in the set; in that case
the cursor is not past the end and dereferences to `k`; when `k` is absent the
result is `end()`. -/
theorem find_iff_mem [LinearOrder α] (s : Set α) (k : α) (hb : BSTOrder s.root)
    (ha : (addrs s.root).Nodup) :
    (Iterator.ne (s.find k) s.end = true ↔ k ∈ keys s.root) ∧
      (k ∈ keys s.root →
        (s.find k).isEnd = false ∧ Iterator.star s.root (s.find k) = some k) ∧
      (k ∉ keys s.root → s.find k = s.end) := by
  obtain ⟨f1, f2⟩ := Find_spec s.root s.root k hb (Agree_self _ ha)
  have hin : k ∈ keys s.root →
      (s.find k).isEnd = false ∧ Iterator.star s.root (s.find k) = some k := by
    intro hm
    obtain ⟨a, p, l, r, sz, h, e1, e2⟩ := f1 hm
    simp [Set.find, e1, Tree.isNull, Tree.ptr, Iterator.star, e2]
  have hout : k ∉ keys s.root → s.find k = s.end := by
    intro hm
    simp [Set.find, f2 hm, Tree.isNull]
  refine ⟨⟨?_, ?_⟩, hin, hout⟩
  · intro hne
    by_contra hm
    rw [hout hm, Iterator.ne_self] at hne
    cases hne
  · intro hm
    have := (hin hm).1
    simp [Iterator.ne, Set.end, this]

/-- Witness of C8 on the sample set, for the present key 8. -/
theorem find_iff_mem_witness :
    BSTOrder sampleSet.root ∧ (addrs sampleSet.root).Nodup ∧
      (Iterator.ne (sampleSet.find (8 : Int)) sampleSet.end = true ↔
          (8 : Int) ∈ keys sampleSet.root) ∧
      ((8 : Int) ∈ keys sampleSet.root →
        (sampleSet.find (8 : Int)).isEnd = false ∧
          Iterator.star sampleSet.root (sampleSet.find (8 : Int)) = some 8) ∧
      ((8 : Int) ∉ keys sampleSet.root → sampleSet.find (8 : Int) = sampleSet.end) :=
  ⟨by simp [sampleSet, BSTOrder, keys], by simp [sampleSet, addrs],
    find_iff_mem sampleSet 8 (by simp [sampleSet, BSTOrder, keys]) (by simp [sampleSet, addrs])⟩

theorem LowerBound_spec [LinearOrder α] (mem t : Tree α) (key : α) (hb : BSTOrder t)
    (ha : Agree mem t) :
    ((∀ x ∈ keys t, x < key) → LowerBound t key = nil) ∧
      ((∃ y ∈ keys t, key ≤ y) → ∃ a p l r m s h, LowerBound t key = node a p l r m s h ∧
        deref mem a = node a p l r m s h ∧ m ∈ keys t ∧ key ≤ m ∧
        ∀ x ∈ keys t, key ≤ x → m ≤ x) := by
  induction t with
  | nil => simp [keys, LowerBound]
  | node a p l r k s h ihl ihr =>
    obtain ⟨h1, h2, h3, h4⟩ := hb
    obtain ⟨a1, a2, a3⟩ := ha
    obtain ⟨il1, il2⟩ := ihl h3 a2
    obtain ⟨ir1, ir2⟩ := ihr h4 a3
    simp only [LowerBound, keys, List.mem_append, List.mem_cons]
    by_cases c1 : key < k
    · rw [if_pos c1]
      refine ⟨fun hall => absurd (hall k (Or.inr (Or.inl rfl))) (lt_asymm c1), fun _ => ?_⟩
      by_cases hl : ∃ y ∈ keys l, key ≤ y
      · obtain ⟨b, q, ll, lr, m, ms, mh, e1, e2, e3, e4, e5⟩ := il2 hl
        refine ⟨b, q, ll, lr, m, ms, mh, by simp [e1, Tree.isNull], e2, Or.inl e3, e4, ?_⟩
        intro x hx hkx
        rcases hx with hx | rfl | hx
        · exact e5 x hx hkx
        · exact le_of_lt (h1 m e3)
        · exact le_of_lt (lt_trans (h1 m e3) (h2 x hx))
      · have hall : ∀ x ∈ keys l, x < key := fun x hx => by
          by_contra hc
          exact hl ⟨x, hx, not_lt.mp hc⟩
        refine ⟨a, p, l, r, k, s, h, by simp [il1 hall, Tree.isNull], a1, Or.inr (Or.inl rfl),
          le_of_lt c1, ?_⟩
        intro x hx hkx
        rcases hx with hx | rfl | hx
        · exact absurd (hall x hx) (not_lt.mpr hkx)
        · exact le_refl _
        · exact le_of_lt (h2 x hx)
    · rw [if_neg c1]
      by_cases c2 : k < key
      · rw [if_pos c2]
        constructor
        · intro hall
          exact ir1 (fun x hx => hall x (Or.inr (Or.inr hx)))
        · rintro ⟨y, hy, hky⟩
          have hyr : y ∈ keys r := by
            rcases hy with hy | rfl | hy
            · exact absurd (lt_trans (h1 y hy) c2) (not_lt.mpr hky)
            · exact absurd c2 (not_lt.mpr hky)
            · exact hy
          obtain ⟨b, q, rl, rr, m, ms, mh, e1, e2, e3, e4, e5⟩ := ir2 ⟨y, hyr, hky⟩
          refine ⟨b, q, rl, rr, m, ms, mh, e1, e2, Or.inr (Or.inr e3), e4, ?_⟩
          intro x hx hkx
          rcases hx with hx | rfl | hx
          · exact absurd (lt_trans (h1 x hx) c2) (not_lt.mpr hkx)
          · exact absurd c2 (not_lt.mpr hkx)
          · exact e5 x hx hkx
      · rw [if_neg c2]
        have hk : key = k := le_antisymm (not_lt.mp c2) (not_lt.mp c1)
        subst hk
        refine ⟨fun hall => absurd (hall key (Or.inr (Or.inl rfl))) (lt_irrefl _), fun _ => ?_⟩
        refine ⟨a, p, l, r, key, s, h, rfl, a1, Or.inr (Or.inl rfl), le_refl _, ?_⟩
        intro x _ hkx
        exact hkx

theorem Set.Inv_run [LinearOrder α] (ops : List (Op α)) :
    ∃ s, Set.run ops = some s ∧ Set.Inv s :=
  Set.run_invariant Set.Inv
    ⟨by simp [Set.empty, BSTOrder], by simp [Set.empty, ParentOK],
      by simp [AddrOK, Set.empty, addrs]⟩
    (fun s op hs s1 h => ⟨Set.step_BSTOrder s op hs.1 s1 h, ParentOK_step s op hs.2.1 s1 h,
      AddrOK_step s op hs.2.2 s1 h⟩) ops

/-- C7: after every finite sequence of `insert` and `erase` calls, for every
key `k` the cursor `lower_bound(k)` is `end()` exactly when every key of the
set is less than `k`; otherwise it is a cursor that is not past the end and
dereferences to the smallest key of the set that is not less than `k`. -/
theorem lower_bound_least [LinearOrder α] (ops : List (Op α)) :
    ∃ s, Set.run ops = some s ∧ ∀ k : α,
      (s.lower_bound k = s.end ↔ ∀ x ∈ keys s.root, x < k) ∧
      ((∃ y ∈ keys s.root, k ≤ y) →
        ∃ m, Iterator.star s.root (s.lower_bound k) = some m ∧
          (s.lower_bound k).isEnd = false ∧ m ∈ keys s.root ∧ k ≤ m ∧
          ∀ x ∈ keys s.root, k ≤ x → m ≤ x) := by
  obtain ⟨s, e, hb, _, ha, _⟩ := Set.Inv_run ops
  refine ⟨s, e, fun k => ?_⟩
  obtain ⟨f1, f2⟩ := LowerBound_spec s.root s.root k hb (Agree_self _ ha)
  have hsome : (∃ y ∈ keys s.root, k ≤ y) →
      ∃ m, Iterator.star s.root (s.lower_bound k) = some m ∧
        (s.lower_bound k).isEnd = false ∧ m ∈ keys s.root ∧ k ≤ m ∧
        ∀ x ∈ keys s.root, k ≤ x → m ≤ x := by
    intro hy
    obtain ⟨a, p, l, r, m, sz, h, e1, e2, e3, e4, e5⟩ := f2 hy
    exact ⟨m, by simp [Set.lower_bound, e1, Tree.isNull, Tree.ptr, Iterator.star, e2],
      by simp [Set.lower_bound, e1, Tree.isNull], e3, e4, e5⟩
  refine ⟨⟨?_, ?_⟩, hsome⟩
  · intro heq x hx
    by_contra hc
    obtain ⟨m, _, h2, _⟩ := hsome ⟨x, hx, not_lt.mp hc⟩
    rw [heq] at h2
    simp [Set.end] at h2
  · intro hall
    simp [Set.lower_bound, f1 hall, Tree.isNull]

/-! ### Forward iteration -/

theorem depth_le_length (t : Tree α) : depth t ≤ (keys t).length := by
  induction t with
  | nil => simp [depth, keys]
  | node a p l r k s h ihl ihr =>
    simp only [depth, keys, List.length_append, List.length_cons]
    omega

theorem ClimbsTo_fuel {mem : Tree α} {a b n : Nat} (h : ClimbsTo mem a b n) :
    ∀ f, n < f → climbWhileRight mem f a = some b := by
  induction h with
  | atRoot a self l r k s h e1 =>
    intro f hf
    obtain ⟨f1, rfl⟩ : ∃ f1, f = f1 + 1 := ⟨f - 1, by omega⟩
    simp [climbWhileRight, e1]
  | atLeft a self p l r k s h pself pp pl pr pk ps ph e1 e2 e3 =>
    intro f hf
    obtain ⟨f1, rfl⟩ : ∃ f1, f = f1 + 1 := ⟨f - 1, by omega⟩
    simp [climbWhileRight, e1, e2, e3]
  | up a b n self p l r k s h pself pp pl pr pk ps ph e1 e2 e3 _ ih =>
    intro f hf
    obtain ⟨f1, rfl⟩ : ∃ f1, f = f1 + 1 := ⟨f - 1, by omega⟩
    simp [climbWhileRight, e1, e2, e3, ih f1 (by omega)]

theorem inc_of_ClimbsTo {mem : Tree α} {fuel a b n : Nat} {p : Option Nat} {l : Tree α}
    {k : α} {s h : Nat} {E : Iterator} (hA : deref mem a = node a p l nil k s h)
    (hc : ClimbsTo mem a b n) (hf : n < fuel) (hE : exitCursor mem b = some E) :
    Iterator.inc mem fuel ⟨some a, false⟩ = some E := by
  have e1 := ClimbsTo_fuel hc fuel hf
  unfold exitCursor at hE
  cases hb : deref mem b with
  | nil => simp [hb] at hE
  | node bself bp bl br bk bs bh =>
    rw [hb] at hE
    simp only [Iterator.inc, GetNext, hA, Tree.isNull, e1, Option.bind, hb]
    by_cases c : bp = none
    · simp [c] at hE ⊢
      exact hE
    · simp [c] at hE ⊢
      exact hE

theorem Path_trans {mem : Tree α} {fuel : Nat} {it it1 it2 : Iterator} {ks ks1 : List α}
    (h1 : Path mem fuel it ks it1) (h2 : Path mem fuel it1 ks1 it2) :
    Path mem fuel it (ks ++ ks1) it2 := by
  induction h1 with
  | done it => exact h2
  | step a k it1 ks it3 e1 e2 _ ih => exact Path.step a k it1 _ it2 e1 e2 (ih h2)

theorem ptr_not_mem_addrs {t : Tree α} {x : Nat} (h : x ∉ addrs t) : t.ptr ≠ some x := by
  cases t with
  | nil => simp [Tree.ptr]
  | node a p l r k s hh =>
    simp only [addrs, List.mem_append, List.mem_cons, not_or] at h
    simp only [Tree.ptr, ne_eq, Option.some.injEq]
    exact fun e => h.2.1 e.symm

/-- The forward walk over a subtree: started at its minimum it visits the keys
of the subtree in order and leaves through the cursor `E` that the climbing
loop yields at the subtree's root. -/
theorem Path_subtree (mem : Tree α) (fuel : Nat) (t : Tree α) :
    ∀ (par : Option Nat) (a b n : Nat) (E : Iterator), t.ptr = some a →
      ParentOK par t → Agree mem t → (addrs t).Nodup →
      ClimbsTo mem a b n → n + depth t ≤ fuel → exitCursor mem b = some E →
      Path mem fuel ⟨(GetMinimum t).ptr, false⟩ (keys t) E := by
  induction t with
  | nil => intro par a b n E hp; simp [Tree.ptr] at hp
  | node a0 p l r k s h ihl ihr =>
    intro par a b n E hp hpar hag hnd hc hf hE
    simp only [Tree.ptr, Option.some.injEq] at hp
    subst hp
    obtain ⟨hA, hagl, hagr⟩ := hag
    obtain ⟨_, hpl, hpr⟩ := hpar
    simp only [addrs] at hnd
    have hnd1 := List.nodup_append.mp hnd
    have hnd2 := List.nodup_cons.mp hnd1.2.1
    simp only [depth] at hf
    have hstar : Iterator.star mem ⟨some a0, false⟩ = some k := by
      simp [Iterator.star, hA]
    -- the walk from the root of the subtree onwards
    have hR : Path mem fuel ⟨some a0, false⟩ (k :: keys r) E := by
      cases r with
      | nil =>
        exact Path.step a0 k E [] E hstar (inc_of_ClimbsTo hA hc (by omega) hE) (Path.done E)
      | node ra rp rl rr rk rs rh =>
        have hrp : rp = some a0 := hpr.1
        subst hrp
        have hinc : Iterator.inc mem fuel ⟨some a0, false⟩ =
            some ⟨(GetMinimum (node ra (some a0) rl rr rk rs rh)).ptr, false⟩ := by
          simp [Iterator.inc, GetNext, hA, Tree.isNull]
        have hc1 : ClimbsTo mem ra b (n + 1) :=
          ClimbsTo.up ra b n ra a0 rl rr rk rs rh a0 p l _ k s h hagr.1 hA rfl hc
        exact Path.step a0 k _ _ E hstar hinc
          (ihr (some a0) ra b (n + 1) E rfl hpr hagr hnd2.2 hc1 (by omega) hE)
    cases l with
    | nil => simpa [GetMinimum, Tree.isNull, keys, Tree.ptr] using hR
    | node la lp ll lr lk ls lh =>
      have hlp : lp = some a0 := hpl.1
      subst hlp
      have hla : la ∈ addrs (node la (some a0) ll lr lk ls lh) := by simp [addrs]
      have hnr : la ∉ addrs r := fun hm => hnd1.2.2 hla (List.mem_cons_of_mem _ hm)
      have hc0 : ClimbsTo mem la la 0 :=
        ClimbsTo.atLeft la la a0 ll lr lk ls lh a0 p _ r k s h hagl.1 hA (ptr_not_mem_addrs hnr)
      have hE0 : exitCursor mem la = some ⟨some a0, false⟩ := by
        simp [exitCursor, hagl.1]
      have hL := ihl (some a0) la la 0 ⟨some a0, false⟩ rfl hpl hagl hnd1.1 hc0 (by omega) hE0
      have := Path_trans hL hR
      simpa [GetMinimum, Tree.isNull, keys] using this

/-- The step from the maximum of a subtree leaves through the cursor `E` that
the climbing loop yields at the subtree's root. -/
theorem inc_GetMaximum (mem : Tree α) (fuel : Nat) (t : Tree α) :
    ∀ (par : Option Nat) (a b n : Nat) (E : Iterator), t.ptr = some a →
      ParentOK par t → Agree mem t →
      ClimbsTo mem a b n → n + depth t ≤ fuel → exitCursor mem b = some E →
      Iterator.inc mem fuel ⟨(GetMaximum t).ptr, false⟩ = some E := by
  induction t with
  | nil => intro par a b n E hp; simp [Tree.ptr] at hp
  | node a0 p l r k s h _ ihr =>
    intro par a b n E hp hpar hag hc hf hE
    simp only [Tree.ptr, Option.some.injEq] at hp
    subst hp
    obtain ⟨hA, _, hagr⟩ := hag
    obtain ⟨_, _, hpr⟩ := hpar
    simp only [depth] at hf
    cases r with
    | nil =>
      simpa [GetMaximum, Tree.isNull, Tree.ptr] using inc_of_ClimbsTo hA hc (by omega) hE
    | node ra rp rl rr rk rs rh =>
      have hrp : rp = some a0 := hpr.1
      subst hrp
      have hc1 : ClimbsTo mem ra b (n + 1) :=
        ClimbsTo.up ra b n ra a0 rl rr rk rs rh a0 p l _ k s h hagr.1 hA rfl hc
      have := ihr (some a0) ra b (n + 1) E rfl hpr hagr hc1 (by omega) hE
      simpa [GetMaximum, Tree.isNull] using this

theorem collect_of_Path (s : Set α) (fuel : Nat) {it e : Iterator} {ks : List α}
    (h : Path s.root fuel it ks e) (he : e = s.end) :
    ∀ n, ks.length < n → s.collect fuel n it = some ks := by
  induction h with
  | done it =>
    intro n hn
    obtain ⟨n1, rfl⟩ : ∃ n1, n = n1 + 1 := ⟨n - 1, by simp at hn; omega⟩
    simp [Set.collect, he, Iterator.ne_self]
  | step a k it1 ks it2 e1 e2 _ ih =>
    intro n hn
    simp only [List.length_cons] at hn
    obtain ⟨n1, rfl⟩ : ∃ n1, n = n1 + 1 := ⟨n - 1, by omega⟩
    have hne : Iterator.ne ⟨some a, false⟩ s.end = true := by simp [Iterator.ne, Set.end]
    simp [Set.collect, hne, e1, e2, ih he n1 (by omega)]

/-- C6: after every finite sequence of `insert` and `erase` calls, the loop
`for (it = begin(); it != end(); ++it)` visits exactly the in-order key
sequence, which is strictly increasing; on a non-empty set the `++` taken at
the node with the maximum key gives a cursor equal to `end()`; and on an empty
set `begin()` equals `end()`.  The bounds on `fuel` and `n` say that the
climbing loop and the traversal loop are given enough iterations. -/
theorem forward_iteration [LinearOrder α] (ops : List (Op α)) :
    ∃ s, Set.run ops = some s ∧ (keys s.root).Sorted (· < ·) ∧
      (∀ fuel n, (keys s.root).length ≤ fuel → (keys s.root).length < n →
        s.collect fuel n s.begin = some (keys s.root)) ∧
      (s.isEmpty = false → ∀ fuel, (keys s.root).length ≤ fuel →
        Iterator.inc s.root fuel ⟨(GetMaximum s.root).ptr, false⟩ = some s.end) ∧
      (s.isEmpty = true → s.begin = s.end) := by
  obtain ⟨s, e, hb, hp, ha, _⟩ := Set.Inv_run ops
  refine ⟨s, e, (BSTOrder_iff_sorted _).mp hb, ?_, ?_, ?_⟩
  · intro fuel n hf hn
    cases hr : s.root with
    | nil =>
      obtain ⟨n1, rfl⟩ : ∃ n1, n = n1 + 1 := ⟨n - 1, by omega⟩
      simp [Set.collect, Set.begin, Set.end, Set.isEmpty, hr, GetMinimum, Tree.ptr,
        Tree.isNull, Iterator.ne, keys]
    | node a p l r k sz h =>
      rw [hr] at hp ha
      have hp0 : p = none := hp.1
      subst hp0
      have hag := Agree_self _ ha
      have hc : ClimbsTo (node a none l r k sz h) a a 0 :=
        ClimbsTo.atRoot a a l r k sz h hag.1
      have hE : exitCursor (node a none l r k sz h) a = some ⟨some a, true⟩ := by
        simp [exitCursor, hag.1]
      have hd := depth_le_length (node a none l r k sz h)
      rw [hr] at hf hn
      have hpath := Path_subtree (node a none l r k sz h) fuel (node a none l r k sz h)
        none a a 0 ⟨some a, true⟩ rfl hp hag ha hc (by omega) hE
      have hbegin : s.begin = ⟨(GetMinimum (node a none l r k sz h)).ptr, false⟩ := by
        simp [Set.begin, Set.isEmpty, hr, Tree.isNull]
      have hend : (⟨some a, true⟩ : Iterator) = s.end := by
        simp [Set.end, hr, Tree.ptr]
      rw [hbegin]
      have := collect_of_Path s fuel (by rw [hr]; exact hpath) hend n hn
      exact this
  · intro hne fuel hf
    cases hr : s.root with
    | nil => simp [Set.isEmpty, hr, Tree.isNull] at hne
    | node a p l r k sz h =>
      rw [hr] at hp ha hf
      have hp0 : p = none := hp.1
      subst hp0
      have hag := Agree_self _ ha
      have hc : ClimbsTo (node a none l r k sz h) a a 0 :=
        ClimbsTo.atRoot a a l r k sz h hag.1
      have hE : exitCursor (node a none l r k sz h) a = some ⟨some a, true⟩ := by
        simp [exitCursor, hag.1]
      have hd := depth_le_length (node a none l r k sz h)
      have := inc_GetMaximum (node a none l r k sz h) fuel (node a none l r k sz h)
        none a a 0 ⟨some a, true⟩ rfl hp hag hc (by omega) hE
      simpa [Set.end, hr, Tree.ptr] using this
  · intro hemp
    cases hr : s.root with
    | nil => simp [Set.begin, Set.end, Set.isEmpty, hr, GetMinimum, Tree.ptr, Tree.isNull]
    | node a p l r k sz h => simp [Set.isEmpty, hr, Tree.isNull] at hemp

/-! ### Height consistency -/

theorem Height_eq_longestPath {t : Tree α} (h : HeightOK t) : Height t = longestPath t := by
  induction t with
  | nil => rfl
  | node a p l r k s hh ihl ihr =>
    obtain ⟨h1, h2, h3⟩ := h
    show hh = longestPath (node a p l r k s hh)
    rw [h1, longestPath, ihl h2, ihr h3]

theorem StoresLongestPath_of_HeightOK {t : Tree α} (h : HeightOK t) : StoresLongestPath t := by
  induction t with
  | nil => trivial
  | node a p l r k s hh ihl ihr =>
    exact ⟨Height_eq_longestPath h, ihl h.2.1, ihr h.2.2⟩

/-- C11: after every finite sequence of `insert` and `erase` calls on the
empty set the height stored in every node is 0 when both children are absent
and otherwise one more than the largest stored height of its present
children; it is the length in edges of the longest downward path from that
node to a leaf. -/
theorem run_HeightOK [LinearOrder α] (ops : List (Op α)) :
    ∃ s, Set.run ops = some s ∧ HeightOK s.root ∧ StoresLongestPath s.root := by
  obtain ⟨s, e, ha⟩ := Set.run_invariant (fun s : Set α => AVL s.root)
    (by simp [Set.empty, AVL]) (fun s op hs s1 h => AVL_step s op hs s1 h) ops
  have hh := ((AVL_iff _).mp ha).1
  exact ⟨s, e, hh, StoresLongestPath_of_HeightOK hh⟩

/-! ### Worked examples -/

/-- C14: inserting 5, 3, 8, 1, 4, 7, 9 into the empty set gives a set whose
forward iteration is 1, 3, 4, 5, 7, 8, 9, on which `find(6)` is `end()` and
`lower_bound(6)` is a cursor (not past the end) at key 7; after `erase(5)` the
forward iteration is 1, 3, 4, 7, 8, 9 and `size()` is 6. -/
theorem worked_example :
    ∃ s, Set.run exampleOps = some s ∧
      s.collect 7 8 s.begin = some [1, 3, 4, 5, 7, 8, 9] ∧
      s.find 6 = s.end ∧
      (s.lower_bound 6).isEnd = false ∧ Iterator.star s.root (s.lower_bound 6) = some 7 ∧
      ∃ s1, s.erase 5 = some s1 ∧
        s1.collect 6 7 s1.begin = some [1, 3, 4, 7, 8, 9] ∧ s1.size = 6 :=
  ⟨exampleSet, by rfl, by rfl, by rfl, by rfl, by rfl, exampleErased, by rfl, by rfl, by rfl⟩

/-- C19: inserting 1, 2, 3 in this order gives the right chain 1 -> 2 -> 3
rooted at the node allocated first (no rotation has moved it), with stored
root height 2; the root's balance factor is 0 - 1 = -1 because `Height`
reports 0 for the absent left child, so the tree is balanced for the code but
not under the usual convention in which an absent subtree has height -1. -/
theorem chain_example :
    Set.run [Op.insert (1 : Int), Op.insert 2, Op.insert 3] = some chainSet ∧
      Height chainSet.root = 2 ∧
      chainSet.root.left.isNull = true ∧ Height chainSet.root.right = 1 ∧
      Height (nil : Tree Int) = 0 ∧ Height (Tree.mk 2 (3 : Int) (some 1)) = 0 ∧
      BalanceFactor chainSet.root = -1 ∧ Balanced chainSet.root ∧
      ¬ UsualBalanced chainSet.root := by
  refine ⟨by rfl, by rfl, by rfl, by rfl, by rfl, by rfl, by rfl, ?_, ?_⟩
  · simp [chainSet, Balanced, Height]
  · simp [chainSet, UsualBalanced, usualHeight]

/-! ### Calls that change nothing -/

theorem Pull_eq_self {t : Tree α} (ha : AVL t) (hs : SizeOK t) : Pull t = t := by
  cases t with
  | nil => rfl
  | node a p l r k s h =>
    obtain ⟨h1, _, _, _⟩ := ha
    obtain ⟨s1, _, _⟩ := hs
    have e1 : Height (Pull (node a p l r k s h)) = h := by
      have := levels_Pull_node a p l r k s h
      rw [Height_eq_levels, this, h1]
      omega
    have e2 : Size (Pull (node a p l r k s h)) = s := by
      rw [s1]
      cases l <;> cases r <;> simp [Pull, Size, Tree.isNull]
    have e3 : Pull (node a p l r k s h) =
        node a p l r k (Size (Pull (node a p l r k s h))) (Height (Pull (node a p l r k s h))) := by
      simp [Pull, Size, Height]
    rw [e3, e1, e2]

theorem RebalStep_eq_self {t t1 : Tree α} (hr : RebalStep t t1) (ha : AVL t) (hs : SizeOK t) :
    t1 = t := by
  cases hr with
  | null => rfl
  | keep a p l r k s h _ _ => exact Pull_eq_self ha hs
  | right a p l k s h b q rl rr rk rs rh h1 _ =>
    obtain ⟨_, h2, _, _⟩ := ha
    simp only [Height_eq_levels, levels_node] at h1 h2
    omega
  | rightLeft a p l k s h b q rr rk rs rh c q1 rll rlr ck cs ch h1 _ =>
    obtain ⟨_, h2, _, _⟩ := ha
    simp only [Height_eq_levels, levels_node] at h1 h2
    omega
  | left a p r k s h b q ll lr lk ls lh h1 _ =>
    obtain ⟨_, h2, _, _⟩ := ha
    simp only [Height_eq_levels, levels_node] at h1 h2
    omega
  | leftRight a p r k s h b q ll lk ls lh c q1 lrl lrr ck cs ch h1 _ =>
    obtain ⟨_, h2, _, _⟩ := ha
    simp only [Height_eq_levels, levels_node] at h1 h2
    omega

theorem InsertRel_eq_self [LinearOrder α] {fresh : Nat} {key : α} {par : Option Nat}
    {t t1 : Tree α} (h : InsertRel fresh key par t t1) (hb : BSTOrder t) (ha : AVL t)
    (hs : SizeOK t) (hm : key ∈ keys t) : t1 = t := by
  induction h with
  | null par => simp [keys] at hm
  | found par a p l r s h => rfl
  | goLeft par a p l r k s h l1 t1 hlt _ hreb ih =>
    obtain ⟨_, b2, b3, _⟩ := hb
    have hml : key ∈ keys l := by
      simp only [keys, List.mem_append, List.mem_cons] at hm
      rcases hm with hm | hm | hm
      · exact hm
      · exact absurd hlt (hm ▸ lt_irrefl _)
      · exact absurd hlt (lt_asymm (b2 key hm))
    have e := ih b3 ha.2.2.1 hs.2.1 hml
    subst e
    exact RebalStep_eq_self hreb ha hs
  | goRight par a p l r k s h r1 t1 hlt _ hreb ih =>
    obtain ⟨b1, _, _, b4⟩ := hb
    have hmr : key ∈ keys r := by
      simp only [keys, List.mem_append, List.mem_cons] at hm
      rcases hm with hm | hm | hm
      · exact absurd hlt (lt_asymm (b1 key hm))
      · exact absurd hlt (hm ▸ lt_irrefl _)
      · exact hm
    have e := ih b4 ha.2.2.2 hs.2.2 hmr
    subst e
    exact RebalStep_eq_self hreb ha hs

theorem EraseRel_eq_self [LinearOrder α] {key : α} {par : Option Nat}
    {t t1 : Tree α} (h : EraseRel key par t t1) (ha : AVL t) (hs : SizeOK t)
    (hm : key ∉ keys t) : t1 = t := by
  induction h with
  | null par => rfl
  | goLeft par a p l r k s h l1 t1 _ _ hreb ih =>
    have hml : key ∉ keys l := fun hc => hm (by simp [keys, hc])
    have e := ih ha.2.2.1 hs.2.1 hml
    subst e
    exact RebalStep_eq_self hreb ha hs
  | goRight par a p l r k s h r1 t1 _ _ hreb ih =>
    have hmr : key ∉ keys r := fun hc => hm (by simp [keys, hc])
    have e := ih ha.2.2.2 hs.2.2 hmr
    subst e
    exact RebalStep_eq_self hreb ha hs
  | leaf par a p s h => exact absurd (by simp [keys]) hm
  | onlyLeft par a p l s h t1 _ _ => exact absurd (by simp [keys]) hm
  | onlyRight par a p r s h t1 _ _ => exact absurd (by simp [keys]) hm
  | both par a p l r s h ma mp ml mr mk ms mh r1 t2 t1 _ _ _ _ _ _ =>
    exact absurd (by simp [keys]) hm

/-- C15: on a tree that is in BST order, balanced, and has consistent size
and height fields, `insert(k)` of a key that is already present returns the
very same tree: same shape, keys, parent links, stored sizes and heights. -/
theorem insert_present_noop [LinearOrder α] (s : Set α) (k : α) (hb : BSTOrder s.root)
    (hbal : Balanced s.root) (hs : SizeOK s.root) (hh : HeightOK s.root)
    (hk : k ∈ keys s.root) :
    ∃ s1, s.insert k = some s1 ∧ s1.root = s.root := by
  obtain ⟨t1, e1, r1⟩ := Set.insert_spec s k
  exact ⟨_, e1, InsertRel_eq_self r1 hb ((AVL_iff _).mpr ⟨hh, hbal⟩) hs hk⟩

/-- Witness of C15 on the sample set: inserting the present key 3. -/
theorem insert_present_noop_witness :
    BSTOrder sampleSet.root ∧ Balanced sampleSet.root ∧ SizeOK sampleSet.root ∧
      HeightOK sampleSet.root ∧ (3 : Int) ∈ keys sampleSet.root ∧
      ∃ s1, sampleSet.insert (3 : Int) = some s1 ∧ s1.root = sampleSet.root :=
  ⟨by simp [sampleSet, BSTOrder, keys], by simp [sampleSet, Balanced, Height],
    by simp [sampleSet, SizeOK, Size], by simp [sampleSet, HeightOK, Height, Tree.isNull],
    by simp [sampleSet, keys],
    insert_present_noop sampleSet 3 (by simp [sampleSet, BSTOrder, keys])
      (by simp [sampleSet, Balanced, Height]) (by simp [sampleSet, SizeOK, Size])
      (by simp [sampleSet, HeightOK, Height, Tree.isNull]) (by simp [sampleSet, keys])⟩

/-- C16: on a tree that is balanced and has consistent size and height
fields, `erase(k)` of a key that is not present returns the very same set:
same shape, keys, parent links, stored sizes and heights. -/
theorem erase_absent_noop [LinearOrder α] (s : Set α) (k : α)
    (hbal : Balanced s.root) (hs : SizeOK s.root) (hh : HeightOK s.root)
    (hk : k ∉ keys s.root) :
    s.erase k = some s := by
  obtain ⟨t1, e1, r1⟩ := Set.erase_spec s k
  have := EraseRel_eq_self r1 ((AVL_iff _).mpr ⟨hh, hbal⟩) hs hk
  rw [e1, this]

/-- Witness of C16 on the sample set: erasing the absent key 4. -/
theorem erase_absent_noop_witness :
    Balanced sampleSet.root ∧ SizeOK sampleSet.root ∧ HeightOK sampleSet.root ∧
      (4 : Int) ∉ keys sampleSet.root ∧ sampleSet.erase (4 : Int) = some sampleSet :=
  ⟨by simp [sampleSet, Balanced, Height], by simp [sampleSet, SizeOK, Size],
    by simp [sampleSet, HeightOK, Height, Tree.isNull], by simp [sampleSet, keys],
    erase_absent_noop sampleSet 4 (by simp [sampleSet, Balanced, Height])
      (by simp [sampleSet, SizeOK, Size]) (by simp [sampleSet, HeightOK, Height, Tree.isNull])
      (by simp [sampleSet, keys])⟩

/-! ### `Rebalance` at a single node -/

theorem rotate_isSome (t : Tree α) :
    ((RotateRight t).isSome = true ↔ t.right.isNull = false) ∧
      ((RotateLeft t).isSome = true ↔ t.left.isNull = false) := by
  cases t with
  | nil => simp [RotateRight, RotateLeft, Tree.right, Tree.left, Tree.isNull]
  | node a p l r k s h =>
    cases l <;> cases r <;> simp [RotateRight, RotateLeft, Tree.right, Tree.left, Tree.isNull]

theorem guard_right {a : Nat} {p : Option Nat} {l r : Tree α} {k : α} {s h : Nat}
    (hb : BalanceFactor (node a p l r k s h) < -1) :
    r.isNull = false ∧ (BalanceFactor r > 0 → r.left.isNull = false) := by
  cases r with
  | nil => simp [BalanceFactor, Height] at hb; omega
  | node b q rl rr rk rs rh =>
    refine ⟨rfl, fun h2 => ?_⟩
    cases rl with
    | nil => simp [BalanceFactor, Height] at h2; omega
    | node c q1 rll rlr ck cs ch => rfl

theorem guard_left {a : Nat} {p : Option Nat} {l r : Tree α} {k : α} {s h : Nat}
    (hb : 1 < BalanceFactor (node a p l r k s h)) :
    l.isNull = false ∧ (BalanceFactor l < 0 → l.right.isNull = false) := by
  cases l with
  | nil => simp [BalanceFactor, Height] at hb; omega
  | node b q ll lr lk ls lh =>
    refine ⟨rfl, fun h2 => ?_⟩
    cases lr with
    | nil => simp [BalanceFactor, Height] at h2; omega
    | node c q1 lrl lrr ck cs ch => rfl

/-- C18: at a node whose two subtrees have consistent heights and sizes and are
balanced, (1) if the balance factor is -2 or +2, `Rebalance` returns a subtree
with the same in-order keys that is balanced at every node and has consistent
heights and sizes, and whose height is the height the unbalanced subtree had
(what `Pull` computes from the children) or one less; (2) if the balance
factor is within -1..1, `Rebalance` is exactly `Pull`, which only rewrites
the size and the height of the node. -/
theorem rebalance_behaviour (a : Nat) (p : Option Nat) (l r : Tree α) (k : α) (s h : Nat)
    (hl : HeightOK l ∧ Balanced l ∧ SizeOK l) (hr : HeightOK r ∧ Balanced r ∧ SizeOK r) :
    ((BalanceFactor (node a p l r k s h) = -2 ∨ BalanceFactor (node a p l r k s h) = 2) →
      ∃ t1, Rebalance (node a p l r k s h) = some t1 ∧
        keys t1 = keys (node a p l r k s h) ∧
        Balanced t1 ∧ HeightOK t1 ∧ SizeOK t1 ∧
        (Height t1 = Height (Pull (node a p l r k s h)) ∨
          Height t1 + 1 = Height (Pull (node a p l r k s h)))) ∧
    ((-1 ≤ BalanceFactor (node a p l r k s h) ∧ BalanceFactor (node a p l r k s h) ≤ 1) →
      Rebalance (node a p l r k s h) = some (Pull (node a p l r k s h)) ∧
        ∃ s1 h1, Pull (node a p l r k s h) = node a p l r k s1 h1) := by
  have al : AVL l := (AVL_iff l).mpr ⟨hl.1, hl.2.1⟩
  have ar : AVL r := (AVL_iff r).mpr ⟨hr.1, hr.2.1⟩
  obtain ⟨t1, e1, r1⟩ := Rebalance_spec (node a p l r k s h)
  constructor
  · intro hbf
    have hb : levels l - 1 ≤ levels r - 1 + 2 ∧ levels r - 1 ≤ levels l - 1 + 2 := by
      simp only [BalanceFactor, Height_eq_levels] at hbf
      omega
    obtain ⟨g1, g2, g3, _⟩ := RebalStep_AVL_node r1 al ar hb
    have g5 := (AVL_iff t1).mp g1
    refine ⟨t1, e1, RebalStep_keys r1, g5.2, g5.1, RebalStep_SizeOK_node r1 hl.2.2 hr.2.2, ?_⟩
    rw [Height_eq_levels, Height_eq_levels, levels_Pull_node]
    simp only [BalanceFactor, Height_eq_levels] at hbf
    omega
  · intro hbf
    simp only [BalanceFactor] at hbf
    have e2 : Rebalance (node a p l r k s h) = some (Pull (node a p l r k s h)) := by
      simp only [Rebalance, BalanceFactor]
      rw [if_neg (by omega), if_neg (by omega)]
    exact ⟨e2, _, _, rfl⟩

/-- Witness of C18: the node with key 1, an absent left child and the chain
2 -> 3 -> 4 as right child has balance factor -2. -/
theorem rebalance_behaviour_witness :
    (HeightOK (nil : Tree Int) ∧ Balanced (nil : Tree Int) ∧ SizeOK (nil : Tree Int)) ∧
      (HeightOK heavyChild ∧ Balanced heavyChild ∧ SizeOK heavyChild) ∧
      BalanceFactor (node 0 none nil heavyChild (1 : Int) 4 3) = -2 ∧
      ((BalanceFactor (node 0 none nil heavyChild (1 : Int) 4 3) = -2 ∨
          BalanceFactor (node 0 none nil heavyChild (1 : Int) 4 3) = 2) →
        ∃ t1, Rebalance (node 0 none nil heavyChild (1 : Int) 4 3) = some t1 ∧
          keys t1 = keys (node 0 none nil heavyChild (1 : Int) 4 3) ∧
          Balanced t1 ∧ HeightOK t1 ∧ SizeOK t1 ∧
          (Height t1 = Height (Pull (node 0 none nil heavyChild (1 : Int) 4 3)) ∨
            Height t1 + 1 = Height (Pull (node 0 none nil heavyChild (1 : Int) 4 3)))) ∧
      ((-1 ≤ BalanceFactor (node 0 none nil heavyChild (1 : Int) 4 3) ∧
          BalanceFactor (node 0 none nil heavyChild (1 : Int) 4 3) ≤ 1) →
        Rebalance (node 0 none nil heavyChild (1 : Int) 4 3) =
            some (Pull (node 0 none nil heavyChild (1 : Int) 4 3)) ∧
          ∃ s1 h1, Pull (node 0 none nil heavyChild (1 : Int) 4 3) =
            node 0 none nil heavyChild 1 s1 h1) :=
  ⟨by simp [HeightOK, Balanced, SizeOK],
    by simp [heavyChild, HeightOK, Balanced, SizeOK, Height, Size, Tree.isNull],
    by rfl,
    rebalance_behaviour 0 none nil heavyChild 1 4 3 (by simp [HeightOK, Balanced, SizeOK])
      (by simp [heavyChild, HeightOK, Balanced, SizeOK, Height, Size, Tree.isNull])⟩

/-- C20: a rotation is only called on a node whose child on the heavy side
is present, and the heavy child is only rotated first when its inner
grandchild is present; this holds at every node, whatever its stored heights.
In the model a rotation returns a result exactly when the child it
dereferences is present.  Hence `Rebalance` always returns, `EraseMinimum`
returns on every non-null subtree (it is only called on one), and `insert`
and `erase` return on every set reachable from the empty set. -/
theorem rotations_safe [LinearOrder α] :
    (∀ t : Tree α,
      ((RotateRight t).isSome = true ↔ t.right.isNull = false) ∧
      ((RotateLeft t).isSome = true ↔ t.left.isNull = false) ∧
      (BalanceFactor t < -1 →
        t.right.isNull = false ∧ (BalanceFactor t.right > 0 → t.right.left.isNull = false)) ∧
      (1 < BalanceFactor t →
        t.left.isNull = false ∧ (BalanceFactor t.left < 0 → t.left.right.isNull = false)) ∧
      (Rebalance t).isSome = true) ∧
    (∀ t : Tree α, t.isNull = false → (EraseMinimum t).isSome = true) ∧
    (∀ ops : List (Op α), ∃ s, Set.run ops = some s ∧
      ∀ k, (s.insert k).isSome = true ∧ (s.erase k).isSome = true) := by
  refine ⟨fun t => ⟨(rotate_isSome t).1, (rotate_isSome t).2, ?_, ?_, ?_⟩, ?_, ?_⟩
  · intro hb
    cases t with
    | nil => simp [BalanceFactor] at hb
    | node a p l r k s h => exact guard_right hb
  · intro hb
    cases t with
    | nil => simp [BalanceFactor] at hb
    | node a p l r k s h => exact guard_left hb
  · obtain ⟨t1, e1, _⟩ := Rebalance_spec t
    simp [e1]
  · intro t ht
    obtain ⟨t1, e1, _⟩ := EraseMinimum_spec t ht
    simp [e1]
  · intro ops
    obtain ⟨s, e, _⟩ := Set.Inv_run ops
    refine ⟨s, e, fun k => ?_⟩
    obtain ⟨t1, e1, _⟩ := Set.insert_spec s k
    obtain ⟨t2, e2, _⟩ := Set.erase_spec s k
    simp [e1, e2]

/-! ### Backward iteration -/

theorem nodes_fst (t : Tree α) : (nodes t).map Prod.fst = addrs t := by
  induction t with
  | nil => rfl
  | node a p l r k s h ihl ihr => simp [nodes, addrs, ihl, ihr]

theorem nodes_snd (t : Tree α) : (nodes t).map Prod.snd = keys t := by
  induction t with
  | nil => rfl
  | node a p l r k s h ihl ihr => simp [nodes, keys, ihl, ihr]

theorem ClimbsToLeft_fuel {mem : Tree α} {a b n : Nat} (h : ClimbsToLeft mem a b n) :
    ∀ f, n < f → climbWhileLeft mem f a = some b := by
  induction h with
  | atRoot a self l r k s h e1 =>
    intro f hf
    obtain ⟨f1, rfl⟩ : ∃ f1, f = f1 + 1 := ⟨f - 1, by omega⟩
    simp [climbWhileLeft, e1]
  | atRight a self p l r k s h pself pp pl pr pk ps ph e1 e2 e3 =>
    intro f hf
    obtain ⟨f1, rfl⟩ : ∃ f1, f = f1 + 1 := ⟨f - 1, by omega⟩
    simp [climbWhileLeft, e1, e2, e3]
  | up a b n self p l r k s h pself pp pl pr pk ps ph e1 e2 e3 _ ih =>
    intro f hf
    obtain ⟨f1, rfl⟩ : ∃ f1, f = f1 + 1 := ⟨f - 1, by omega⟩
    simp [climbWhileLeft, e1, e2, e3, ih f1 (by omega)]

theorem dec_of_ClimbsToLeft {mem : Tree α} {fuel a b n : Nat} {p : Option Nat} {r : Tree α}
    {k : α} {s h : Nat} {E : Iterator} (hA : deref mem a = node a p nil r k s h)
    (hc : ClimbsToLeft mem a b n) (hf : n < fuel) (hE : exitCursorLeft mem a b = some E) :
    Iterator.dec mem fuel ⟨some a, false⟩ = some E := by
  have e1 := ClimbsToLeft_fuel hc fuel hf
  unfold exitCursorLeft at hE
  cases hb : deref mem b with
  | nil => simp [hb] at hE
  | node bself bp bl br bk bs bh =>
    rw [hb] at hE
    simp only [Iterator.dec, GetPrevious, hA, Tree.isNull, e1, Option.bind, hb]
    by_cases c : bp = none
    · simp [c] at hE ⊢
      exact hE
    · simp [c] at hE ⊢
      exact hE

theorem PathBack_trans {mem : Tree α} {fuel : Nat} {it it1 it2 : Iterator}
    {ks ks1 : List (Nat × α)}
    (h1 : PathBack mem fuel it ks it1) (h2 : PathBack mem fuel it1 ks1 it2) :
    PathBack mem fuel it (ks ++ ks1) it2 := by
  induction h1 with
  | done it => exact h2
  | step a k it1 ks it3 e1 e2 _ ih => exact PathBack.step a k it1 _ it2 e1 e2 (ih h2)

/-- The backward walk over a subtree: started at its maximum it visits the
nodes of the subtree in reverse order, and the `--` taken at its minimum (the
node at `m`) leaves through the cursor that the climbing loop yields at the
subtree's root. -/
theorem PathBack_subtree (mem : Tree α) (fuel : Nat) (t : Tree α) :
    ∀ (par : Option Nat) (a b n m : Nat) (E : Iterator), t.ptr = some a →
      (GetMinimum t).ptr = some m →
      ParentOK par t → Agree mem t → (addrs t).Nodup →
      ClimbsToLeft mem a b n → n + depth t ≤ fuel → exitCursorLeft mem m b = some E →
      PathBack mem fuel ⟨(GetMaximum t).ptr, false⟩ (nodes t).reverse E := by
  induction t with
  | nil => intro par a b n m E hp; simp [Tree.ptr] at hp
  | node a0 p l r k s h ihl ihr =>
    intro par a b n m E hp hm hpar hag hnd hc hf hE
    simp only [Tree.ptr, Option.some.injEq] at hp
    subst hp
    obtain ⟨hA, hagl, hagr⟩ := hag
    obtain ⟨_, hpl, hpr⟩ := hpar
    simp only [addrs] at hnd
    have hnd1 := List.nodup_append.mp hnd
    have hnd2 := List.nodup_cons.mp hnd1.2.1
    simp only [depth] at hf
    have hstar : Iterator.star mem ⟨some a0, false⟩ = some k := by
      simp [Iterator.star, hA]
    -- the walk from the root of the subtree down its left side
    have hL : PathBack mem fuel ⟨some a0, false⟩ ((a0, k) :: (nodes l).reverse) E := by
      cases l with
      | nil =>
        simp only [GetMinimum, Tree.isNull, Tree.ptr, Option.some.injEq] at hm
        simp at hm
        subst hm
        exact PathBack.step a0 k E [] E hstar (dec_of_ClimbsToLeft hA hc (by omega) hE)
          (PathBack.done E)
      | node la lp ll lr lk ls lh =>
        have hlp : lp = some a0 := hpl.1
        subst hlp
        have hm1 : (GetMinimum (node la (some a0) ll lr lk ls lh)).ptr = some m := by
          simpa [GetMinimum, Tree.isNull] using hm
        have hdec : Iterator.dec mem fuel ⟨some a0, false⟩ =
            some ⟨(GetMaximum (node la (some a0) ll lr lk ls lh)).ptr, false⟩ := by
          simp [Iterator.dec, GetPrevious, hA, Tree.isNull]
        have hc1 : ClimbsToLeft mem la b (n + 1) :=
          ClimbsToLeft.up la b n la a0 ll lr lk ls lh a0 p _ r k s h hagl.1 hA rfl hc
        exact PathBack.step a0 k _ _ E hstar hdec
          (ihl (some a0) la b (n + 1) m E rfl hm1 hpl hagl hnd1.1 hc1 (by omega) hE)
    cases r with
    | nil => simpa [GetMaximum, Tree.isNull, nodes, Tree.ptr] using hL
    | node ra rp rl rr rk rs rh =>
      have hrp : rp = some a0 := hpr.1
      subst hrp
      have hra : ra ∈ addrs (node ra (some a0) rl rr rk rs rh) := by simp [addrs]
      have hnl : ra ∉ addrs l := fun hm => hnd1.2.2 hm (List.mem_cons_of_mem _ hra)
      have hc0 : ClimbsToLeft mem ra ra 0 :=
        ClimbsToLeft.atRight ra ra a0 rl rr rk rs rh a0 p l _ k s h hagr.1 hA
          (ptr_not_mem_addrs hnl)
      obtain ⟨mr, hmr⟩ : ∃ mr, (GetMinimum (node ra (some a0) rl rr rk rs rh)).ptr = some mr := by
        have := GetMinimum_isNull (node ra (some a0) rl rr rk rs rh)
        cases hg : GetMinimum (node ra (some a0) rl rr rk rs rh) with
        | nil => rw [hg] at this; simp [Tree.isNull] at this
        | node x _ _ _ _ _ _ => exact ⟨x, rfl⟩
      have hE0 : exitCursorLeft mem mr ra = some ⟨some a0, false⟩ := by
        simp [exitCursorLeft, hagr.1]
      have hR := ihr (some a0) ra ra 0 mr ⟨some a0, false⟩ rfl hmr hpr hagr hnd2.2 hc0
        (by omega) hE0
      have := PathBack_trans hR hL
      simpa [GetMaximum, Tree.isNull, nodes] using this

theorem PathBack_consecutive {mem : Tree α} {fuel : Nat} {it E : Iterator}
    {L : List (Nat × α)} (h : PathBack mem fuel it L E) :
    ∀ (L1 : List (Nat × α)) (b : Nat) (kb : α) (a : Nat) (ka : α) (L2 : List (Nat × α)),
      L = L1 ++ (b, kb) :: (a, ka) :: L2 →
      Iterator.dec mem fuel ⟨some b, false⟩ = some ⟨some a, false⟩ := by
  induction h with
  | done it => intro L1 b kb a ka L2 e; simp at e
  | step a0 k0 it1 ks it2 e1 e2 hp ih =>
    intro L1 b kb a ka L2 e
    cases L1 with
    | nil =>
      simp only [List.nil_append, List.cons.injEq, Prod.mk.injEq] at e
      obtain ⟨⟨rfl, rfl⟩, rfl⟩ := e
      cases hp with
      | step _ _ _ _ _ _ _ _ => exact e2
    | cons x L1 =>
      simp only [List.cons_append, List.cons.injEq] at e
      exact ih L1 b kb a ka L2 e.2

theorem PathBack_last {mem : Tree α} {fuel : Nat} {it E : Iterator}
    {L : List (Nat × α)} (h : PathBack mem fuel it L E) :
    ∀ (L1 : List (Nat × α)) (a : Nat) (ka : α), L = L1 ++ [(a, ka)] →
      Iterator.dec mem fuel ⟨some a, false⟩ = some E := by
  induction h with
  | done it => intro L1 a ka e; simp at e
  | step a0 k0 it1 ks it2 e1 e2 hp ih =>
    intro L1 a ka e
    cases L1 with
    | nil =>
      simp only [List.nil_append, List.cons.injEq, Prod.mk.injEq] at e
      obtain ⟨⟨rfl, rfl⟩, rfl⟩ := e
      cases hp with
      | done _ => exact e2
    | cons x L1 =>
      simp only [List.cons_append, List.cons.injEq] at e
      exact ih L1 a ka e.2

theorem collectBack_of_PathBack (s : Set α) (fuel : Nat) {it E : Iterator}
    {L : List (Nat × α)} (h : PathBack s.root fuel it L E) :
    ∀ it0, Iterator.dec s.root fuel it0 = some it → ∀ (a : Nat) (k : α) (L1 : List (Nat × α)),
      L = L1 ++ [(a, k)] →
      s.collectBack fuel L.length it0 = some (L.map Prod.snd, ⟨some a, false⟩) := by
  induction h with
  | done it => intro it0 _ a k L1 e; simp at e
  | step a0 k0 it1 ks it2 e1 e2 hp ih =>
    intro it0 h0 a k L1 e
    cases L1 with
    | nil =>
      simp only [List.nil_append, List.cons.injEq, Prod.mk.injEq] at e
      obtain ⟨⟨rfl, rfl⟩, rfl⟩ := e
      simp [Set.collectBack, h0, e1]
    | cons x L1 =>
      simp only [List.cons_append, List.cons.injEq] at e
      obtain ⟨rfl, e3⟩ := e
      have := ih ⟨some a0, false⟩ e2 a k L1 e3
      simp [Set.collectBack, h0, e1, this]

/-- The backward walk over the whole tree of a well-formed non-empty set. -/
theorem PathBack_root (fuel a : Nat) (l r : Tree α) (k : α) (sz h : Nat)
    (hp : ParentOK none (node a none l r k sz h)) (ha : (addrs (node a none l r k sz h)).Nodup)
    (hf : (keys (node a none l r k sz h)).length ≤ fuel) :
    ∃ m, (GetMinimum (node a none l r k sz h)).ptr = some m ∧
      PathBack (node a none l r k sz h) fuel
        ⟨(GetMaximum (node a none l r k sz h)).ptr, false⟩
        (nodes (node a none l r k sz h)).reverse ⟨some m, false⟩ := by
  have hag := Agree_self _ ha
  have hc : ClimbsToLeft (node a none l r k sz h) a a 0 :=
    ClimbsToLeft.atRoot a a l r k sz h hag.1
  obtain ⟨m, hm⟩ : ∃ m, (GetMinimum (node a none l r k sz h)).ptr = some m := by
    have := GetMinimum_isNull (node a none l r k sz h)
    cases hg : GetMinimum (node a none l r k sz h) with
    | nil => rw [hg] at this; simp [Tree.isNull] at this
    | node x _ _ _ _ _ _ => exact ⟨x, rfl⟩
  have hE : exitCursorLeft (node a none l r k sz h) m a = some ⟨some m, false⟩ := by
    simp [exitCursorLeft, hag.1]
  have hd := depth_le_length (node a none l r k sz h)
  exact ⟨m, hm, PathBack_subtree _ fuel _ none a a 0 m _ rfl hm hp hag ha hc (by omega) hE⟩

theorem PathBack_head {mem : Tree α} {fuel : Nat} {it E : Iterator}
    {L : List (Nat × α)} (h : PathBack mem fuel it L E) (a : Nat) (k : α)
    (ks : List (Nat × α)) (e : L = (a, k) :: ks) :
    it = ⟨some a, false⟩ ∧ Iterator.star mem it = some k := by
  cases h with
  | done _ => simp at e
  | step a0 k0 it1 ks0 it2 e1 e2 _ =>
    simp only [List.cons.injEq, Prod.mk.injEq] at e
    obtain ⟨⟨rfl, rfl⟩, _⟩ := e
    exact ⟨rfl, e1⟩

theorem nodes_head (t : Tree α) (ht : t.isNull = false) :
    ∃ ma mk rest, nodes t = (ma, mk) :: rest ∧ (GetMinimum t).ptr = some ma := by
  induction t with
  | nil => simp [Tree.isNull] at ht
  | node a p l r k s h ihl _ =>
    cases l with
    | nil => exact ⟨a, k, nodes r, by simp [nodes], by simp [GetMinimum, Tree.isNull, Tree.ptr]⟩
    | node la lp ll lr lk ls lh =>
      obtain ⟨ma, mk, rest, e1, e2⟩ := ihl rfl
      refine ⟨ma, mk, rest ++ (a, k) :: nodes r, ?_, ?_⟩
      · simp only [nodes] at e1 ⊢
        rw [e1]; simp
      · simpa [GetMinimum, Tree.isNull] using e2

theorem dec_eq_GetPrevious {mem : Tree α} {fuel b : Nat} {x : Option Nat} {f : Bool}
    (h : Iterator.dec mem fuel ⟨some b, false⟩ = some ⟨x, f⟩) :
    GetPrevious mem fuel (some b) false = some (x, f) := by
  simp only [Iterator.dec] at h
  cases hg : GetPrevious mem fuel (some b) false with
  | none => simp [hg] at h
  | some r =>
    simp only [hg, Option.bind, Bool.false_eq_true, if_false, Option.some.injEq,
      Iterator.mk.injEq] at h
    obtain ⟨h1, h2⟩ := h
    cases r
    simp_all

/-- C12: after every finite sequence of `insert` and `erase` calls that leaves
the set non-empty, the first `--` from `end()` lands on the node with the
maximum key with the past-the-end flag cleared, and as many `--` steps as there
are keys read the keys in strictly decreasing order, the reverse of the forward
sequence, arriving at `begin()`. -/
theorem backward_iteration [LinearOrder α] (ops : List (Op α)) :
    ∃ s, Set.run ops = some s ∧ (keys s.root).reverse.Sorted (· > ·) ∧
      (s.isEmpty = false → ∀ fuel, (keys s.root).length ≤ fuel →
        Iterator.dec s.root fuel s.end = some ⟨(GetMaximum s.root).ptr, false⟩ ∧
        (∃ kmax, Iterator.star s.root ⟨(GetMaximum s.root).ptr, false⟩ = some kmax ∧
          kmax ∈ keys s.root ∧ ∀ x ∈ keys s.root, x ≤ kmax) ∧
        s.collectBack fuel (keys s.root).length s.end =
          some ((keys s.root).reverse, s.begin)) := by
  obtain ⟨s, e, hb, hp, ha, _⟩ := Set.Inv_run ops
  have hsorted : (keys s.root).reverse.Sorted (· > ·) := by
    have := (BSTOrder_iff_sorted _).mp hb
    simpa [List.Sorted, List.pairwise_reverse] using this
  refine ⟨s, e, hsorted, ?_⟩
  intro hne fuel hf
  cases hr : s.root with
  | nil => simp [Set.isEmpty, hr, Tree.isNull] at hne
  | node a p l r k sz h =>
    rw [hr] at hp ha hf hsorted
    have hp0 : p = none := hp.1
    subst hp0
    have hag := Agree_self _ ha
    obtain ⟨m, hm, hpath⟩ := PathBack_root fuel a l r k sz h hp ha hf
    have hdec : Iterator.dec (node a none l r k sz h) fuel s.end =
        some ⟨(GetMaximum (node a none l r k sz h)).ptr, false⟩ := by
      have hmax : (GetMaximum (node a none l r k sz h)).ptr ≠ none := by
        have := GetMaximum_isNull (node a none l r k sz h)
        cases hg : GetMaximum (node a none l r k sz h) with
        | nil => rw [hg] at this; simp [Tree.isNull] at this
        | node x _ _ _ _ _ _ => simp [Tree.ptr]
      have hend : s.end = ⟨some a, true⟩ := by simp [Set.end, hr, Tree.ptr]
      rw [hend]
      simp [Iterator.dec, hag.1, hmax]
    -- the reversed node list is not empty: split off its head and its last element
    have hlen : (nodes (node a none l r k sz h)).reverse.length =
        (keys (node a none l r k sz h)).length := by
      rw [← nodes_snd]; simp
    have hsnd : (nodes (node a none l r k sz h)).reverse.map Prod.snd =
        (keys (node a none l r k sz h)).reverse := by
      rw [← nodes_snd, List.map_reverse]
    have hne2 : (nodes (node a none l r k sz h)).reverse ≠ [] := by
      simp [nodes]
    obtain ⟨⟨a1, k1⟩, ks, hcons⟩ := List.exists_cons_of_ne_nil hne2
    obtain ⟨am, km, rest, hnodes, ham0⟩ := nodes_head (node a none l r k sz h) rfl
    have ham : am = m := by
      rw [hm] at ham0
      exact (Option.some.inj ham0).symm
    have hsnoc : (nodes (node a none l r k sz h)).reverse = rest.reverse ++ [(am, km)] := by
      rw [hnodes]; simp
    have hhead := PathBack_head hpath a1 k1 ks hcons
    have hbegin : s.begin = ⟨some m, false⟩ := by
      simp [Set.begin, Set.isEmpty, hr, Tree.isNull, hm]
    refine ⟨hdec, ⟨k1, hhead.2, ?_, ?_⟩, ?_⟩
    · have : k1 ∈ (keys (node a none l r k sz h)).reverse := by
        rw [← hsnd, hcons]; simp
      simpa using this
    · intro x hx
      have hx2 : x ∈ (keys (node a none l r k sz h)).reverse := by simpa using hx
      rw [← hsnd, hcons] at hx2 hsorted
      simp only [List.map_cons, List.mem_cons] at hx2
      rcases hx2 with rfl | hx2
      · exact le_refl _
      · exact le_of_lt ((List.sorted_cons.mp hsorted).1 x hx2)
    · have := collectBack_of_PathBack s fuel (by rw [hr]; exact hpath) s.end
        (by rw [hr]; exact hdec) am km rest.reverse hsnoc
      rw [hlen, hsnd] at this
      rw [this, hbegin, ham]

/-- C17, counterexample: in the set built by `insert 5; insert 3` the node of
key 3 (address 1) has a parent, the root, and yet `GetPrevious` on it ends in
the fallback and returns that same node. -/
theorem previous_fallback_with_parent :
    Set.run [Op.insert (5 : Int), Op.insert 3] = some pairSet ∧
      deref pairSet.root 1 = node 1 (some 0) nil nil 3 1 0 ∧
      climbWhileLeft pairSet.root 2 1 = some 0 ∧
      GetPrevious pairSet.root 2 (some 1) false = some (some 1, false) := by
  refine ⟨by rfl, by rfl, by rfl, by rfl⟩

/-- C17, amended: after every finite sequence of `insert` and `erase` calls,
`GetPrevious` returns the node it was called on (the fallback) when that node
is the first one in order, the node of the minimum key, whether or not it has
a parent; called on any other node of the tree it returns a different node,
the one just before it in order, whose key is smaller. -/
theorem previous_spec [LinearOrder α] (ops : List (Op α)) :
    ∃ s, Set.run ops = some s ∧ ∀ fuel, (keys s.root).length ≤ fuel →
      (∀ a ka L, nodes s.root = (a, ka) :: L →
        (GetMinimum s.root).ptr = some a ∧
        GetPrevious s.root fuel (some a) false = some (some a, false)) ∧
      (∀ L1 a ka b kb L2, nodes s.root = L1 ++ (a, ka) :: (b, kb) :: L2 →
        GetPrevious s.root fuel (some b) false = some (some a, false) ∧ a ≠ b ∧ ka < kb) := by
  obtain ⟨s, e, hb, hp, ha, _⟩ := Set.Inv_run ops
  refine ⟨s, e, fun fuel hf => ?_⟩
  cases hr : s.root with
  | nil => simp [nodes]
  | node a0 p l r k sz h =>
    rw [hr] at hp ha hf hb
    have hp0 : p = none := hp.1
    subst hp0
    obtain ⟨m, hm, hpath⟩ := PathBack_root fuel a0 l r k sz h hp ha hf
    constructor
    · intro a ka L hn
      obtain ⟨am, km, rest, hnodes, ham0⟩ := nodes_head (node a0 none l r k sz h) rfl
      rw [hnodes] at hn
      simp only [List.cons.injEq, Prod.mk.injEq] at hn
      obtain ⟨⟨rfl, rfl⟩, rfl⟩ := hn
      have ham : am = m := by
        rw [hm] at ham0
        exact (Option.some.inj ham0).symm
      subst ham
      have hsnoc : (nodes (node a0 none l r k sz h)).reverse = rest.reverse ++ [(am, km)] := by
        rw [hnodes]; simp
      exact ⟨hm, dec_eq_GetPrevious (PathBack_last hpath _ am km hsnoc)⟩
    · intro L1 a ka b kb L2 hn
      have hrev : (nodes (node a0 none l r k sz h)).reverse =
          L2.reverse ++ (b, kb) :: (a, ka) :: L1.reverse := by
        rw [hn]; simp
      refine ⟨dec_eq_GetPrevious (PathBack_consecutive hpath _ b kb a ka _ hrev), ?_, ?_⟩
      · have h1 := congrArg (List.map Prod.fst) hn
        rw [nodes_fst] at h1
        rw [h1] at ha
        simp only [List.map_append, List.map_cons] at ha
        have h2 := (List.nodup_append.mp ha).2.1
        have h3 := (List.nodup_cons.mp h2).1
        intro hab
        exact h3 (by simp [hab])
      · have h1 := congrArg (List.map Prod.snd) hn
        rw [nodes_snd] at h1
        have hs := (BSTOrder_iff_sorted _).mp hb
        rw [h1] at hs
        simp only [List.map_append, List.map_cons, List.Sorted, List.pairwise_append,
          List.pairwise_cons] at hs
        exact hs.2.1.1 kb (by simp)

/-! ### Insertion without rotations -/

theorem levels_eq_depth {t : Tree α} (h : AVL t) : levels t = (shape t).depth := by
  induction t with
  | nil => rfl
  | node a p l r k s hh ihl ihr =>
    obtain ⟨h1, _, h3, h4⟩ := h
    simp only [levels_node, shape, Shape.depth, h1, ihl h3, ihr h4]
    omega

theorem Bal_shape {t : Tree α} (h : AVL t) : (shape t).Bal := by
  induction t with
  | nil => trivial
  | node a p l r k s hh ihl ihr =>
    obtain ⟨_, h2, h3, h4⟩ := h
    refine ⟨?_, ihl h3, ihr h4⟩
    rw [← levels_eq_depth h3, ← levels_eq_depth h4]
    exact h2

theorem shape_Pull (t : Tree α) : shape (Pull t) = shape t := by
  cases t <;> simp [Pull, shape]

theorem RebalStep_keep {a : Nat} {p : Option Nat} {l r : Tree α} {k : α} {s h : Nat}
    {t1 : Tree α} (hr : RebalStep (node a p l r k s h) t1)
    (hb : nearLevels (levels l) (levels r)) : t1 = Pull (node a p l r k s h) := by
  unfold nearLevels at hb
  cases hr with
  | keep _ _ _ _ _ _ _ _ _ => rfl
  | right _ _ _ _ _ _ b q rl rr rk rs rh h1 _ =>
    simp only [Height_eq_levels, levels_node] at h1 hb
    omega
  | rightLeft _ _ _ _ _ _ b q rr rk rs rh c q1 rll rlr ck cs ch h1 _ =>
    simp only [Height_eq_levels, levels_node] at h1 hb
    omega
  | left _ _ _ _ _ _ b q ll lr lk ls lh h1 _ =>
    simp only [Height_eq_levels, levels_node] at h1 hb
    omega
  | leftRight _ _ _ _ _ _ b q ll lk ls lh c q1 lrl lrr ck cs ch h1 _ =>
    simp only [Height_eq_levels, levels_node] at h1 hb
    omega

/-- When plain insertion leaves the shape balanced, `Insert` performs no
rotation: the shape of its result is the plain insertion. -/
theorem InsertRel_shape [LinearOrder α] {fresh : Nat} {key : α} {par : Option Nat}
    {t t1 : Tree α} (h : InsertRel fresh key par t t1) (ha : AVL t)
    (hbal : (Shape.insert key (shape t)).Bal) : shape t1 = Shape.insert key (shape t) := by
  induction h with
  | null par => simp [Tree.mk, shape, Shape.insert]
  | found par a p l r s h => simp [shape, Shape.insert]
  | goLeft par a p l r k s h l1 t1 hlt hins hreb ih =>
    obtain ⟨_, _, h3, h4⟩ := ha
    simp only [shape, Shape.insert, if_pos hlt] at hbal ⊢
    obtain ⟨b1, b2, _⟩ := hbal
    have e := ih h3 b2
    have al1 := (InsertRel_AVL hins h3).1
    have hb : nearLevels (levels l1) (levels r) := by
      rw [levels_eq_depth al1, levels_eq_depth h4, e]
      exact b1
    rw [RebalStep_keep hreb hb, shape_Pull]
    simp [shape, e]
  | goRight par a p l r k s h r1 t1 hlt hins hreb ih =>
    obtain ⟨_, _, h3, h4⟩ := ha
    simp only [shape, Shape.insert, if_neg (lt_asymm hlt), if_pos hlt] at hbal ⊢
    obtain ⟨b1, _, b3⟩ := hbal
    have e := ih h4 b3
    have ar1 := (InsertRel_AVL hins h4).1
    have hb : nearLevels (levels l) (levels r1) := by
      rw [levels_eq_depth h3, levels_eq_depth ar1, e]
      exact b1
    rw [RebalStep_keep hreb hb, shape_Pull]
    simp [shape, e]

theorem runFrom_Build [LinearOrder α] {T0 T : Shape α} {ks : List α} (h : Build T0 ks T) :
    ∀ s : Set α, shape s.root = T0 → AVL s.root →
      ∃ s1, Set.runFrom s (ks.map Op.insert) = some s1 ∧ shape s1.root = T ∧ AVL s1.root := by
  induction h with
  | done t => intro s hs ha; exact ⟨s, rfl, hs, ha⟩
  | step t key ks t1 hbal _ ih =>
    intro s hs ha
    obtain ⟨r1, e1, q1⟩ := Set.insert_spec s key
    have hsh : shape r1 = Shape.insert key t := by
      rw [← hs] at hbal ⊢
      exact InsertRel_shape q1 ha hbal
    obtain ⟨s2, e2, h2, a2⟩ := ih ⟨r1, s.next + 1⟩ hsh (InsertRel_AVL q1 ha).1
    exact ⟨s2, by simp [Set.runFrom, Set.step, e1, e2], h2, a2⟩

/-! ### Every balanced search tree can be built by insertions alone -/

theorem Shape.depth_insert [LinearOrder α] (key : α) (t : Shape α) :
    t.depth ≤ (Shape.insert key t).depth ∧ (Shape.insert key t).depth ≤ t.depth + 1 := by
  induction t with
  | nil => simp [Shape.insert, Shape.depth]
  | node l k r ihl ihr =>
    simp only [Shape.insert]
    split_ifs <;> simp only [Shape.depth] <;> omega

theorem Build_depth_mono [LinearOrder α] {t t1 : Shape α} {ks : List α} (h : Build t ks t1) :
    t.depth ≤ t1.depth := by
  induction h with
  | done t => exact le_refl _
  | step t key ks t1 _ _ ih => exact le_trans (Shape.depth_insert key t).1 ih

theorem Build_nil_eq [LinearOrder α] {t t1 : Shape α} (h : Build t [] t1) : t = t1 := by
  cases h
  rfl

/-- Two build sequences, one for each side of a node, can be interleaved so
that the node stays balanced all the way: always extend the side that is not
the higher one. -/
theorem Build_node [LinearOrder α] (k : α) :
    ∀ (n : Nat) (P0 P1 Q0 Q1 : Shape α) (ks1 ks2 : List α),
      ks1.length + ks2.length = n → Build P0 ks1 P1 → Build Q0 ks2 Q1 →
      (∀ x ∈ ks1, x < k) → (∀ x ∈ ks2, k < x) → P0.Bal → Q0.Bal →
      nearLevels P0.depth Q0.depth → nearLevels P1.depth Q1.depth →
      ∃ ks, ks.Perm (ks1 ++ ks2) ∧
        Build (Shape.node P0 k Q0) ks (Shape.node P1 k Q1) := by
  intro n
  induction n with
  | zero =>
    intro P0 P1 Q0 Q1 ks1 ks2 hn hP hQ _ _ _ _ _ _
    have h1 : ks1 = [] := List.length_eq_zero.mp (by omega)
    have h2 : ks2 = [] := List.length_eq_zero.mp (by omega)
    subst h1 h2
    rw [Build_nil_eq hP, Build_nil_eq hQ]
    exact ⟨[], by simp, Build.done _⟩
  | succ n ih =>
    intro P0 P1 Q0 Q1 ks1 ks2 hn hP hQ hk1 hk2 bP bQ near0 near1
    have mP := Build_depth_mono hP
    have mQ := Build_depth_mono hQ
    unfold nearLevels at near0 near1
    by_cases hleft : ks1 ≠ [] ∧ (P0.depth - 1 ≤ Q0.depth - 1 ∨ ks2 = [])
    · -- extend the left side
      obtain ⟨hne, hside⟩ := hleft
      obtain ⟨x, ks1', rfl⟩ := List.exists_cons_of_ne_nil hne
      cases hP with
      | step _ _ _ _ hb hrest =>
        have hx : x < k := hk1 x (List.mem_cons_self _ _)
        have dI := Shape.depth_insert x P0
        have mI := Build_depth_mono hrest
        have hQ01 : ks2 = [] → Q0.depth = Q1.depth := fun h2 => by
          subst h2
          rw [Build_nil_eq hQ]
        have nearI : nearLevels (Shape.insert x P0).depth Q0.depth := by
          unfold nearLevels
          rcases hside with hs | hs
          · omega
          · have := hQ01 hs
            omega
        obtain ⟨ks, hperm, hb2⟩ := ih (Shape.insert x P0) P1 Q0 Q1 ks1' ks2
          (by simp only [List.length_cons] at hn; omega) hrest hQ
          (fun y hy => hk1 y (List.mem_cons_of_mem _ hy)) hk2 hb bQ nearI
          (by unfold nearLevels; exact near1)
        refine ⟨x :: ks, by simpa using hperm, ?_⟩
        have hins : Shape.insert x (Shape.node P0 k Q0) = Shape.node (Shape.insert x P0) k Q0 := by
          simp [Shape.insert, hx]
        refine Build.step _ x ks _ ?_ ?_
        · rw [hins]
          exact ⟨nearI, hb, bQ⟩
        · rw [hins]
          exact hb2
    · -- extend the right side
      have hne : ks2 ≠ [] := by
        intro h2
        subst h2
        have h1 : ks1 ≠ [] := by
          intro h1
          subst h1
          simp at hn
        exact hleft ⟨h1, Or.inr rfl⟩
      have hside : ks1 = [] ∨ Q0.depth - 1 < P0.depth - 1 := by
        by_cases h1 : ks1 = []
        · exact Or.inl h1
        · right
          by_contra hc
          exact hleft ⟨h1, Or.inl (by omega)⟩
      obtain ⟨y, ks2', rfl⟩ := List.exists_cons_of_ne_nil hne
      cases hQ with
      | step _ _ _ _ hb hrest =>
        have hy : k < y := hk2 y (List.mem_cons_self _ _)
        have dI := Shape.depth_insert y Q0
        have mI := Build_depth_mono hrest
        have hP01 : ks1 = [] → P0.depth = P1.depth := fun h1 => by
          subst h1
          rw [Build_nil_eq hP]
        have nearI : nearLevels P0.depth (Shape.insert y Q0).depth := by
          unfold nearLevels
          rcases hside with hs | hs
          · have := hP01 hs
            omega
          · omega
        obtain ⟨ks, hperm, hb2⟩ := ih P0 P1 (Shape.insert y Q0) Q1 ks1 ks2'
          (by simp only [List.length_cons] at hn; omega) hP hrest hk1
          (fun z hz => hk2 z (List.mem_cons_of_mem _ hz)) bP hb nearI
          (by unfold nearLevels; exact near1)
        refine ⟨y :: ks, ?_, ?_⟩
        · exact (List.Perm.cons y hperm).trans (List.perm_middle.symm)
        have hins : Shape.insert y (Shape.node P0 k Q0) = Shape.node P0 k (Shape.insert y Q0) := by
          simp [Shape.insert, hy, lt_asymm hy]
        refine Build.step _ y ks _ ?_ ?_
        · rw [hins]
          exact ⟨nearI, bP, hb⟩
        · rw [hins]
          exact hb2

/-- Every balanced binary search tree is reached from the empty tree by plain
insertions of its keys, in a suitable order, through balanced trees only. -/
theorem Build_of_Bal [LinearOrder α] (T : Shape α) (hb : T.Bal)
    (hs : T.keys.Sorted (· < ·)) : ∃ ks, ks.Perm T.keys ∧ Build Shape.nil ks T := by
  induction T with
  | nil => exact ⟨[], by simp [Shape.keys], Build.done _⟩
  | node L k R ihl ihr =>
    obtain ⟨b1, b2, b3⟩ := hb
    simp only [Shape.keys, List.Sorted, List.pairwise_append, List.pairwise_cons,
      List.mem_cons] at hs
    obtain ⟨s1, ⟨s2, s3⟩, s4⟩ := hs
    obtain ⟨ks1, p1, B1⟩ := ihl b2 s1
    obtain ⟨ks2, p2, B2⟩ := ihr b3 s3
    have hk1 : ∀ x ∈ ks1, x < k := fun x hx => s4 x (p1.subset hx) k (Or.inl rfl)
    have hk2 : ∀ x ∈ ks2, k < x := fun x hx => s2 x (p2.subset hx)
    obtain ⟨ks, hperm, B⟩ := Build_node k _ Shape.nil L Shape.nil R ks1 ks2 rfl B1 B2 hk1 hk2
      trivial trivial (by simp [nearLevels, Shape.depth]) b1
    refine ⟨k :: ks, ?_, ?_⟩
    · simp only [Shape.keys]
      exact ((List.Perm.cons k hperm).trans
        (List.Perm.cons k (List.Perm.append p1 p2))).trans List.perm_middle.symm
    · refine Build.step _ k ks _ ?_ ?_
      · simp [Shape.insert, Shape.Bal, nearLevels, Shape.depth]
      · simpa [Shape.insert] using B

/-! ### The sparsest balanced trees -/

theorem fibShape_facts : ∀ h lo : Nat,
    ((fibShape h lo).keys = List.range' lo (fibCount h) ∧ (fibShape h lo).depth = h + 1 ∧
      (fibShape h lo).Bal) ∧
    ((fibShape (h + 1) lo).keys = List.range' lo (fibCount (h + 1)) ∧
      (fibShape (h + 1) lo).depth = h + 2 ∧ (fibShape (h + 1) lo).Bal) := by
  intro h
  induction h with
  | zero =>
    intro lo
    refine ⟨⟨?_, ?_, ?_⟩, ?_, ?_, ?_⟩ <;>
      simp [fibShape, fibCount, Shape.keys, Shape.depth, Shape.Bal, nearLevels, List.range']
  | succ h ih =>
    intro lo
    refine ⟨(ih lo).2, ?_, ?_, ?_⟩
    · obtain ⟨⟨k1, _, _⟩, _⟩ := ih lo
      obtain ⟨_, k2, _, _⟩ := ih (lo + fibCount h + 1)
      simp only [fibShape, Shape.keys, fibCount, k1, k2]
      rw [← List.range'_succ, List.range'_append_1]
      congr 1
      omega
    · obtain ⟨⟨_, d1, _⟩, _⟩ := ih lo
      obtain ⟨_, _, d2, _⟩ := ih (lo + fibCount h + 1)
      simp only [fibShape, Shape.depth, d1, d2]
      omega
    · obtain ⟨⟨_, d1, b1⟩, _⟩ := ih lo
      obtain ⟨_, _, d2, b2⟩ := ih (lo + fibCount h + 1)
      simp only [fibShape, Shape.Bal, d1, d2, nearLevels]
      exact ⟨⟨by omega, by omega⟩, b1, b2⟩

theorem fibCount_step (h : Nat) :
    fibCount (h + 2) + 1 = (fibCount h + 1) + (fibCount (h + 1) + 1) := by
  simp only [fibCount]
  omega

theorem fibCount_bound : ∀ h : Nat,
    (fibCount h + 1) * 100000 ^ h ≤ 2 * 161804 ^ h ∧
      (fibCount (h + 1) + 1) * 100000 ^ (h + 1) ≤ 2 * 161804 ^ (h + 1) := by
  intro h
  induction h with
  | zero => simp [fibCount]
  | succ h ih =>
    refine ⟨ih.2, ?_⟩
    obtain ⟨h1, h2⟩ := ih
    rw [fibCount_step]
    generalize fibCount h + 1 = u at h1 h2 ⊢
    generalize fibCount (h + 1) + 1 = v at h1 h2 ⊢
    simp only [pow_succ] at h2 ⊢
    generalize (100000 : Nat) ^ h = X at h1 h2 ⊢
    generalize (161804 : Nat) ^ h = Y at h1 h2 ⊢
    nlinarith [h1, h2]

/-- Bernoulli's inequality for the ratio 251/250. -/
theorem bernoulli_251 (n : Nat) : 250 ^ n * (250 + n) ≤ 250 * 251 ^ n := by
  induction n with
  | zero => simp
  | succ n ih =>
    simp only [pow_succ]
    generalize (250 : Nat) ^ n = X at ih ⊢
    generalize (251 : Nat) ^ n = Y at ih ⊢
    nlinarith [ih, Nat.zero_le (X * n), Nat.zero_le X]

theorem rate_gap : 161804 ^ 36 * 251 ≤ 2 ^ 25 * 100000 ^ 36 * 250 := by
  norm_num

/-- For every height from `250 * 4 ^ 36` on, the sparsest balanced tree of
that height has too few nodes for the bound `2 ^ (25 h) ≤ (N + 2) ^ 36`. -/
theorem fibCount_small (h : Nat) (hh : 250 * 4 ^ 36 ≤ h) :
    (fibCount h + 2) ^ 36 < 2 ^ (25 * h) := by
  have h1 := (fibCount_bound h).1
  have h2 : (fibCount h + 2) * 100000 ^ h ≤ 4 * 161804 ^ h := by
    have : (fibCount h + 2) * 100000 ^ h ≤ 2 * ((fibCount h + 1) * 100000 ^ h) := by
      have : fibCount h + 2 ≤ 2 * (fibCount h + 1) := by omega
      calc (fibCount h + 2) * 100000 ^ h ≤ (2 * (fibCount h + 1)) * 100000 ^ h :=
            Nat.mul_le_mul_right _ this
        _ = 2 * ((fibCount h + 1) * 100000 ^ h) := by ring
    omega
  -- raise to the 36th power
  have h3 : (fibCount h + 2) ^ 36 * (100000 ^ 36) ^ h ≤ 4 ^ 36 * (161804 ^ 36) ^ h := by
    have := Nat.pow_le_pow_left h2 36
    rw [mul_pow, mul_pow, ← pow_mul, ← pow_mul] at this
    rw [← pow_mul, ← pow_mul, Nat.mul_comm 36 h]
    exact this
  -- the gap between the two growth rates, h times
  have h4 : (161804 ^ 36) ^ h * 251 ^ h ≤ (2 ^ 25) ^ h * (100000 ^ 36) ^ h * 250 ^ h := by
    have := Nat.pow_le_pow_left rate_gap h
    rw [mul_pow, mul_pow, mul_pow] at this
    exact this
  -- Bernoulli: 251 ^ h beats 4 ^ 36 * 250 ^ h
  have h5 : 4 ^ 36 * 250 ^ h < 251 ^ h := by
    have hb := bernoulli_251 h
    have h6 : 250 ^ h * (250 + 250 * 4 ^ 36) ≤ 250 ^ h * (250 + h) :=
      Nat.mul_le_mul_left _ (by omega)
    have h7 : 250 * ((4 ^ 36 + 1) * 250 ^ h) ≤ 250 * 251 ^ h := by
      calc 250 * ((4 ^ 36 + 1) * 250 ^ h) = 250 ^ h * (250 + 250 * 4 ^ 36) := by ring
        _ ≤ 250 ^ h * (250 + h) := h6
        _ ≤ 250 * 251 ^ h := hb
    have h8 : (4 ^ 36 + 1) * 250 ^ h ≤ 251 ^ h := Nat.le_of_mul_le_mul_left h7 (by norm_num)
    have h9 : 0 < 250 ^ h := (by positivity)
    calc 4 ^ 36 * 250 ^ h < 4 ^ 36 * 250 ^ h + 250 ^ h := by omega
      _ = (4 ^ 36 + 1) * 250 ^ h := by ring
      _ ≤ 251 ^ h := h8
  -- put the three together and cancel the common factor
  have hpos : 0 < (100000 ^ 36) ^ h * 251 ^ h :=
    Nat.mul_pos ((by positivity)) ((by positivity))
  have hY : (2 : Nat) ^ (25 * h) = (2 ^ 25) ^ h := by rw [pow_mul]
  rw [hY]
  have hYQ : 0 < (2 ^ 25) ^ h * (100000 ^ 36) ^ h := by positivity
  generalize (fibCount h + 2) ^ 36 = X at h3 ⊢
  generalize ((2 : Nat) ^ 25) ^ h = Y at h4 hYQ ⊢
  generalize ((100000 : Nat) ^ 36) ^ h = Q at h3 h4 hpos hYQ ⊢
  generalize ((161804 : Nat) ^ 36) ^ h = P at h3 h4 ⊢
  generalize (251 : Nat) ^ h = C at h4 h5 hpos ⊢
  generalize (250 : Nat) ^ h = D at h4 h5 ⊢
  generalize (4 : Nat) ^ 36 = K at h3 h5 ⊢
  have e1 : X * (Q * C) ≤ K * P * C := by
    calc X * (Q * C) = (X * Q) * C := by ring
      _ ≤ (K * P) * C := Nat.mul_le_mul_right _ h3
  have e2 : K * P * C ≤ K * (Y * Q * D) := by
    calc K * P * C = K * (P * C) := by ring
      _ ≤ K * (Y * Q * D) := Nat.mul_le_mul_left _ h4
  have e3 : K * (Y * Q * D) < Y * (Q * C) := by
    calc K * (Y * Q * D) = (Y * Q) * (K * D) := by ring
      _ < (Y * Q) * C := Nat.mul_lt_mul_of_pos_left h5 hYQ
      _ = Y * (Q * C) := by ring
  exact Nat.lt_of_mul_lt_mul_right (lt_of_le_of_lt (le_trans e1 e2) e3)

/-! ### The height bound -/

theorem minNodes_mono : ∀ d : Nat, minNodes d ≤ minNodes (d + 1)
  | 0 => by decide
  | 1 => by decide
  | 2 => by decide
  | d + 3 => by
    show minNodes (d + 3) ≤ minNodes (d + 3) + minNodes (d + 2)
    omega

theorem minNodes_near {a b : Nat} (h : nearLevels a b) :
    minNodes (max a b + 1) ≤ minNodes a + minNodes b := by
  obtain ⟨h1, h2⟩ := h
  have key : ∀ x y : Nat, y ≤ x → x - 1 ≤ y - 1 + 1 →
      minNodes (x + 1) ≤ minNodes x + minNodes y := by
    intro x y hyx hx
    rcases x with _ | _ | _ | x
    · obtain rfl : y = 0 := by omega
      decide
    · have : 1 ≤ minNodes y := by
        rcases y with _ | y
        · decide
        · obtain rfl : y = 0 := by omega
          decide
      show 3 ≤ 2 + minNodes y
      omega
    · have : 1 ≤ minNodes y := by
        rcases y with _ | _ | y
        · decide
        · decide
        · obtain rfl : y = 0 := by omega
          decide
      show 4 ≤ 3 + minNodes y
      omega
    · show minNodes (x + 3) + minNodes (x + 2) ≤ minNodes (x + 3) + minNodes y
      have : y = x + 2 ∨ y = x + 3 := by omega
      rcases this with rfl | rfl
      · omega
      · have : minNodes (x + 2) ≤ minNodes (x + 3) := minNodes_mono (x + 2)
        omega
  rcases Nat.le_total b a with hba | hab
  · rw [Nat.max_eq_left hba]
    exact key a b hba h1
  · rw [Nat.max_eq_right hab, Nat.add_comm (minNodes a)]
    exact key b a hab h2

/-- A balanced tree with `d` levels has at least `minNodes d - 1` keys. -/
theorem minNodes_le_keys {t : Tree α} (h : AVL t) :
    minNodes (levels t) ≤ (keys t).length + 1 := by
  induction t with
  | nil => show minNodes 0 ≤ 0 + 1; decide
  | node a p l r k s hh ihl ihr =>
    obtain ⟨h1, h2, h3, h4⟩ := h
    have := minNodes_near (a := levels l) (b := levels r) h2
    have := ihl h3
    have := ihr h4
    simp only [levels_node, keys, List.length_append, List.length_cons, h1]
    omega

/-- The sparsest trees grow at least as fast as the powers of 809/500. -/
theorem minNodes_growth : ∀ d : Nat,
    6 * 809 ^ d ≤ 5 * minNodes (d + 1) * 500 ^ d ∧
      (6 * 809 ^ (d + 1) ≤ 5 * minNodes (d + 2) * 500 ^ (d + 1) ∧
        6 * 809 ^ (d + 2) ≤ 5 * minNodes (d + 3) * 500 ^ (d + 2)) := by
  intro d
  induction d with
  | zero => decide
  | succ d ih =>
    refine ⟨ih.2.1, ih.2.2, ?_⟩
    obtain ⟨_, h1, h2⟩ := ih
    have e : minNodes (d + 1 + 3) = minNodes (d + 3) + minNodes (d + 2) := rfl
    rw [e]
    generalize minNodes (d + 3) = v at h2 ⊢
    generalize minNodes (d + 2) = u at h1 ⊢
    simp only [pow_succ] at h1 h2 ⊢
    generalize (500 : Nat) ^ d = X at h1 h2 ⊢
    generalize (809 : Nat) ^ d = Y at h1 h2 ⊢
    nlinarith [h1, h2]

theorem growth_all : 2 ^ 10000 * 500 ^ 14405 ≤ 809 ^ 14405 := by
  norm_num

theorem growth_word : 2 ^ 64 * 500 ^ 93 ≤ 809 ^ 93 := by
  norm_num

theorem growth_gap : 5 ^ 36 * (2 ^ 25 * 500 ^ 36) ^ 92 ≤ 6 ^ 36 * (809 ^ 36) ^ 92 := by
  norm_num

theorem pow_next (n e : Nat) : (n + 1) ^ e ≤ (n + 2) ^ e :=
  Nat.pow_le_pow_left (Nat.le_succ (n + 1)) e

theorem pow_lift {a b c h : Nat} (e : Nat) (hle : a ^ h ≤ b * c ^ h) :
    (a ^ e) ^ h ≤ b ^ e * (c ^ e) ^ h := by
  have := Nat.pow_le_pow_left hle e
  rw [mul_pow, ← pow_mul, ← pow_mul] at this
  rw [← pow_mul, ← pow_mul, Nat.mul_comm e h]
  exact this

/-- The bound with the constant 1.4405, for every number of keys. -/
theorem bound_all {n h : Nat} (hg : 6 * 809 ^ h ≤ 5 * (n + 1) * 500 ^ h) :
    2 ^ (10000 * h) ≤ (n + 2) ^ 14405 := by
  have h1 : 809 ^ h ≤ (n + 1) * 500 ^ h := by
    have : 5 * 809 ^ h ≤ 5 * ((n + 1) * 500 ^ h) := by
      calc 5 * 809 ^ h ≤ 6 * 809 ^ h := Nat.mul_le_mul_right _ (by norm_num)
        _ ≤ 5 * (n + 1) * 500 ^ h := hg
        _ = 5 * ((n + 1) * 500 ^ h) := by ring
    exact Nat.le_of_mul_le_mul_left this (by norm_num)
  have h2 : (809 ^ 14405) ^ h ≤ (n + 1) ^ 14405 * (500 ^ 14405) ^ h :=
    @pow_lift 809 (n + 1) 500 h 14405 h1
  have h3 : (2 ^ 10000) ^ h * (500 ^ 14405) ^ h ≤ (809 ^ 14405) ^ h := by
    have := Nat.pow_le_pow_left growth_all h
    rw [mul_pow] at this
    exact this
  have hpos : 0 < (500 ^ 14405) ^ h := by positivity
  have h4 : (2 ^ 10000) ^ h ≤ (n + 1) ^ 14405 :=
    Nat.le_of_mul_le_mul_right (le_trans h3 h2) hpos
  calc 2 ^ (10000 * h) = (2 ^ 10000) ^ h := by rw [pow_mul]
    _ ≤ (n + 1) ^ 14405 := h4
    _ ≤ (n + 2) ^ 14405 := pow_next n 14405

/-- The bound with the constant 1.44, for fewer than `2 ^ 64` keys. -/
theorem bound_word {n h : Nat} (hg : 6 * 809 ^ h ≤ 5 * (n + 1) * 500 ^ h)
    (hn : n < 2 ^ 64) : 2 ^ (25 * h) ≤ (n + 2) ^ 36 := by
  -- the height is at most 92
  have hh : h ≤ 92 := by
    by_contra hc
    obtain ⟨j, rfl⟩ : ∃ j, h = 93 + j := ⟨h - 93, by omega⟩
    have h1 : 6 * (2 ^ 64 * 500 ^ 93 * 500 ^ j) ≤ 5 * (n + 1) * (500 ^ 93 * 500 ^ j) := by
      calc 6 * (2 ^ 64 * 500 ^ 93 * 500 ^ j)
          ≤ 6 * (809 ^ 93 * 809 ^ j) :=
            Nat.mul_le_mul_left _ (Nat.mul_le_mul growth_word
              (Nat.pow_le_pow_left (by norm_num) j))
        _ = 6 * 809 ^ (93 + j) := by rw [pow_add]
        _ ≤ 5 * (n + 1) * 500 ^ (93 + j) := hg
        _ = 5 * (n + 1) * (500 ^ 93 * 500 ^ j) := by rw [pow_add]
    have hpos : 0 < 500 ^ 93 * 500 ^ j := by positivity
    have h2 : 6 * 2 ^ 64 * (500 ^ 93 * 500 ^ j) ≤ 5 * (n + 1) * (500 ^ 93 * 500 ^ j) := by
      calc 6 * 2 ^ 64 * (500 ^ 93 * 500 ^ j) = 6 * (2 ^ 64 * 500 ^ 93 * 500 ^ j) := by ring
        _ ≤ _ := h1
    have h3 : 6 * 2 ^ 64 ≤ 5 * (n + 1) := Nat.le_of_mul_le_mul_right h2 hpos
    omega
  obtain ⟨j, hj⟩ : ∃ j, h + j = 92 := ⟨92 - h, by omega⟩
  have h1 : 6 ^ 36 * (809 ^ 36) ^ h ≤ 5 ^ 36 * (n + 1) ^ 36 * (500 ^ 36) ^ h := by
    have := Nat.pow_le_pow_left hg 36
    rw [mul_pow, mul_pow, mul_pow, ← pow_mul, ← pow_mul] at this
    rw [← pow_mul, ← pow_mul, Nat.mul_comm 36 h]
    exact this
  have h2 : 5 ^ 36 * ((2 ^ 25) ^ h * (500 ^ 36) ^ h) * (809 ^ 36) ^ j ≤
      6 ^ 36 * (809 ^ 36) ^ h * (809 ^ 36) ^ j := by
    calc 5 ^ 36 * ((2 ^ 25) ^ h * (500 ^ 36) ^ h) * (809 ^ 36) ^ j
        = 5 ^ 36 * ((2 ^ 25 * 500 ^ 36) ^ h * (809 ^ 36) ^ j) := by rw [mul_pow]; ring
      _ ≤ 5 ^ 36 * ((2 ^ 25 * 500 ^ 36) ^ h * (2 ^ 25 * 500 ^ 36) ^ j) :=
          Nat.mul_le_mul_left _ (Nat.mul_le_mul_left _
            (Nat.pow_le_pow_left (by norm_num) j))
      _ = 5 ^ 36 * (2 ^ 25 * 500 ^ 36) ^ 92 := by rw [← pow_add, hj]
      _ ≤ 6 ^ 36 * (809 ^ 36) ^ 92 := growth_gap
      _ = 6 ^ 36 * (809 ^ 36) ^ h * (809 ^ 36) ^ j := by rw [← hj, pow_add]; ring
  have hpos : 0 < (809 ^ 36) ^ j := by positivity
  have h3 : 5 ^ 36 * ((2 ^ 25) ^ h * (500 ^ 36) ^ h) ≤ 6 ^ 36 * (809 ^ 36) ^ h :=
    Nat.le_of_mul_le_mul_right h2 hpos
  have h4 : (2 ^ 25) ^ h * (5 ^ 36 * (500 ^ 36) ^ h) ≤
      (n + 1) ^ 36 * (5 ^ 36 * (500 ^ 36) ^ h) := by
    calc (2 ^ 25) ^ h * (5 ^ 36 * (500 ^ 36) ^ h)
        = 5 ^ 36 * ((2 ^ 25) ^ h * (500 ^ 36) ^ h) := by ring
      _ ≤ 6 ^ 36 * (809 ^ 36) ^ h := h3
      _ ≤ 5 ^ 36 * (n + 1) ^ 36 * (500 ^ 36) ^ h := h1
      _ = (n + 1) ^ 36 * (5 ^ 36 * (500 ^ 36) ^ h) := by ring
  have hpos2 : 0 < 5 ^ 36 * (500 ^ 36) ^ h := by positivity
  calc 2 ^ (25 * h) = (2 ^ 25) ^ h := by rw [pow_mul]
    _ ≤ (n + 1) ^ 36 := Nat.le_of_mul_le_mul_right h4 hpos2
    _ ≤ (n + 2) ^ 36 := pow_next n 36

/-- The growth bound for a balanced tree, in terms of its keys and height. -/
theorem AVL_growth {t : Tree α} (h : AVL t) (hne : t.isNull = false) :
    6 * 809 ^ Height t ≤ 5 * ((keys t).length + 1) * 500 ^ Height t := by
  have h1 := minNodes_le_keys h
  have h2 := (minNodes_growth (Height t)).1
  have h3 : levels t = Height t + 1 := by
    cases t with
    | nil => simp [Tree.isNull] at hne
    | node a p l r k s hh => rfl
  rw [h3] at h1
  calc 6 * 809 ^ Height t ≤ 5 * minNodes (Height t + 1) * 500 ^ Height t := h2
    _ ≤ 5 * ((keys t).length + 1) * 500 ^ Height t :=
        Nat.mul_le_mul_right _ (Nat.mul_le_mul_left _ h1)

/-- Inserting distinct keys into the empty set: the run returns a balanced
tree whose keys are as many as were inserted, and `size()` counts them. -/
theorem run_inserts [LinearOrder α] (ks : List α) (hd : ks.Nodup) :
    ∃ s, Set.run (ks.map Op.insert) = some s ∧ AVL s.root ∧
      (keys s.root).length = ks.length ∧ s.size = ks.length := by
  obtain ⟨s, e, ha⟩ := Set.run_invariant (fun s : Set α => AVL s.root)
    (by simp [Set.empty, AVL]) (fun s op hs s1 h => AVL_step s op hs s1 h) (ks.map Op.insert)
  obtain ⟨s2, e2, hrep⟩ := Represents_run (ks.map Op.insert)
  obtain rfl : s = s2 := Option.some.inj (e.symm.trans e2)
  have hsz := Represents_size hrep
  obtain ⟨hb, _, hk⟩ := hrep
  have h1 := List.toFinset_card_of_nodup (keys_nodup_of_BSTOrder hb)
  have hc : (model (ks.map Op.insert)).card = ks.length := by
    rw [model, foldl_applyOp_insert, Finset.empty_union, List.toFinset_card_of_nodup hd]
  rw [hk, hc] at h1
  exact ⟨s, e, ha, h1.symm, hsz.trans hc⟩

/-- The growth bound for the tree that inserting `N ≥ 1` distinct keys into
the empty set returns: `6 * (809/500) ^ h ≤ 5 * (N + 1)` for its height `h`
in edges. -/
theorem run_inserts_growth [LinearOrder α] (ks : List α) (hd : ks.Nodup)
    (hn : 1 ≤ ks.length) :
    ∃ s, Set.run (ks.map Op.insert) = some s ∧ s.size = ks.length ∧
      6 * 809 ^ longestPath s.root ≤ 5 * (ks.length + 1) * 500 ^ longestPath s.root := by
  obtain ⟨s, e, ha, hlen, hsz⟩ := run_inserts ks hd
  have hne : s.root.isNull = false := by
    cases hr : s.root with
    | nil => rw [hr] at hlen; simp [keys] at hlen; omega
    | node a p l r k sz hh => rfl
  have hg := AVL_growth ha hne
  rw [Height_eq_longestPath ((AVL_iff _).mp ha).1, hlen] at hg
  exact ⟨s, e, hsz, hg⟩

/-- With the slightly larger constant 1.4405 the height bound holds for any
number of keys, also beyond what a machine word can count: for every
`N ≥ 1` and every order of inserting `N` distinct keys into the empty set,
`2 ^ (10000 * h) ≤ (N + 2) ^ 14405`. -/
theorem balance_bound_any_size [LinearOrder α] (ks : List α) (hd : ks.Nodup)
    (hn : 1 ≤ ks.length) :
    ∃ s, Set.run (ks.map Op.insert) = some s ∧
      2 ^ (10000 * longestPath s.root) ≤ (ks.length + 2) ^ 14405 := by
  obtain ⟨s, e, _, hg⟩ := run_inserts_growth ks hd hn
  exact ⟨s, e, bound_all hg⟩

/-- A remark on why the bound with the constant 1.44 is stated for key counts
that fit the 64-bit `size_t` counter: on an idealised machine with unbounded
memory, the sparsest balanced tree of a height of at least `250 * 4 ^ 36`
(which has far more than `2 ^ 64` nodes) can be built by insertions that never
trigger a rotation, and it breaks `2 ^ (25 * h) ≤ (N + 2) ^ 36`. -/
theorem exact_bound_needs_word_size :
    ∃ ks : List Nat, ks.Nodup ∧ 2 ^ 64 ≤ ks.length ∧
      ∃ s, Set.run (ks.map Op.insert) = some s ∧
        ¬ (2 ^ (25 * longestPath s.root) ≤ (ks.length + 2) ^ 36) := by
  obtain ⟨h, hh⟩ : ∃ h : Nat, 250 * 4 ^ 36 ≤ h := ⟨_, le_refl _⟩
  obtain ⟨hk, hd, hb⟩ := (fibShape_facts h 0).1
  have hsorted : (fibShape h 0).keys.Sorted (· < ·) := by
    rw [hk]
    exact List.pairwise_lt_range' 0 (fibCount h)
  obtain ⟨ks, hperm, hbuild⟩ := Build_of_Bal (fibShape h 0) hb hsorted
  obtain ⟨s, e, hs, ha⟩ := runFrom_Build hbuild Set.empty rfl (by simp [Set.empty, AVL])
  have hlen : ks.length = fibCount h := by
    rw [hperm.length_eq, hk, List.length_range']
  have hnodup : ks.Nodup := hperm.nodup_iff.mpr (by rw [hk]; exact List.nodup_range' 0 (fibCount h))
  have hlp : longestPath s.root = h := by
    rw [← Height_eq_longestPath ((AVL_iff _).mp ha).1, Height_eq_levels, levels_eq_depth ha,
      hs, hd]
    rfl
  have hfail : ¬ (2 ^ (25 * longestPath s.root) ≤ (ks.length + 2) ^ 36) := by
    rw [hlp, hlen]
    exact not_le.mpr (fibCount_small h hh)
  refine ⟨ks, hnodup, ?_, s, e, hfail⟩
  by_contra hc
  obtain ⟨s2, e2, _, hg⟩ := run_inserts_growth ks hnodup (by
    rw [hlen]
    cases h with
    | zero => decide
    | succ h =>
      cases h with
      | zero => decide
      | succ h => simp only [fibCount]; omega)
  obtain rfl : s = s2 := Option.some.inj (e.symm.trans e2)
  exact hfail (bound_word hg (not_le.mp hc))

/-- C13: for every `N ≥ 1` within the range of the 64-bit `size_t` counter
(`N < 2 ^ 64`, as the number of nodes in memory always is) and every order of
inserting `N` distinct keys into the empty set (ascending, descending,
alternating or any other), the insertions return a set with `size() = N`
whose height `h`, counted in edges from the root to the deepest leaf,
satisfies `2 ^ (25 * h) ≤ (N + 2) ^ 36`, the exact integer form of
`h ≤ 1.44 * log2 (N + 2)`. -/
theorem balance_bound [LinearOrder α] (ks : List α) (hd : ks.Nodup) (hn : 1 ≤ ks.length)
    (hw : ks.length < 2 ^ 64) :
    ∃ s, Set.run (ks.map Op.insert) = some s ∧ s.size = ks.length ∧
      2 ^ (25 * longestPath s.root) ≤ (ks.length + 2) ^ 36 := by
  obtain ⟨s, e, hsz, hg⟩ := run_inserts_growth ks hd hn
  exact ⟨s, e, hsz, bound_word hg hw⟩

theorem balance_bound_witness :
    ([1, 2, 3, 4, 5, 6, 7] : List Int).Nodup ∧
      1 ≤ ([1, 2, 3, 4, 5, 6, 7] : List Int).length ∧
      ([1, 2, 3, 4, 5, 6, 7] : List Int).length < 2 ^ 64 ∧
      ∃ s, Set.run (([1, 2, 3, 4, 5, 6, 7] : List Int).map Op.insert) = some s ∧
        s.size = ([1, 2, 3, 4, 5, 6, 7] : List Int).length ∧
        2 ^ (25 * longestPath s.root) ≤ (([1, 2, 3, 4, 5, 6, 7] : List Int).length + 2) ^ 36 :=
  ⟨by decide, by decide, by decide,
    balance_bound [1, 2, 3, 4, 5, 6, 7] (by decide) (by decide) (by decide)⟩

end AlgoSet
